import Mathlib

/-!
Shallow embedding of the `sudoku` crate (a 9×9 sudoku solver and generator)
together with proofs of its specification.

The embedding follows the Rust sources module by module:

* `src/square.rs`   — squares 0..81 with their column / row / block lookup tables;
* `src/number.rs`   — digits are plain naturals in 1..=9;
* `src/bitboard.rs` — an 81-bit set of squares stored in a `u128` (modelled as `Nat`;
  no arithmetic here can exceed `2^128`, so `Nat` operations agree with `u128` ones);
* `src/used_mask.rs`— the three used-digit masks;
* `src/board.rs`    — the board, modelled as a function from square index to
  optional digit (indices ≥ 81 are never touched by the engine);
* `src/sudoku.rs`   — the search engine and the generator.

The Rust search procedures recurse on the vacant-square bitboard, removing one
set bit per level.  To keep every definition computable by the kernel the
recursions here carry an explicit fuel argument; `82` is always enough fuel
because a bitboard of 81 squares supports at most 81 levels, and the
development proves the fuel is never exhausted.
-/

set_option maxRecDepth 40000
set_option maxHeartbeats 1000000

/-- From src/square.rs: the lookup table of `Square::col`. -/
def Square.colTable : List Nat :=
  [0, 1, 2, 3, 4, 5, 6, 7, 8,
   0, 1, 2, 3, 4, 5, 6, 7, 8,
   0, 1, 2, 3, 4, 5, 6, 7, 8,
   0, 1, 2, 3, 4, 5, 6, 7, 8,
   0, 1, 2, 3, 4, 5, 6, 7, 8,
   0, 1, 2, 3, 4, 5, 6, 7, 8,
   0, 1, 2, 3, 4, 5, 6, 7, 8,
   0, 1, 2, 3, 4, 5, 6, 7, 8,
   0, 1, 2, 3, 4, 5, 6, 7, 8]

/-- From src/square.rs: the lookup table of `Square::row`. -/
def Square.rowTable : List Nat :=
  [0, 0, 0, 0, 0, 0, 0, 0, 0,
   1, 1, 1, 1, 1, 1, 1, 1, 1,
   2, 2, 2, 2, 2, 2, 2, 2, 2,
   3, 3, 3, 3, 3, 3, 3, 3, 3,
   4, 4, 4, 4, 4, 4, 4, 4, 4,
   5, 5, 5, 5, 5, 5, 5, 5, 5,
   6, 6, 6, 6, 6, 6, 6, 6, 6,
   7, 7, 7, 7, 7, 7, 7, 7, 7,
   8, 8, 8, 8, 8, 8, 8, 8, 8]

/-- From src/square.rs: the lookup table of `Square::block`. -/
def Square.blockTable : List Nat :=
  [0, 0, 0, 1, 1, 1, 2, 2, 2,
   0, 0, 0, 1, 1, 1, 2, 2, 2,
   0, 0, 0, 1, 1, 1, 2, 2, 2,
   3, 3, 3, 4, 4, 4, 5, 5, 5,
   3, 3, 3, 4, 4, 4, 5, 5, 5,
   3, 3, 3, 4, 4, 4, 5, 5, 5,
   6, 6, 6, 7, 7, 7, 8, 8, 8,
   6, 6, 6, 7, 7, 7, 8, 8, 8,
   6, 6, 6, 7, 7, 7, 8, 8, 8]

/-- From src/square.rs: `Square::col`. -/
def Square.col (sq : Nat) : Nat := Square.colTable.getD sq 0

/-- From src/square.rs: `Square::row`. -/
def Square.row (sq : Nat) : Nat := Square.rowTable.getD sq 0

/-- From src/square.rs: `Square::block`. -/
def Square.block (sq : Nat) : Nat := Square.blockTable.getD sq 0

/-- From src/square.rs: `Square::all`, the 81 squares in ascending order. -/
def Square.all : List Nat := List.range 81

/-- From src/used_mask.rs: one per-dimension mask (a `u128`; bit `9*i + num - 1`
is 1 exactly when digit `num` is unused in group `i`). -/
structure UsedMask where
  val : Nat
deriving DecidableEq

/-- From src/used_mask.rs: `UsedMask::all_unused`. -/
def UsedMask.all_unused : UsedMask := ⟨(1 <<< 81) - 1⟩

/-- From src/used_mask.rs: `UsedMask::all_used`. -/
def UsedMask.all_used : UsedMask := ⟨0⟩

/-- From src/used_mask.rs: `UsedMask::use_number` (`self.0 &= !(1 << (9*i + num - 1))`;
Rust `!` on `u128` is XOR with `2^128 - 1`). -/
def UsedMask.use_number (m : UsedMask) (i num : Nat) : UsedMask :=
  ⟨m.val &&& (((1 <<< 128) - 1) ^^^ (1 <<< (9 * i + num - 1)))⟩

/-- From src/used_mask.rs: `UsedMask::unuse_number` (`self.0 |= 1 << (9*i + num - 1)`). -/
def UsedMask.unuse_number (m : UsedMask) (i num : Nat) : UsedMask :=
  ⟨m.val ||| (1 <<< (9 * i + num - 1))⟩

/-- From src/used_mask.rs: `UsedMasks`. -/
structure UsedMasks where
  col_mask : UsedMask
  row_mask : UsedMask
  block_mask : UsedMask
deriving DecidableEq

/-- From src/used_mask.rs: `UsedMasks::all_unused`. -/
def UsedMasks.all_unused : UsedMasks :=
  ⟨UsedMask.all_unused, UsedMask.all_unused, UsedMask.all_unused⟩

/-- From src/used_mask.rs: `UsedMasks::use_number`. -/
def UsedMasks.use_number (um : UsedMasks) (sq num : Nat) : UsedMasks :=
  ⟨um.col_mask.use_number (Square.col sq) num,
   um.row_mask.use_number (Square.row sq) num,
   um.block_mask.use_number (Square.block sq) num⟩

/-- From src/used_mask.rs: `UsedMasks::unuse_number`. -/
def UsedMasks.unuse_number (um : UsedMasks) (sq num : Nat) : UsedMasks :=
  ⟨um.col_mask.unuse_number (Square.col sq) num,
   um.row_mask.unuse_number (Square.row sq) num,
   um.block_mask.unuse_number (Square.block sq) num⟩

/-- From src/used_mask.rs: the constant `MASK_NUMS = (1 << 9) - 1`. -/
def MASK_NUMS : Nat := (1 <<< 9) - 1

/-- From src/used_mask.rs: `UsedMasks::candidate_mask`.  The `% (1 <<< 32)`
reproduces the Rust `as u32` truncating casts. -/
def UsedMasks.candidate_mask (um : UsedMasks) (sq : Nat) : Nat :=
  let col_mask := (um.col_mask.val >>> (9 * Square.col sq)) % (1 <<< 32)
  let row_mask := (um.row_mask.val >>> (9 * Square.row sq)) % (1 <<< 32)
  let block_mask := (um.block_mask.val >>> (9 * Square.block sq)) % (1 <<< 32)
  col_mask &&& row_mask &&& block_mask &&& MASK_NUMS

/-- From src/used_mask.rs: `UsedMasks::is_legal`. -/
def UsedMasks.is_legal (um : UsedMasks) (sq num : Nat) : Bool :=
  um.candidate_mask sq &&& (1 <<< (num - 1)) != 0

/-- From src/used_mask.rs: `UsedMasks::candidates`.  The Rust iterator clears
the lowest set bit of a snapshot of `candidate_mask` repeatedly, producing the
digits `i+1` for the set bits `i` in ascending order; since the mask is ANDed
with `MASK_NUMS` only bits 0..9 can be set, so the same ascending list is
obtained by filtering `0..9`. -/
def UsedMasks.candidates (um : UsedMasks) (sq : Nat) : List Nat :=
  let mask := um.candidate_mask sq
  (List.range 9).filterMap (fun i => if mask &&& (1 <<< i) != 0 then some (i + 1) else none)

/-- From src/used_mask.rs: `UsedMasks::candidate_count` (`count_ones` of the
`u32` candidate mask). -/
def UsedMasks.candidate_count (um : UsedMasks) (sq : Nat) : Nat :=
  ((List.range 32).filter (fun i => um.candidate_mask sq &&& (1 <<< i) != 0)).length

/-- From src/bitboard.rs: `Bitboard`, an 81-bit set of squares in a `u128`. -/
structure Bitboard where
  val : Nat
deriving DecidableEq

/-- From src/bitboard.rs: `Bitboard::empty`. -/
def Bitboard.empty : Bitboard := ⟨0⟩

/-- From src/bitboard.rs: `Bitboard::full`. -/
def Bitboard.full : Bitboard := ⟨(1 <<< 81) - 1⟩

/-- From src/bitboard.rs: `Bitboard::is_zero`. -/
def Bitboard.is_zero (bb : Bitboard) : Bool := bb.val == 0

/-- From src/bitboard.rs: `Bitboard::add`. -/
def Bitboard.add (bb : Bitboard) (sq : Nat) : Bitboard := ⟨bb.val ||| (1 <<< sq)⟩

/-- From src/bitboard.rs: `Bitboard::remove` (`self.0 &= !(1 << sq)`). -/
def Bitboard.remove (bb : Bitboard) (sq : Nat) : Bitboard :=
  ⟨bb.val &&& (((1 <<< 128) - 1) ^^^ (1 <<< sq))⟩

/-- From src/bitboard.rs: `Bitboard::iter`, the set squares in ascending order.
The Rust iterator pops the lowest set bit repeatedly; every bitboard built by
the engine has its bits below 81, so the list of set bits among `0..81` in
ascending order is the same sequence. -/
def Bitboard.iter (bb : Bitboard) : List Nat :=
  (List.range 81).filter (fun i => bb.val &&& (1 <<< i) != 0)

/-- From src/board.rs: `Board`, a mapping from square index to optional digit
(the Rust array of 81 `Option<Number>`s; indices ≥ 81 are out of range there
and always hold `none` here). -/
abbrev Board := Nat → Option Nat

/-- From src/board.rs: `Board::empty`. -/
def Board.empty : Board := fun _ => none

/-- From src/board.rs: `Board::is_solved`. -/
def Board.is_solved (b : Board) : Bool := (List.range 81).all (fun sq => (b sq).isSome)

/-- From src/sudoku.rs: the `Sudoku` state, a board paired with its used-masks. -/
structure Sudoku where
  board : Board
  used_masks : UsedMasks

/-- From src/sudoku.rs: `Sudoku::put_number`. -/
def Sudoku.put_number (s : Sudoku) (sq num : Nat) : Sudoku :=
  ⟨Function.update s.board sq (some num), s.used_masks.use_number sq num⟩

/-- From src/sudoku.rs: `Sudoku::remove_number`. -/
def Sudoku.remove_number (s : Sudoku) (sq num : Nat) : Sudoku :=
  ⟨Function.update s.board sq none, s.used_masks.unuse_number sq num⟩

/-- From src/sudoku.rs: `Sudoku::new`. -/
def Sudoku.new (b : Board) : Sudoku :=
  ⟨b, Square.all.foldl
        (fun um sq => match b sq with
          | some num => um.use_number sq num
          | none => um)
        UsedMasks.all_unused⟩

/-- From src/sudoku.rs: `Sudoku::is_solved`. -/
def Sudoku.is_solved (s : Sudoku) : Bool := s.board.is_solved

/-- From src/sudoku.rs: `Sudoku::put`. -/
def Sudoku.put (s : Sudoku) (sq num : Nat) : Bool × Sudoku :=
  if s.used_masks.is_legal sq num then (true, s.put_number sq num) else (false, s)

/-- From src/sudoku.rs: `calc_bb_vacant`. -/
def calc_bb_vacant (b : Board) : Bitboard :=
  (Square.all.filter (fun sq => (b sq).isNone)).foldl (fun bb sq => bb.add sq) Bitboard.empty

/-- From src/sudoku.rs: the `min_by_key` fold of `pop_best_vacant_square`.
Rust's `Iterator::min_by_key` keeps the first element attaining the minimum. -/
def minByKey (f : Nat → Nat) (l : List Nat) : Option Nat :=
  l.foldl
    (fun acc x => match acc with
      | none => some x
      | some y => if f x < f y then some x else some y)
    none

/-- From src/sudoku.rs: `Sudoku::pop_best_vacant_square`; the mutated bitboard
is returned alongside the popped square. -/
def Sudoku.pop_best_vacant_square (s : Sudoku) (bb : Bitboard) : Option (Nat × Bitboard) :=
  match minByKey (fun sq => s.used_masks.candidate_count sq) bb.iter with
  | none => none
  | some sq => some (sq, bb.remove sq)

/-- From src/sudoku.rs: the candidate loop of `Sudoku::solve_impl`.  `f` is the
recursive call at the next level; on failure the placement is undone and the
next candidate tried. -/
def solveLoop (f : Sudoku → Bool × Sudoku) (sq : Nat) : List Nat → Sudoku → Bool × Sudoku
  | [], s => (false, s)
  | num :: rest, s =>
    let r := f (s.put_number sq num)
    if r.1 then (true, r.2)
    else solveLoop f sq rest (r.2.remove_number sq num)

/-- From src/sudoku.rs: `Sudoku::solve_impl`, with fuel (see the module comment). -/
def solveImpl : Nat → Sudoku → Bitboard → Bool × Sudoku
  | 0, s, _ => (false, s)
  | fuel + 1, s, bb =>
    match s.pop_best_vacant_square bb with
    | none => (true, s)
    | some (sq, bb') => solveLoop (fun s1 => solveImpl fuel s1 bb') sq (s.used_masks.candidates sq) s

/-- From src/sudoku.rs: `Sudoku::solve`. -/
def Sudoku.solve (s : Sudoku) : Bool × Sudoku := solveImpl 82 s (calc_bb_vacant s.board)

/-- From src/sudoku.rs: the candidate loop of `Sudoku::is_solvable_impl`
(the placement is undone before the outcome is inspected). -/
def solvableLoop (f : Sudoku → Bool × Sudoku) (sq : Nat) : List Nat → Sudoku → Bool × Sudoku
  | [], s => (false, s)
  | num :: rest, s =>
    let r := f (s.put_number sq num)
    let s2 := r.2.remove_number sq num
    if r.1 then (true, s2) else solvableLoop f sq rest s2

/-- From src/sudoku.rs: `Sudoku::is_solvable_impl`, with fuel. -/
def solvableImpl : Nat → Sudoku → Bitboard → Bool × Sudoku
  | 0, s, _ => (false, s)
  | fuel + 1, s, bb =>
    match s.pop_best_vacant_square bb with
    | none => (true, s)
    | some (sq, bb') =>
      solvableLoop (fun s1 => solvableImpl fuel s1 bb') sq (s.used_masks.candidates sq) s

/-- From src/sudoku.rs: `Sudoku::is_solvable`. -/
def Sudoku.is_solvable (s : Sudoku) : Bool × Sudoku := solvableImpl 82 s (calc_bb_vacant s.board)

/-- From src/sudoku.rs: the candidate loop of `Search::search` inside
`Sudoku::is_unique_solvable_impl` (after the undo, the search is cut off as
soon as the solution counter reaches 2). -/
def countLoop (f : Sudoku → Nat → Nat × Sudoku) (sq : Nat) : List Nat → Sudoku → Nat → Nat × Sudoku
  | [], s, count => (count, s)
  | num :: rest, s, count =>
    let r := f (s.put_number sq num) count
    let s2 := r.2.remove_number sq num
    if 2 ≤ r.1 then (r.1, s2)
    else countLoop f sq rest s2 r.1

/-- From src/sudoku.rs: `Search::search` of `Sudoku::is_unique_solvable_impl`,
with fuel; the solution counter is threaded explicitly. -/
def countImpl : Nat → Sudoku → Bitboard → Nat → Nat × Sudoku
  | 0, s, _, count => (count, s)
  | fuel + 1, s, bb, count =>
    match s.pop_best_vacant_square bb with
    | none => (count + 1, s)
    | some (sq, bb') =>
      countLoop (fun s1 c1 => countImpl fuel s1 bb' c1) sq (s.used_masks.candidates sq) s count

/-- From src/sudoku.rs: `Sudoku::is_unique_solvable` (`search.count == 1`). -/
def Sudoku.is_unique_solvable (s : Sudoku) : Bool × Sudoku :=
  let r := countImpl 82 s (calc_bb_vacant s.board) 0
  (r.1 == 1, r.2)

/-- From src/sudoku.rs: the candidate loop of `Search::search_impl` inside
`Sudoku::is_solvable_limited` (`if ok != Some(false) { return ok; }`). -/
def limitedLoop (f : Sudoku → Nat → (Option Bool × Nat) × Sudoku) (sq : Nat) :
    List Nat → Sudoku → Nat → (Option Bool × Nat) × Sudoku
  | [], s, cnt => ((some false, cnt), s)
  | num :: rest, s, cnt =>
    let r := f (s.put_number sq num) cnt
    let s2 := r.2.remove_number sq num
    if r.1.1 ≠ some false then ((r.1.1, r.1.2), s2)
    else limitedLoop f sq rest s2 r.1.2

/-- From src/sudoku.rs: `Search::search_impl` of `Sudoku::is_solvable_limited`,
with fuel; the node counter is threaded explicitly (`node_count += 1; if
node_count >= node_count_max { return None; }`). -/
def limitedImpl (node_count_max : Nat) : Nat → Sudoku → Bitboard → Nat → (Option Bool × Nat) × Sudoku
  | 0, s, _, cnt => ((none, cnt), s)
  | fuel + 1, s, bb, cnt =>
    if node_count_max ≤ cnt + 1 then ((none, cnt + 1), s)
    else
      match s.pop_best_vacant_square bb with
      | none => ((some true, cnt + 1), s)
      | some (sq, bb') =>
        limitedLoop (fun s1 c1 => limitedImpl node_count_max fuel s1 bb' c1) sq
          (s.used_masks.candidates sq) s (cnt + 1)

/-- From src/sudoku.rs: `Sudoku::is_solvable_limited` (the search recomputes the
vacant bitboard from the board at its top level). -/
def Sudoku.is_solvable_limited (s : Sudoku) (node_count_max : Nat) : (Option Bool × Nat) × Sudoku :=
  limitedImpl node_count_max 82 s (calc_bb_vacant s.board) 0

/-- Modelled from the spec: the generator draws from an injectable random
source; randomness is modelled as an infinite stream of naturals `r : Nat → Nat`
together with a running position into the stream. -/
abbrev RandStream := Nat → Nat

/-- Modelled from the spec: rand's `IteratorRandom::choose` (used by
`try_generate_solved`), which returns a uniformly random element of a
non-empty sequence and `None` on an empty one.  The model selects the element
indexed by the next stream value modulo the length. -/
def chooseList (l : List Nat) (rv : Nat) : Option Nat := l.get? (rv % l.length)

/-- Modelled from the spec: rand's `SliceRandom::shuffle` (used by
`generate_unique` to visit all 81 cells in a random order); the model selects
the next element by the stream repeatedly, producing a permutation of the
input.  The first argument is fuel, instantiated with the list length. -/
def shuffleGo (r : RandStream) : Nat → List Nat → Nat → List Nat × Nat
  | 0, _, k => ([], k)
  | fuel + 1, l, k =>
    match l.get? (r k % l.length) with
    | none => ([], k)
    | some x =>
      let p := shuffleGo r fuel (l.eraseIdx (r k % l.length)) (k + 1)
      (x :: p.1, p.2)

/-- Modelled from the spec: rand's `SliceRandom::shuffle`, see `shuffleGo`. -/
def shuffleList (r : RandStream) (l : List Nat) (k : Nat) : List Nat × Nat :=
  shuffleGo r l.length l k

/-- Outcome of one `try_generate_solved` attempt: a `.unwrap()` panic (shown
unreachable below), the node-budget signal (Rust's `None`), a finished solved
state (Rust's `Some`), or exhaustion of the model's loop fuel. -/
inductive GenResult where
  | panicked : GenResult
  | limit : GenResult
  | built : Sudoku → GenResult
  | fuel_out : GenResult

/-- From src/sudoku.rs: the `while !bb_vacant.is_zero()` loop of
`Sudoku::try_generate_solved`, with fuel (the Rust loop can retry a square
forever on an adversarial random source).  The two `.unwrap()` calls are
modelled by the `panicked` outcome. -/
def tryGenerateSolvedGo (r : RandStream) : Nat → Sudoku → Bitboard → Nat → GenResult × Nat
  | 0, _, _, k => (GenResult.fuel_out, k)
  | fuel + 1, s, bb, k =>
    if bb.is_zero then (GenResult.built s, k)
    else
      match chooseList bb.iter (r k) with
      | none => (GenResult.panicked, k + 1)
      | some sq =>
        match chooseList (s.used_masks.candidates sq) (r (k + 1)) with
        | none => (GenResult.panicked, k + 2)
        | some num =>
          let s1 := s.put_number sq num
          let bb1 := bb.remove sq
          match (s1.is_solvable_limited 1000000).1.1 with
          | none => (GenResult.limit, k + 2)
          | some ok =>
            if ok then tryGenerateSolvedGo r fuel s1 bb1 (k + 2)
            else tryGenerateSolvedGo r fuel (s1.remove_number sq num) (bb1.add sq) (k + 2)

/-- From src/sudoku.rs: `Sudoku::try_generate_solved`. -/
def Sudoku.try_generate_solved (r : RandStream) (fuel k : Nat) : GenResult × Nat :=
  tryGenerateSolvedGo r fuel (Sudoku.new Board.empty) Bitboard.full k

/-- From src/sudoku.rs: the retry loop of `Sudoku::generate_solved`
(restart whenever the node budget was hit), with fuel for the unbounded loop. -/
def generateSolvedGo (r : RandStream) : Nat → Nat → Nat → GenResult × Nat
  | 0, _, k => (GenResult.fuel_out, k)
  | fuel + 1, tryFuel, k =>
    match Sudoku.try_generate_solved r tryFuel k with
    | (GenResult.limit, k') => generateSolvedGo r fuel tryFuel k'
    | other => other

/-- From src/sudoku.rs: the loop over alternative digits (`candidates(sq)
filtered by `!= num`) inside `Sudoku::generate_unique`. -/
def altLoop (sq : Nat) : List Nat → Sudoku → Bool × Sudoku
  | [], s => (false, s)
  | num_other :: rest, s =>
    let s1 := s.put_number sq num_other
    let r := s1.is_solvable
    let s2 := r.2.remove_number sq num_other
    if r.1 then (true, s2) else altLoop sq rest s2

/-- From src/sudoku.rs: the cell-removal loop of `Sudoku::generate_unique`;
`sudoku.board[sq].unwrap()` is modelled by the `none` outcome (a panic). -/
def genUniqueLoop (hint_min : Nat) : List Nat → Nat → Sudoku → Option Sudoku
  | [], _, s => some s
  | sq :: rest, hint, s =>
    if hint ≤ hint_min then some s
    else
      match s.board sq with
      | none => none
      | some num =>
        let s1 := s.remove_number sq num
        let r := altLoop sq ((s1.used_masks.candidates sq).filter (fun e => e != num)) s1
        if r.1 then genUniqueLoop hint_min rest hint (r.2.put_number sq num)
        else genUniqueLoop hint_min rest (hint - 1) r.2

/-- Outcome of `generate_unique`: a puzzle/solution pair, a panic (shown
unreachable below), or exhaustion of the model's fuel for the generation
loops. -/
inductive GenUniqueResult where
  | panicked : GenUniqueResult
  | fuel_out : GenUniqueResult
  | ok : Sudoku → Sudoku → GenUniqueResult

/-- From src/sudoku.rs: `Sudoku::generate_unique` (build a solved state, clone
it as the solution, shuffle the squares and run the removal loop starting from
a hint count of 81). -/
def Sudoku.generate_unique (r : RandStream) (fuel : Nat) (hint_min : Nat) : GenUniqueResult :=
  match generateSolvedGo r fuel fuel 0 with
  | (GenResult.built s, k) =>
    let p := shuffleList r Square.all k
    match genUniqueLoop hint_min p.1 81 s with
    | some puzzle => GenUniqueResult.ok puzzle s
    | none => GenUniqueResult.panicked
  | (GenResult.panicked, _) => GenUniqueResult.panicked
  | _ => GenUniqueResult.fuel_out

/-! ## Declarative specification layer -/

/-- Squares `a` and `b` share a column, a row, or a block. -/
def SameGroup (a b : Nat) : Prop :=
  Square.col a = Square.col b ∨ Square.row a = Square.row b ∨ Square.block a = Square.block b

/-- The filled digits of `b` are pairwise distinct within every column, row
and block (the invariant validated by `Board::new`). -/
def ValidB (b : Board) : Prop :=
  ∀ a, a < 81 → ∀ c, c < 81 → a ≠ c → SameGroup a c → ∀ num, b a = some num → b c ≠ some num

/-- Every filled digit of `b` lies in 1..=9 (enforced by the Rust `Number` type). -/
def DigitsOK (b : Board) : Prop :=
  ∀ sq, sq < 81 → ∀ num, b sq = some num → 1 ≤ num ∧ num ≤ 9

/-- The board holds `none` outside the 81 squares (an artifact of modelling the
81-element array as a function). -/
def BoardZero (b : Board) : Prop := ∀ sq, 81 ≤ sq → b sq = none

/-- Every digit filled in `b` is filled identically in `b'`. -/
def BoardLe (b b' : Board) : Prop :=
  ∀ sq, sq < 81 → ∀ num, b sq = some num → b' sq = some num

/-- Every square of `b` is filled. -/
def CompleteB (b : Board) : Prop := ∀ sq, sq < 81 → (b sq).isSome

/-- The board `b'` is a full completion of `b`: it extends `b`, fills every
square with a digit 1..=9, and satisfies the distinctness constraints. -/
def Completion (b b' : Board) : Prop :=
  BoardLe b b' ∧ CompleteB b' ∧ ValidB b' ∧ DigitsOK b' ∧ BoardZero b'

/-- The board has at least one full completion. -/
def Solvable (b : Board) : Prop := ∃ b', Completion b b'

/-- The board has exactly one full completion. -/
def ExactlyOne (b : Board) : Prop :=
  ∃ b', Completion b b' ∧ ∀ b'', Completion b b'' → b'' = b'

/-- The board has at least two distinct full completions. -/
def TwoPlus (b : Board) : Prop :=
  ∃ b1 b2, Completion b b1 ∧ Completion b b2 ∧ b1 ≠ b2

/-- Digit `num` appears in column `g` of `b`. -/
def ColHas (b : Board) (g num : Nat) : Prop :=
  ∃ sq, sq < 81 ∧ Square.col sq = g ∧ b sq = some num

/-- Digit `num` appears in row `g` of `b`. -/
def RowHas (b : Board) (g num : Nat) : Prop :=
  ∃ sq, sq < 81 ∧ Square.row sq = g ∧ b sq = some num

/-- Digit `num` appears in block `g` of `b`. -/
def BlockHas (b : Board) (g num : Nat) : Prop :=
  ∃ sq, sq < 81 ∧ Square.block sq = g ∧ b sq = some num

/-- The constraint tracker exactly reflects the board: for every group `g` and
digit `d+1`, the corresponding mask bit is 0 exactly when the digit appears in
that group, and no bits beyond the 81 significant ones are set. -/
def Consistent (s : Sudoku) : Prop :=
  s.used_masks.col_mask.val < 2 ^ 81 ∧
  s.used_masks.row_mask.val < 2 ^ 81 ∧
  s.used_masks.block_mask.val < 2 ^ 81 ∧
  ∀ g, g < 9 → ∀ d, d < 9 →
    (s.used_masks.col_mask.val.testBit (9 * g + d) = false ↔ ColHas s.board g (d + 1)) ∧
    (s.used_masks.row_mask.val.testBit (9 * g + d) = false ↔ RowHas s.board g (d + 1)) ∧
    (s.used_masks.block_mask.val.testBit (9 * g + d) = false ↔ BlockHas s.board g (d + 1))

/-- A well-formed engine state: tracker consistent with the board, board valid
with digits in range, and nothing stored outside the 81 squares. -/
def GoodState (s : Sudoku) : Prop :=
  Consistent s ∧ ValidB s.board ∧ DigitsOK s.board ∧ BoardZero s.board

/-! ## Bit-level lemmas -/

theorem and_one_shiftLeft_ne_zero (x i : Nat) : (x &&& (1 <<< i) != 0) = x.testBit i := by
  rcases h : x.testBit i with _ | _
  · have : x &&& (1 <<< i) = 0 := by
      apply Nat.eq_of_testBit_eq
      intro j
      rw [Nat.testBit_and, Nat.one_shiftLeft, Nat.testBit_two_pow, Nat.zero_testBit]
      rcases Decidable.em (i = j) with rfl | hij
      · simp [h]
      · simp [hij]
    simp [this]
  · have : x &&& (1 <<< i) ≠ 0 := by
      intro h0
      have := congrArg (fun y => y.testBit i) h0
      simp only [Nat.testBit_and, Nat.one_shiftLeft, Nat.testBit_two_pow, Nat.zero_testBit] at this
      simp [h] at this
    simp [this]

theorem lt_two_pow_of_testBit_false {x n : Nat} (h : ∀ i, n ≤ i → x.testBit i = false) :
    x < 2 ^ n := by
  have hx : x = x % 2 ^ n := by
    apply Nat.eq_of_testBit_eq
    intro i
    rw [Nat.testBit_mod_two_pow]
    rcases Decidable.em (i < n) with hi | hi
    · simp [hi]
    · simp [hi, h i (by omega)]
  have : x % 2 ^ n < 2 ^ n := Nat.mod_lt _ (Nat.pos_pow_of_pos n (by norm_num))
  omega

theorem testBit_false_of_lt_two_pow {x n i : Nat} (h : x < 2 ^ n) (hi : n ≤ i) :
    x.testBit i = false :=
  Nat.testBit_lt_two_pow (Nat.lt_of_lt_of_le h (Nat.pow_le_pow_right (by norm_num) hi))

theorem UsedMask.use_number_testBit (m : UsedMask) (i num j : Nat) (hj : j < 128) :
    (m.use_number i num).val.testBit j = (m.val.testBit j && !decide (j = 9 * i + num - 1)) := by
  show (m.val &&& (((1 <<< 128) - 1) ^^^ (1 <<< (9 * i + num - 1)))).testBit j = _
  rw [Nat.testBit_and, Nat.testBit_xor, Nat.one_shiftLeft, Nat.one_shiftLeft,
    Nat.testBit_two_pow, Nat.testBit_two_pow_sub_one]
  have h1 : decide (j < 128) = true := by simp [hj]
  rcases Decidable.em (j = 9 * i + num - 1) with heq | hne
  · subst heq
    simp [hj]
  · have : (9 * i + num - 1 = j) = False := eq_false (fun hh => hne hh.symm)
    simp [h1, this, hne]

theorem UsedMask.unuse_number_testBit (m : UsedMask) (i num j : Nat) :
    (m.unuse_number i num).val.testBit j = (m.val.testBit j || decide (j = 9 * i + num - 1)) := by
  show (m.val ||| (1 <<< (9 * i + num - 1))).testBit j = _
  rw [Nat.testBit_or, Nat.one_shiftLeft, Nat.testBit_two_pow]
  rcases Decidable.em (j = 9 * i + num - 1) with heq | hne
  · simp [heq]
  · have : (9 * i + num - 1 = j) = False := eq_false (fun hh => hne hh.symm)
    simp [this, hne]

theorem UsedMasks.candidate_mask_testBit (um : UsedMasks) (sq d : Nat) :
    (um.candidate_mask sq).testBit d =
      (um.col_mask.val.testBit (9 * Square.col sq + d) &&
       um.row_mask.val.testBit (9 * Square.row sq + d) &&
       um.block_mask.val.testBit (9 * Square.block sq + d) &&
       decide (d < 9)) := by
  show ((((um.col_mask.val >>> (9 * Square.col sq)) % (1 <<< 32)) &&&
         ((um.row_mask.val >>> (9 * Square.row sq)) % (1 <<< 32)) &&&
         ((um.block_mask.val >>> (9 * Square.block sq)) % (1 <<< 32)) &&&
         MASK_NUMS)).testBit d = _
  have h9 : MASK_NUMS = 2 ^ 9 - 1 := by
    show (1 <<< 9) - 1 = 2 ^ 9 - 1
    rw [Nat.one_shiftLeft]
  have h32 : ((1 : Nat) <<< 32) = 2 ^ 32 := Nat.one_shiftLeft 32
  rw [h9, h32, Nat.testBit_and, Nat.testBit_and, Nat.testBit_and,
    Nat.testBit_two_pow_sub_one, Nat.testBit_mod_two_pow, Nat.testBit_mod_two_pow,
    Nat.testBit_mod_two_pow, Nat.testBit_shiftRight, Nat.testBit_shiftRight,
    Nat.testBit_shiftRight]
  rcases Decidable.em (d < 9) with hd | hd
  · have hd32 : decide (d < 32) = true := by simp; omega
    have hd9 : decide (d < 9) = true := by simp [hd]
    simp only [hd32, hd9, Bool.true_and, Bool.and_true]
  · have hd9 : decide (d < 9) = false := by simp [hd]
    simp [hd9]

theorem UsedMasks.mem_candidates (um : UsedMasks) (sq num : Nat) :
    num ∈ um.candidates sq ↔
      1 ≤ num ∧ num ≤ 9 ∧ (um.candidate_mask sq).testBit (num - 1) = true := by
  show num ∈ (List.range 9).filterMap
      (fun i => if um.candidate_mask sq &&& (1 <<< i) != 0 then some (i + 1) else none) ↔ _
  rw [List.mem_filterMap]
  constructor
  · rintro ⟨i, hi, hsome⟩
    rw [List.mem_range] at hi
    rcases Decidable.em ((um.candidate_mask sq &&& (1 <<< i) != 0) = true) with ht | hf
    · rw [if_pos ht] at hsome
      have hnum : i + 1 = num := by simpa using hsome
      subst hnum
      refine ⟨by omega, by omega, ?_⟩
      rw [← and_one_shiftLeft_ne_zero]
      simpa using ht
    · rw [if_neg hf] at hsome
      exact absurd hsome (by simp)
  · rintro ⟨h1, h9, hbit⟩
    refine ⟨num - 1, by rw [List.mem_range]; omega, ?_⟩
    rw [← and_one_shiftLeft_ne_zero] at hbit
    rw [if_pos hbit]
    congr 1
    omega

theorem Bitboard.mem_iter (bb : Bitboard) (i : Nat) :
    i ∈ bb.iter ↔ i < 81 ∧ bb.val.testBit i = true := by
  show i ∈ (List.range 81).filter (fun i => bb.val &&& (1 <<< i) != 0) ↔ _
  rw [List.mem_filter, List.mem_range, and_one_shiftLeft_ne_zero]

theorem Bitboard.iter_nodup (bb : Bitboard) : bb.iter.Nodup :=
  List.Nodup.filter _ (List.nodup_range 81)

theorem Bitboard.iter_sorted (bb : Bitboard) : bb.iter.Pairwise (· < ·) :=
  List.Pairwise.sublist (List.filter_sublist _) (List.pairwise_lt_range 81)

theorem Bitboard.remove_testBit (bb : Bitboard) (sq j : Nat) (hj : j < 128) :
    (bb.remove sq).val.testBit j = (bb.val.testBit j && !decide (j = sq)) := by
  show (bb.val &&& (((1 <<< 128) - 1) ^^^ (1 <<< sq))).testBit j = _
  rw [Nat.testBit_and, Nat.testBit_xor, Nat.one_shiftLeft, Nat.one_shiftLeft,
    Nat.testBit_two_pow, Nat.testBit_two_pow_sub_one]
  rcases Decidable.em (j = sq) with heq | hne
  · subst heq
    simp [hj]
  · have : (sq = j) = False := eq_false (fun hh => hne hh.symm)
    simp [hj, this, hne]

theorem Bitboard.add_testBit (bb : Bitboard) (sq j : Nat) :
    (bb.add sq).val.testBit j = (bb.val.testBit j || decide (j = sq)) := by
  show (bb.val ||| (1 <<< sq)).testBit j = _
  rw [Nat.testBit_or, Nat.one_shiftLeft, Nat.testBit_two_pow]
  rcases Decidable.em (j = sq) with heq | hne
  · simp [heq]
  · have : (sq = j) = False := eq_false (fun hh => hne hh.symm)
    simp [this, hne]

theorem Bitboard.iter_remove (bb : Bitboard) (sq : Nat) :
    (bb.remove sq).iter = bb.iter.filter (fun j => j != sq) := by
  show (List.range 81).filter (fun i => (bb.remove sq).val &&& (1 <<< i) != 0) =
    ((List.range 81).filter (fun i => bb.val &&& (1 <<< i) != 0)).filter (fun j => j != sq)
  rw [List.filter_filter]
  apply List.filter_congr
  intro i hi
  rw [List.mem_range] at hi
  rw [and_one_shiftLeft_ne_zero, and_one_shiftLeft_ne_zero,
    Bitboard.remove_testBit bb sq i (by omega)]
  rcases Decidable.em (i = sq) with heq | hne
  · simp [heq]
  · simp [hne]

theorem Bitboard.iter_remove_length (bb : Bitboard) (sq : Nat) (h : sq ∈ bb.iter) :
    (bb.remove sq).iter.length + 1 = bb.iter.length := by
  rw [Bitboard.iter_remove]
  have hndp : bb.iter.Nodup := bb.iter_nodup
  have : bb.iter.filter (fun j => j != sq) = bb.iter.erase sq := by
    rw [hndp.erase_eq_filter sq]
  rw [this, List.length_erase_of_mem h]
  have : 0 < bb.iter.length := List.length_pos.mpr (List.ne_nil_of_mem h)
  omega

theorem Bitboard.mem_iter_remove (bb : Bitboard) (sq i : Nat) :
    i ∈ (bb.remove sq).iter ↔ i ∈ bb.iter ∧ i ≠ sq := by
  rw [Bitboard.iter_remove, List.mem_filter]
  simp

theorem Bitboard.iter_length_le (bb : Bitboard) : bb.iter.length ≤ 81 := by
  calc bb.iter.length ≤ (List.range 81).length := List.length_filter_le _ _
  _ = 81 := List.length_range 81

theorem Bitboard.iter_nil_iff (bb : Bitboard) (h : bb.val < 2 ^ 81) :
    bb.iter = [] ↔ bb.val = 0 := by
  constructor
  · intro hnil
    apply Nat.eq_of_testBit_eq
    intro i
    rw [Nat.zero_testBit]
    rcases Decidable.em (i < 81) with hi | hi
    · rcases hb : bb.val.testBit i with _ | _
      · rfl
      · have : i ∈ bb.iter := (bb.mem_iter i).mpr ⟨hi, hb⟩
        rw [hnil] at this
        exact absurd this (List.not_mem_nil i)
    · exact testBit_false_of_lt_two_pow h (by omega)
  · intro h0
    have : ∀ i, i ∈ bb.iter → False := by
      intro i hi
      rw [bb.mem_iter] at hi
      rw [h0, Nat.zero_testBit] at hi
      exact absurd hi.2 (by simp)
    cases hiter : bb.iter with
    | nil => rfl
    | cons a l => exact absurd (hiter ▸ List.mem_cons_self a l) (fun hh => this a hh)

theorem calc_bb_vacant_foldl_testBit (l : List Nat) (bb : Bitboard) (j : Nat) :
    (l.foldl (fun bb sq => bb.add sq) bb).val.testBit j =
      (bb.val.testBit j || decide (j ∈ l)) := by
  induction l generalizing bb with
  | nil => simp
  | cons a l ih =>
    show ((l.foldl (fun bb sq => bb.add sq) (bb.add a)).val.testBit j) = _
    rw [ih, Bitboard.add_testBit]
    rcases Decidable.em (j = a) with heq | hne
    · simp [heq]
    · simp [hne, List.mem_cons]

theorem calc_bb_vacant_testBit (b : Board) (j : Nat) :
    (calc_bb_vacant b).val.testBit j = (decide (j < 81) && (b j).isNone) := by
  show ((Square.all.filter (fun sq => (b sq).isNone)).foldl
    (fun bb sq => bb.add sq) Bitboard.empty).val.testBit j = _
  rw [calc_bb_vacant_foldl_testBit]
  have : Bitboard.empty.val.testBit j = false := by
    show (0 : Nat).testBit j = false
    exact Nat.zero_testBit j
  rw [this, Bool.false_or]
  rcases Decidable.em (j ∈ Square.all.filter (fun sq => (b sq).isNone)) with hm | hm
  · rw [List.mem_filter] at hm
    have hj : j ∈ List.range 81 := hm.1
    rw [List.mem_range] at hj
    simp [hm, hj, hm.2]
  · simp only [hm, decide_eq_false (by exact hm)]
    rcases Decidable.em (j < 81) with hj | hj
    · rcases hn : (b j).isNone with _ | _
      · simp [hn]
      · exfalso
        apply hm
        rw [List.mem_filter]
        constructor
        · show j ∈ List.range 81
          rw [List.mem_range]
          exact hj
        · exact hn
    · simp [hj]

theorem calc_bb_vacant_lt (b : Board) : (calc_bb_vacant b).val < 2 ^ 81 := by
  apply lt_two_pow_of_testBit_false
  intro i hi
  rw [calc_bb_vacant_testBit]
  have : decide (i < 81) = false := by simp; omega
  simp [this]

theorem mem_calc_bb_vacant_iter (b : Board) (i : Nat) :
    i ∈ (calc_bb_vacant b).iter ↔ i < 81 ∧ b i = none := by
  rw [Bitboard.mem_iter, calc_bb_vacant_testBit]
  constructor
  · rintro ⟨hi, hbit⟩
    rcases Decidable.em (i < 81) with h81 | h81
    · refine ⟨h81, ?_⟩
      simp [h81] at hbit
      exact hbit
    · simp [h81] at hbit
  · rintro ⟨hi, hnone⟩
    refine ⟨hi, ?_⟩
    simp [hi, hnone]

theorem minByKey_acc (f : Nat → Nat) :
    ∀ (l : List Nat) (b : Nat), (∀ y ∈ l, b < y) → l.Pairwise (· < ·) →
    ∃ z, List.foldl
        (fun acc x => match acc with
          | none => some x
          | some y => if f x < f y then some x else some y)
        (some b) l = some z ∧
      z ∈ b :: l ∧ (∀ w ∈ b :: l, f z ≤ f w) ∧ (∀ w ∈ b :: l, f w ≤ f z → z ≤ w) := by
  intro l
  induction l with
  | nil =>
    intro b _ _
    refine ⟨b, rfl, List.mem_cons_self b [], ?_, ?_⟩
    · intro w hw
      rcases List.mem_cons.mp hw with rfl | hw
      · exact Nat.le_refl _
      · exact absurd hw (List.not_mem_nil w)
    · intro w hw _
      rcases List.mem_cons.mp hw with rfl | hw
      · exact Nat.le_refl _
      · exact absurd hw (List.not_mem_nil w)
  | cons x l ih =>
    intro b hb hpw
    have hxl : ∀ y ∈ l, x < y := fun y hy => (List.pairwise_cons.mp hpw).1 y hy
    have hpl : l.Pairwise (· < ·) := (List.pairwise_cons.mp hpw).2
    show ∃ z, List.foldl _ (if f x < f b then some x else some b) l = some z ∧ _
    rcases Decidable.em (f x < f b) with hlt | hge
    · rw [if_pos hlt]
      obtain ⟨z, hz, hzmem, hzmin, hztie⟩ := ih x hxl hpl
      refine ⟨z, hz, ?_, ?_, ?_⟩
      · rcases List.mem_cons.mp hzmem with rfl | hzl
        · exact List.mem_cons_of_mem b (List.mem_cons_self z l)
        · exact List.mem_cons_of_mem b (List.mem_cons_of_mem x hzl)
      · intro w hw
        rcases List.mem_cons.mp hw with rfl | hw'
        · exact Nat.le_of_lt (Nat.lt_of_le_of_lt (hzmin x (List.mem_cons_self x l)) hlt)
        · exact hzmin w hw'
      · intro w hw hfw
        rcases List.mem_cons.mp hw with rfl | hw'
        · exact absurd (Nat.lt_of_le_of_lt (Nat.le_trans hfw (hzmin x (List.mem_cons_self x l))) hlt)
            (Nat.lt_irrefl _)
        · exact hztie w hw' hfw
    · rw [if_neg hge]
      have hfb : f b ≤ f x := Nat.le_of_not_lt hge
      have hbl : ∀ y ∈ l, b < y := fun y hy => hb y (List.mem_cons_of_mem x hy)
      obtain ⟨z, hz, hzmem, hzmin, hztie⟩ := ih b hbl hpl
      refine ⟨z, hz, ?_, ?_, ?_⟩
      · rcases List.mem_cons.mp hzmem with rfl | hzl
        · exact List.mem_cons_self z _
        · exact List.mem_cons_of_mem b (List.mem_cons_of_mem x hzl)
      · intro w hw
        rcases List.mem_cons.mp hw with rfl | hw'
        · exact hzmin w (List.mem_cons_self w l)
        · rcases List.mem_cons.mp hw' with rfl | hw''
          · exact Nat.le_trans (hzmin b (List.mem_cons_self b l)) hfb
          · exact hzmin w (List.mem_cons_of_mem b hw'')
      · intro w hw hfw
        rcases List.mem_cons.mp hw with rfl | hw'
        · exact hztie w (List.mem_cons_self w l) hfw
        · rcases List.mem_cons.mp hw' with rfl | hw''
          · have hfbz : f b ≤ f z := Nat.le_trans hfb hfw
            have hzleb : z ≤ b := hztie b (List.mem_cons_self b l) hfbz
            have hzb : z = b := by
              rcases List.mem_cons.mp hzmem with rfl | hzl
              · rfl
              · exact absurd (Nat.lt_of_lt_of_le (hbl z hzl) hzleb) (Nat.lt_irrefl _)
            subst hzb
            exact Nat.le_of_lt (hb w (List.mem_cons_self w l))
          · exact hztie w (List.mem_cons_of_mem b hw'') hfw

theorem minByKey_none_iff (f : Nat → Nat) (l : List Nat) (hpw : l.Pairwise (· < ·)) :
    minByKey f l = none ↔ l = [] := by
  cases l with
  | nil => simp [minByKey]
  | cons x l =>
    constructor
    · intro h
      exfalso
      have hxl : ∀ y ∈ l, x < y := fun y hy => (List.pairwise_cons.mp hpw).1 y hy
      have hpl : l.Pairwise (· < ·) := (List.pairwise_cons.mp hpw).2
      obtain ⟨z, hz, _, _, _⟩ := minByKey_acc f l x hxl hpl
      have : minByKey f (x :: l) = some z := hz
      rw [h] at this
      exact absurd this (by simp)
    · intro h
      exact absurd h (by simp)

theorem minByKey_some_spec (f : Nat → Nat) (l : List Nat) (hpw : l.Pairwise (· < ·))
    (z : Nat) (h : minByKey f l = some z) :
    z ∈ l ∧ (∀ w ∈ l, f z ≤ f w) ∧ (∀ w ∈ l, f w ≤ f z → z ≤ w) := by
  cases l with
  | nil => exact absurd h (by simp [minByKey])
  | cons x l =>
    have hxl : ∀ y ∈ l, x < y := fun y hy => (List.pairwise_cons.mp hpw).1 y hy
    have hpl : l.Pairwise (· < ·) := (List.pairwise_cons.mp hpw).2
    obtain ⟨z', hz', hmem, hmin, htie⟩ := minByKey_acc f l x hxl hpl
    have hzz : z = z' := by
      have : minByKey f (x :: l) = some z' := hz'
      rw [h] at this
      exact (Option.some.injEq _ _).mp this
    subst hzz
    exact ⟨hmem, hmin, htie⟩

theorem pop_best_none_iff (s : Sudoku) (bb : Bitboard) :
    s.pop_best_vacant_square bb = none ↔ bb.iter = [] := by
  show (match minByKey (fun sq => s.used_masks.candidate_count sq) bb.iter with
    | none => none
    | some sq => some (sq, bb.remove sq)) = none ↔ _
  rcases hm : minByKey (fun sq => s.used_masks.candidate_count sq) bb.iter with _ | sq
  · simpa using (minByKey_none_iff _ bb.iter bb.iter_sorted).mp hm
  · simp only []
    constructor
    · intro h
      exact absurd h (by simp)
    · intro h
      rw [(minByKey_none_iff (fun sq => s.used_masks.candidate_count sq) bb.iter
        bb.iter_sorted).mpr h] at hm
      exact absurd hm (by simp)

theorem pop_best_some_spec (s : Sudoku) (bb : Bitboard) (sq : Nat) (bb' : Bitboard)
    (h : s.pop_best_vacant_square bb = some (sq, bb')) :
    sq ∈ bb.iter ∧ bb' = bb.remove sq ∧
      (∀ w ∈ bb.iter, s.used_masks.candidate_count sq ≤ s.used_masks.candidate_count w) ∧
      (∀ w ∈ bb.iter, s.used_masks.candidate_count w ≤ s.used_masks.candidate_count sq →
        sq ≤ w) := by
  revert h
  show (match minByKey (fun sq => s.used_masks.candidate_count sq) bb.iter with
    | none => none
    | some sq => some (sq, bb.remove sq)) = some (sq, bb') → _
  rcases hm : minByKey (fun sq => s.used_masks.candidate_count sq) bb.iter with _ | z
  · intro h
    exact absurd h (by simp)
  · intro h
    simp only [Option.some.injEq, Prod.mk.injEq] at h
    obtain ⟨rfl, rfl⟩ := h
    obtain ⟨hmem, hmin, htie⟩ :=
      minByKey_some_spec (fun sq => s.used_masks.candidate_count sq) bb.iter bb.iter_sorted z hm
    exact ⟨hmem, rfl, hmin, htie⟩

/-! ## Placement / removal cancellation -/

theorem Square.col_lt (sq : Nat) : Square.col sq < 9 := by
  rcases Nat.lt_or_ge sq 81 with h | h
  · have hall : ∀ s, s < 81 → Square.col s < 9 := by decide
    exact hall sq h
  · show Square.colTable.getD sq 0 < 9
    rw [List.getD_eq_default]
    · norm_num
    · have : Square.colTable.length = 81 := by decide
      omega

theorem Square.row_lt (sq : Nat) : Square.row sq < 9 := by
  rcases Nat.lt_or_ge sq 81 with h | h
  · have hall : ∀ s, s < 81 → Square.row s < 9 := by decide
    exact hall sq h
  · show Square.rowTable.getD sq 0 < 9
    rw [List.getD_eq_default]
    · norm_num
    · have : Square.rowTable.length = 81 := by decide
      omega

theorem Square.block_lt (sq : Nat) : Square.block sq < 9 := by
  rcases Nat.lt_or_ge sq 81 with h | h
  · have hall : ∀ s, s < 81 → Square.block s < 9 := by decide
    exact hall sq h
  · show Square.blockTable.getD sq 0 < 9
    rw [List.getD_eq_default]
    · norm_num
    · have : Square.blockTable.length = 81 := by decide
      omega

/-- The three masks fit in a `u128` (automatic in Rust, an explicit invariant of
the `Nat` model). -/
def Masks128 (um : UsedMasks) : Prop :=
  um.col_mask.val < 2 ^ 128 ∧ um.row_mask.val < 2 ^ 128 ∧ um.block_mask.val < 2 ^ 128

theorem Masks128.use_number {um : UsedMasks} (h : Masks128 um) (sq num : Nat) :
    Masks128 (um.use_number sq num) := by
  obtain ⟨h1, h2, h3⟩ := h
  refine ⟨?_, ?_, ?_⟩ <;>
    exact Nat.lt_of_le_of_lt Nat.and_le_left (by assumption)

theorem Masks128.unuse_number {um : UsedMasks} (h : Masks128 um) (sq num : Nat)
    (hnum : num ≤ 9) : Masks128 (um.unuse_number sq num) := by
  obtain ⟨h1, h2, h3⟩ := h
  have hcol := Square.col_lt sq
  have hrow := Square.row_lt sq
  have hblk := Square.block_lt sq
  refine ⟨?_, ?_, ?_⟩
  · show um.col_mask.val ||| (1 <<< (9 * Square.col sq + num - 1)) < 2 ^ 128
    rw [Nat.one_shiftLeft]
    exact Nat.or_lt_two_pow h1 (Nat.pow_lt_pow_right (by norm_num) (by omega))
  · show um.row_mask.val ||| (1 <<< (9 * Square.row sq + num - 1)) < 2 ^ 128
    rw [Nat.one_shiftLeft]
    exact Nat.or_lt_two_pow h2 (Nat.pow_lt_pow_right (by norm_num) (by omega))
  · show um.block_mask.val ||| (1 <<< (9 * Square.block sq + num - 1)) < 2 ^ 128
    rw [Nat.one_shiftLeft]
    exact Nat.or_lt_two_pow h3 (Nat.pow_lt_pow_right (by norm_num) (by omega))

theorem UsedMask.unuse_use (m : UsedMask) (i num : Nat) (hm : m.val < 2 ^ 128)
    (hk : 9 * i + num - 1 < 128) (hbit : m.val.testBit (9 * i + num - 1) = true) :
    (m.use_number i num).unuse_number i num = m := by
  cases m with
  | mk v =>
    have hv : ((UsedMask.mk v).use_number i num).unuse_number i num =
        UsedMask.mk ((v &&& (((1 <<< 128) - 1) ^^^ (1 <<< (9 * i + num - 1)))) |||
          (1 <<< (9 * i + num - 1))) := rfl
    rw [hv]
    congr 1
    apply Nat.eq_of_testBit_eq
    intro j
    simp only [Nat.testBit_or, Nat.testBit_and, Nat.testBit_xor, Nat.one_shiftLeft,
      Nat.testBit_two_pow, Nat.testBit_two_pow_sub_one]
    rcases Decidable.em (9 * i + num - 1 = j) with heq | hne
    · rw [← heq]
      simp [hk, hbit]
    · rcases Nat.lt_or_ge j 128 with hj | hj
      · simp [hne, hj]
      · have hvj : v.testBit j = false := testBit_false_of_lt_two_pow hm hj
        simp [hne, hvj, Nat.not_lt.mpr hj]

theorem UsedMasks.mem_candidates_bits {um : UsedMasks} {sq num : Nat}
    (h : num ∈ um.candidates sq) :
    1 ≤ num ∧ num ≤ 9 ∧
    um.col_mask.val.testBit (9 * Square.col sq + num - 1) = true ∧
    um.row_mask.val.testBit (9 * Square.row sq + num - 1) = true ∧
    um.block_mask.val.testBit (9 * Square.block sq + num - 1) = true := by
  obtain ⟨h1, h9, hbit⟩ := (um.mem_candidates sq num).mp h
  rw [UsedMasks.candidate_mask_testBit] at hbit
  have e1 : 9 * Square.col sq + (num - 1) = 9 * Square.col sq + num - 1 := by omega
  have e2 : 9 * Square.row sq + (num - 1) = 9 * Square.row sq + num - 1 := by omega
  have e3 : 9 * Square.block sq + (num - 1) = 9 * Square.block sq + num - 1 := by omega
  rw [e1, e2, e3] at hbit
  simp only [Bool.and_eq_true] at hbit
  exact ⟨h1, h9, hbit.1.1.1, hbit.1.1.2, hbit.1.2⟩

theorem Sudoku.put_remove_cancel (s : Sudoku) (sq num : Nat)
    (h128 : Masks128 s.used_masks) (hvac : s.board sq = none)
    (hmem : num ∈ s.used_masks.candidates sq) :
    (s.put_number sq num).remove_number sq num = s := by
  obtain ⟨h1, h9, hcol, hrow, hblk⟩ := UsedMasks.mem_candidates_bits hmem
  have hcq := Square.col_lt sq
  have hrq := Square.row_lt sq
  have hbq := Square.block_lt sq
  cases s with
  | mk b um =>
    show Sudoku.mk (Function.update (Function.update b sq (some num)) sq none)
      ((um.use_number sq num).unuse_number sq num) = Sudoku.mk b um
    congr 1
    · rw [Function.update_idem]
      have : (none : Option Nat) = b sq := hvac.symm
      rw [this, Function.update_eq_self]
    · show UsedMasks.mk ((um.col_mask.use_number (Square.col sq) num).unuse_number
          (Square.col sq) num)
        ((um.row_mask.use_number (Square.row sq) num).unuse_number (Square.row sq) num)
        ((um.block_mask.use_number (Square.block sq) num).unuse_number (Square.block sq) num) =
        um
      obtain ⟨b1, b2, b3⟩ := h128
      cases um with
      | mk mc mr mb =>
        congr 1
        · exact UsedMask.unuse_use mc _ num b1 (by omega) hcol
        · exact UsedMask.unuse_use mr _ num b2 (by omega) hrow
        · exact UsedMask.unuse_use mb _ num b3 (by omega) hblk

/-! ## State restoration of the searches -/

/-- Every square listed in the bitboard is vacant on the board. -/
def VacantBB (s : Sudoku) (bb : Bitboard) : Prop := ∀ i ∈ bb.iter, s.board i = none

theorem VacantBB.put_remove {s : Sudoku} {bb : Bitboard} (h : VacantBB s bb) (sq num : Nat) :
    VacantBB (s.put_number sq num) (bb.remove sq) := by
  intro i hi
  obtain ⟨hmem, hne⟩ := (bb.mem_iter_remove sq i).mp hi
  show Function.update s.board sq (some num) i = none
  rw [Function.update_noteq hne]
  exact h i hmem

theorem Masks128.put_masks {s : Sudoku} (h : Masks128 s.used_masks) (sq num : Nat) :
    Masks128 (s.put_number sq num).used_masks :=
  h.use_number sq num

theorem Masks128.remove_masks {s : Sudoku} (h : Masks128 s.used_masks) (sq num : Nat)
    (hnum : num ≤ 9) : Masks128 (s.remove_number sq num).used_masks :=
  h.unuse_number sq num hnum

theorem solvableLoop_state (f : Sudoku → Bool × Sudoku) (sq : Nat) (s0 : Sudoku)
    (h128 : Masks128 s0.used_masks) (hvac : s0.board sq = none) :
    ∀ nums, (∀ num ∈ nums, num ∈ s0.used_masks.candidates sq) →
      (∀ num ∈ nums, (f (s0.put_number sq num)).2 = s0.put_number sq num) →
      (solvableLoop f sq nums s0).2 = s0 := by
  intro nums
  induction nums with
  | nil =>
    intro _ _
    rfl
  | cons num rest ih =>
    intro hmem hf
    have hcancel : ((f (s0.put_number sq num)).2).remove_number sq num = s0 := by
      rw [hf num (List.mem_cons_self num rest)]
      exact s0.put_remove_cancel sq num h128 hvac (hmem num (List.mem_cons_self num rest))
    show (let r := f (s0.put_number sq num)
          let s2 := r.2.remove_number sq num
          if r.1 then (true, s2) else solvableLoop f sq rest s2).2 = s0
    rcases hb : (f (s0.put_number sq num)).1 with _ | _
    · simp only [hb, if_false, Bool.false_eq_true]
      rw [hcancel]
      exact ih (fun n hn => hmem n (List.mem_cons_of_mem num hn))
        (fun n hn => hf n (List.mem_cons_of_mem num hn))
    · simp only [hb, if_true]
      exact hcancel

theorem solvableImpl_state (fuel : Nat) : ∀ (s : Sudoku) (bb : Bitboard),
    Masks128 s.used_masks → VacantBB s bb → (solvableImpl fuel s bb).2 = s := by
  induction fuel with
  | zero =>
    intro s bb _ _
    rfl
  | succ fuel ih =>
    intro s bb h128 hvac
    show (match s.pop_best_vacant_square bb with
      | none => (true, s)
      | some (sq, bb') =>
        solvableLoop (fun s1 => solvableImpl fuel s1 bb') sq (s.used_masks.candidates sq) s).2
      = s
    rcases hp : s.pop_best_vacant_square bb with _ | ⟨sq, bb'⟩
    · rfl
    · simp only []
      obtain ⟨hsqmem, hbb', _, _⟩ := pop_best_some_spec s bb sq bb' hp
      subst hbb'
      have hsqvac : s.board sq = none := hvac sq hsqmem
      apply solvableLoop_state _ sq s h128 hsqvac
      · intro num hm
        exact hm
      · intro num hm
        exact ih (s.put_number sq num) (bb.remove sq) (h128.put_masks sq num)
          (hvac.put_remove sq num)

theorem countLoop_state (f : Sudoku → Nat → Nat × Sudoku) (sq : Nat) (s0 : Sudoku)
    (h128 : Masks128 s0.used_masks) (hvac : s0.board sq = none) :
    ∀ nums, (∀ num ∈ nums, num ∈ s0.used_masks.candidates sq) →
      (∀ num ∈ nums, ∀ c, (f (s0.put_number sq num) c).2 = s0.put_number sq num) →
      ∀ c, (countLoop f sq nums s0 c).2 = s0 := by
  intro nums
  induction nums with
  | nil =>
    intro _ _ c
    rfl
  | cons num rest ih =>
    intro hmem hf c
    have hcancel : ((f (s0.put_number sq num) c).2).remove_number sq num = s0 := by
      rw [hf num (List.mem_cons_self num rest) c]
      exact s0.put_remove_cancel sq num h128 hvac (hmem num (List.mem_cons_self num rest))
    show (let r := f (s0.put_number sq num) c
          let s2 := r.2.remove_number sq num
          if 2 ≤ r.1 then (r.1, s2) else countLoop f sq rest s2 r.1).2 = s0
    rcases Decidable.em (2 ≤ (f (s0.put_number sq num) c).1) with h2 | h2
    · simp only [if_pos h2]
      exact hcancel
    · simp only [if_neg h2]
      rw [hcancel]
      exact ih (fun n hn => hmem n (List.mem_cons_of_mem num hn))
        (fun n hn => hf n (List.mem_cons_of_mem num hn)) _

theorem countImpl_state (fuel : Nat) : ∀ (s : Sudoku) (bb : Bitboard),
    Masks128 s.used_masks → VacantBB s bb → ∀ c, (countImpl fuel s bb c).2 = s := by
  induction fuel with
  | zero =>
    intro s bb _ _ c
    rfl
  | succ fuel ih =>
    intro s bb h128 hvac c
    show (match s.pop_best_vacant_square bb with
      | none => (c + 1, s)
      | some (sq, bb') =>
        countLoop (fun s1 c1 => countImpl fuel s1 bb' c1) sq (s.used_masks.candidates sq) s c).2
      = s
    rcases hp : s.pop_best_vacant_square bb with _ | ⟨sq, bb'⟩
    · rfl
    · simp only []
      obtain ⟨hsqmem, hbb', _, _⟩ := pop_best_some_spec s bb sq bb' hp
      subst hbb'
      have hsqvac : s.board sq = none := hvac sq hsqmem
      apply countLoop_state _ sq s h128 hsqvac
      · intro num hm
        exact hm
      · intro num hm c1
        exact ih (s.put_number sq num) (bb.remove sq) (h128.put_masks sq num)
          (hvac.put_remove sq num) c1

theorem limitedLoop_state (f : Sudoku → Nat → (Option Bool × Nat) × Sudoku) (sq : Nat)
    (s0 : Sudoku) (h128 : Masks128 s0.used_masks) (hvac : s0.board sq = none) :
    ∀ nums, (∀ num ∈ nums, num ∈ s0.used_masks.candidates sq) →
      (∀ num ∈ nums, ∀ c, (f (s0.put_number sq num) c).2 = s0.put_number sq num) →
      ∀ c, (limitedLoop f sq nums s0 c).2 = s0 := by
  intro nums
  induction nums with
  | nil =>
    intro _ _ c
    rfl
  | cons num rest ih =>
    intro hmem hf c
    have hcancel : ((f (s0.put_number sq num) c).2).remove_number sq num = s0 := by
      rw [hf num (List.mem_cons_self num rest) c]
      exact s0.put_remove_cancel sq num h128 hvac (hmem num (List.mem_cons_self num rest))
    show (let r := f (s0.put_number sq num) c
          let s2 := r.2.remove_number sq num
          if r.1.1 ≠ some false then ((r.1.1, r.1.2), s2) else limitedLoop f sq rest s2 r.1.2).2
      = s0
    rcases Decidable.em ((f (s0.put_number sq num) c).1.1 ≠ some false) with hne | hne
    · simp only [if_pos hne]
      exact hcancel
    · simp only [if_neg hne]
      rw [hcancel]
      exact ih (fun n hn => hmem n (List.mem_cons_of_mem num hn))
        (fun n hn => hf n (List.mem_cons_of_mem num hn)) _

theorem limitedImpl_state (node_count_max fuel : Nat) : ∀ (s : Sudoku) (bb : Bitboard),
    Masks128 s.used_masks → VacantBB s bb → ∀ c,
      (limitedImpl node_count_max fuel s bb c).2 = s := by
  induction fuel with
  | zero =>
    intro s bb _ _ c
    rfl
  | succ fuel ih =>
    intro s bb h128 hvac c
    show (if node_count_max ≤ c + 1 then ((none, c + 1), s)
      else match s.pop_best_vacant_square bb with
        | none => ((some true, c + 1), s)
        | some (sq, bb') =>
          limitedLoop (fun s1 c1 => limitedImpl node_count_max fuel s1 bb' c1) sq
            (s.used_masks.candidates sq) s (c + 1)).2 = s
    rcases Decidable.em (node_count_max ≤ c + 1) with hle | hle
    · simp only [if_pos hle]
    · simp only [if_neg hle]
      rcases hp : s.pop_best_vacant_square bb with _ | ⟨sq, bb'⟩
      · rfl
      · simp only []
        obtain ⟨hsqmem, hbb', _, _⟩ := pop_best_some_spec s bb sq bb' hp
        subst hbb'
        have hsqvac : s.board sq = none := hvac sq hsqmem
        apply limitedLoop_state _ sq s h128 hsqvac
        · intro num hm
          exact hm
        · intro num hm c1
          exact ih (s.put_number sq num) (bb.remove sq) (h128.put_masks sq num)
            (hvac.put_remove sq num) c1

theorem solveLoop_state_false (f : Sudoku → Bool × Sudoku) (sq : Nat) (s0 : Sudoku)
    (h128 : Masks128 s0.used_masks) (hvac : s0.board sq = none) :
    ∀ nums, (∀ num ∈ nums, num ∈ s0.used_masks.candidates sq) →
      (∀ num ∈ nums, (f (s0.put_number sq num)).1 = false →
        (f (s0.put_number sq num)).2 = s0.put_number sq num) →
      (solveLoop f sq nums s0).1 = false → (solveLoop f sq nums s0).2 = s0 := by
  intro nums
  induction nums with
  | nil =>
    intro _ _ _
    rfl
  | cons num rest ih =>
    intro hmem hf
    show (let r := f (s0.put_number sq num)
          if r.1 then (true, r.2) else solveLoop f sq rest (r.2.remove_number sq num)).1 = false →
      (let r := f (s0.put_number sq num)
       if r.1 then (true, r.2) else solveLoop f sq rest (r.2.remove_number sq num)).2 = s0
    rcases hb : (f (s0.put_number sq num)).1 with _ | _
    · simp only [hb, if_false, Bool.false_eq_true]
      intro hfail
      have hcancel : ((f (s0.put_number sq num)).2).remove_number sq num = s0 := by
        rw [hf num (List.mem_cons_self num rest) hb]
        exact s0.put_remove_cancel sq num h128 hvac (hmem num (List.mem_cons_self num rest))
      rw [hcancel] at hfail ⊢
      exact ih (fun n hn => hmem n (List.mem_cons_of_mem num hn))
        (fun n hn => hf n (List.mem_cons_of_mem num hn)) hfail
    · simp only [hb, if_true]
      intro hfail
      exact absurd hfail (by simp)

theorem solveImpl_state_false (fuel : Nat) : ∀ (s : Sudoku) (bb : Bitboard),
    Masks128 s.used_masks → VacantBB s bb →
    (solveImpl fuel s bb).1 = false → (solveImpl fuel s bb).2 = s := by
  induction fuel with
  | zero =>
    intro s bb _ _ _
    rfl
  | succ fuel ih =>
    intro s bb h128 hvac
    show (match s.pop_best_vacant_square bb with
      | none => (true, s)
      | some (sq, bb') =>
        solveLoop (fun s1 => solveImpl fuel s1 bb') sq (s.used_masks.candidates sq) s).1 = false →
      (match s.pop_best_vacant_square bb with
      | none => (true, s)
      | some (sq, bb') =>
        solveLoop (fun s1 => solveImpl fuel s1 bb') sq (s.used_masks.candidates sq) s).2 = s
    rcases hp : s.pop_best_vacant_square bb with _ | ⟨sq, bb'⟩
    · intro hfail
      exact absurd hfail (by simp)
    · simp only []
      obtain ⟨hsqmem, hbb', _, _⟩ := pop_best_some_spec s bb sq bb' hp
      subst hbb'
      have hsqvac : s.board sq = none := hvac sq hsqmem
      intro hfail
      apply solveLoop_state_false _ sq s h128 hsqvac _ (fun num hm => hm) _ hfail
      intro num hm hf1
      exact ih (s.put_number sq num) (bb.remove sq) (h128.put_masks sq num)
        (hvac.put_remove sq num) hf1

/-! ## Boolean agreement of the traversals, and node-count accounting -/

theorem solvableLoop_eq_solveLoop (f g : Sudoku → Bool × Sudoku) (sq : Nat) (s0 : Sudoku)
    (h128 : Masks128 s0.used_masks) (hvac : s0.board sq = none) :
    ∀ nums, (∀ num ∈ nums, num ∈ s0.used_masks.candidates sq) →
      (∀ num ∈ nums, (f (s0.put_number sq num)).1 = (g (s0.put_number sq num)).1) →
      (∀ num ∈ nums, (f (s0.put_number sq num)).2 = s0.put_number sq num) →
      (∀ num ∈ nums, (g (s0.put_number sq num)).1 = false →
        (g (s0.put_number sq num)).2 = s0.put_number sq num) →
      (solvableLoop f sq nums s0).1 = (solveLoop g sq nums s0).1 := by
  intro nums
  induction nums with
  | nil =>
    intro _ _ _ _
    rfl
  | cons num rest ih =>
    intro hmem hfg hfst hgst
    have hhead := List.mem_cons_self num rest
    show (let r := f (s0.put_number sq num)
          let s2 := r.2.remove_number sq num
          if r.1 then (true, s2) else solvableLoop f sq rest s2).1 =
      (let r := g (s0.put_number sq num)
       if r.1 then (true, r.2) else solveLoop g sq rest (r.2.remove_number sq num)).1
    rcases hb : (g (s0.put_number sq num)).1 with _ | _
    · have hfb : (f (s0.put_number sq num)).1 = false := by rw [hfg num hhead, hb]
      simp only [hb, hfb, if_false, Bool.false_eq_true]
      have hscancel : ((f (s0.put_number sq num)).2).remove_number sq num = s0 := by
        rw [hfst num hhead]
        exact s0.put_remove_cancel sq num h128 hvac (hmem num hhead)
      have hgcancel : ((g (s0.put_number sq num)).2).remove_number sq num = s0 := by
        rw [hgst num hhead hb]
        exact s0.put_remove_cancel sq num h128 hvac (hmem num hhead)
      rw [hscancel, hgcancel]
      exact ih (fun n hn => hmem n (List.mem_cons_of_mem num hn))
        (fun n hn => hfg n (List.mem_cons_of_mem num hn))
        (fun n hn => hfst n (List.mem_cons_of_mem num hn))
        (fun n hn => hgst n (List.mem_cons_of_mem num hn))
    · have hfb : (f (s0.put_number sq num)).1 = true := by rw [hfg num hhead, hb]
      simp only [hb, hfb, if_true]

theorem solvableImpl_eq_solveImpl (fuel : Nat) : ∀ (s : Sudoku) (bb : Bitboard),
    Masks128 s.used_masks → VacantBB s bb →
    (solvableImpl fuel s bb).1 = (solveImpl fuel s bb).1 := by
  induction fuel with
  | zero =>
    intro s bb _ _
    rfl
  | succ fuel ih =>
    intro s bb h128 hvac
    show (match s.pop_best_vacant_square bb with
      | none => (true, s)
      | some (sq, bb') =>
        solvableLoop (fun s1 => solvableImpl fuel s1 bb') sq (s.used_masks.candidates sq) s).1 =
      (match s.pop_best_vacant_square bb with
      | none => (true, s)
      | some (sq, bb') =>
        solveLoop (fun s1 => solveImpl fuel s1 bb') sq (s.used_masks.candidates sq) s).1
    rcases hp : s.pop_best_vacant_square bb with _ | ⟨sq, bb'⟩
    · rfl
    · simp only []
      obtain ⟨hsqmem, hbb', _, _⟩ := pop_best_some_spec s bb sq bb' hp
      subst hbb'
      have hsqvac : s.board sq = none := hvac sq hsqmem
      apply solvableLoop_eq_solveLoop _ _ sq s h128 hsqvac _ (fun num hm => hm)
      · intro num hm
        exact ih (s.put_number sq num) (bb.remove sq) (h128.put_masks sq num)
          (hvac.put_remove sq num)
      · intro num hm
        exact solvableImpl_state fuel (s.put_number sq num) (bb.remove sq)
          (h128.put_masks sq num) (hvac.put_remove sq num)
      · intro num hm
        exact solveImpl_state_false fuel (s.put_number sq num) (bb.remove sq)
          (h128.put_masks sq num) (hvac.put_remove sq num)

theorem limitedLoop_eq_solveLoop (max : Nat) (f : Sudoku → Nat → (Option Bool × Nat) × Sudoku)
    (g : Sudoku → Bool × Sudoku) (sq : Nat) (s0 : Sudoku)
    (h128 : Masks128 s0.used_masks) (hvac : s0.board sq = none) :
    ∀ nums, (∀ num ∈ nums, num ∈ s0.used_masks.candidates sq) →
      (∀ num ∈ nums, ∀ c b, (f (s0.put_number sq num) c).1.1 = some b →
        b = (g (s0.put_number sq num)).1) →
      (∀ num ∈ nums, ∀ c, (f (s0.put_number sq num) c).2 = s0.put_number sq num) →
      (∀ num ∈ nums, (g (s0.put_number sq num)).1 = false →
        (g (s0.put_number sq num)).2 = s0.put_number sq num) →
      ∀ c b, (limitedLoop f sq nums s0 c).1.1 = some b →
        b = (solveLoop g sq nums s0).1 := by
  intro nums
  induction nums with
  | nil =>
    intro _ _ _ _ c b hsome
    have : (some false : Option Bool) = some b := hsome
    have hb : b = false := by
      have := (Option.some.injEq _ _).mp this
      exact this.symm
    rw [hb]
    rfl
  | cons num rest ih =>
    intro hmem hfg hfst hgst c b
    have hhead := List.mem_cons_self num rest
    show (let r := f (s0.put_number sq num) c
          let s2 := r.2.remove_number sq num
          if r.1.1 ≠ some false then ((r.1.1, r.1.2), s2)
          else limitedLoop f sq rest s2 r.1.2).1.1 = some b →
      b = (let r := g (s0.put_number sq num)
           if r.1 then (true, r.2) else solveLoop g sq rest (r.2.remove_number sq num)).1
    rcases Decidable.em ((f (s0.put_number sq num) c).1.1 ≠ some false) with hne | hne
    · simp only [if_pos hne]
      intro hsome
      have hb := hfg num hhead c b hsome
      rcases hgb : (g (s0.put_number sq num)).1 with _ | _
      · rw [hgb] at hb
        subst hb
        exact absurd hsome (by simpa using hne)
      · rw [hgb] at hb
        subst hb
        simp only [hgb, if_true]
    · simp only [if_neg hne]
      have hfalse : (f (s0.put_number sq num) c).1.1 = some false := not_not.mp hne
      have hgb : (g (s0.put_number sq num)).1 = false :=
        (hfg num hhead c false hfalse).symm
      simp only [hgb, if_false, Bool.false_eq_true]
      have hscancel : ((f (s0.put_number sq num) c).2).remove_number sq num = s0 := by
        rw [hfst num hhead c]
        exact s0.put_remove_cancel sq num h128 hvac (hmem num hhead)
      have hgcancel : ((g (s0.put_number sq num)).2).remove_number sq num = s0 := by
        rw [hgst num hhead hgb]
        exact s0.put_remove_cancel sq num h128 hvac (hmem num hhead)
      rw [hscancel, hgcancel]
      exact ih (fun n hn => hmem n (List.mem_cons_of_mem num hn))
        (fun n hn => hfg n (List.mem_cons_of_mem num hn))
        (fun n hn => hfst n (List.mem_cons_of_mem num hn))
        (fun n hn => hgst n (List.mem_cons_of_mem num hn)) _ b

theorem limitedImpl_eq_solveImpl (max fuel : Nat) : ∀ (s : Sudoku) (bb : Bitboard) (c : Nat)
    (b : Bool), Masks128 s.used_masks → VacantBB s bb →
    (limitedImpl max fuel s bb c).1.1 = some b → b = (solveImpl fuel s bb).1 := by
  induction fuel with
  | zero =>
    intro s bb c b _ _ hsome
    exact absurd hsome (by simp [limitedImpl])
  | succ fuel ih =>
    intro s bb c b h128 hvac hsome
    rcases Decidable.em (max ≤ c + 1) with hle | hle
    · have hred : (limitedImpl max (fuel + 1) s bb c).1.1 = none := by
        simp [limitedImpl, hle]
      rw [hred] at hsome
      exact absurd hsome (by simp)
    · rcases hp : s.pop_best_vacant_square bb with _ | ⟨sq, bb'⟩
      · have hred : (limitedImpl max (fuel + 1) s bb c).1.1 = some true := by
          simp [limitedImpl, hle, hp]
        rw [hred] at hsome
        have hb : b = true := ((Option.some.injEq _ _).mp hsome).symm
        have hred2 : (solveImpl (fuel + 1) s bb).1 = true := by
          simp [solveImpl, hp]
        rw [hb, hred2]
      · have hred : limitedImpl max (fuel + 1) s bb c =
            limitedLoop (fun s1 c1 => limitedImpl max fuel s1 bb' c1) sq
              (s.used_masks.candidates sq) s (c + 1) := by
          simp [limitedImpl, hle, hp]
        have hred2 : solveImpl (fuel + 1) s bb =
            solveLoop (fun s1 => solveImpl fuel s1 bb') sq (s.used_masks.candidates sq) s := by
          simp [solveImpl, hp]
        rw [hred] at hsome
        rw [hred2]
        obtain ⟨hsqmem, hbb', _, _⟩ := pop_best_some_spec s bb sq bb' hp
        subst hbb'
        have hsqvac : s.board sq = none := hvac sq hsqmem
        exact limitedLoop_eq_solveLoop max _ _ sq s h128 hsqvac _ (fun num hm => hm)
          (fun num hm c1 b1 => ih (s.put_number sq num) (bb.remove sq) c1 b1
            (h128.put_masks sq num) (hvac.put_remove sq num))
          (fun num hm c1 => limitedImpl_state max fuel (s.put_number sq num) (bb.remove sq)
            (h128.put_masks sq num) (hvac.put_remove sq num) c1)
          (fun num hm => solveImpl_state_false fuel (s.put_number sq num) (bb.remove sq)
            (h128.put_masks sq num) (hvac.put_remove sq num)) (c + 1) b hsome

theorem limitedLoop_count (max : Nat) (f : Sudoku → Nat → (Option Bool × Nat) × Sudoku)
    (sq : Nat)
    (hf : ∀ s1 c1, c1 < (f s1 c1).1.2 ∧
      ((f s1 c1).1.1 = none → max ≤ (f s1 c1).1.2) ∧
      ((f s1 c1).1.1 ≠ none → (f s1 c1).1.2 < max)) :
    ∀ (nums : List Nat) (s0 : Sudoku) (c : Nat), c < max →
      c ≤ (limitedLoop f sq nums s0 c).1.2 ∧
      ((limitedLoop f sq nums s0 c).1.1 = none → max ≤ (limitedLoop f sq nums s0 c).1.2) ∧
      ((limitedLoop f sq nums s0 c).1.1 ≠ none → (limitedLoop f sq nums s0 c).1.2 < max) := by
  intro nums
  induction nums with
  | nil =>
    intro s0 c hc
    refine ⟨Nat.le_refl c, ?_, ?_⟩
    · intro h
      exact absurd h (by simp [limitedLoop])
    · intro _
      exact hc
  | cons num rest ih =>
    intro s0 c hc
    obtain ⟨hmono, hnone, hsome⟩ := hf (s0.put_number sq num) c
    have hred : limitedLoop f sq (num :: rest) s0 c =
        (let r := f (s0.put_number sq num) c
         let s2 := r.2.remove_number sq num
         if r.1.1 ≠ some false then ((r.1.1, r.1.2), s2)
         else limitedLoop f sq rest s2 r.1.2) := rfl
    rcases Decidable.em ((f (s0.put_number sq num) c).1.1 ≠ some false) with hne | hne
    · rw [hred]
      simp only [if_pos hne]
      exact ⟨Nat.le_of_lt hmono, hnone, hsome⟩
    · rw [hred]
      simp only [if_neg hne]
      have hfalse : (f (s0.put_number sq num) c).1.1 = some false := not_not.mp hne
      have hlt : (f (s0.put_number sq num) c).1.2 < max := hsome (by simp [hfalse])
      obtain ⟨h1, h2, h3⟩ := ih ((f (s0.put_number sq num) c).2.remove_number sq num)
        ((f (s0.put_number sq num) c).1.2) hlt
      exact ⟨Nat.le_trans (Nat.le_of_lt hmono) h1, h2, h3⟩

theorem limitedImpl_count (max fuel : Nat) : ∀ (s : Sudoku) (bb : Bitboard) (c : Nat),
    bb.iter.length < fuel →
    c < (limitedImpl max fuel s bb c).1.2 ∧
    ((limitedImpl max fuel s bb c).1.1 = none → max ≤ (limitedImpl max fuel s bb c).1.2) ∧
    ((limitedImpl max fuel s bb c).1.1 ≠ none → (limitedImpl max fuel s bb c).1.2 < max) := by
  induction fuel with
  | zero =>
    intro s bb c hfuel
    exact absurd hfuel (by omega)
  | succ fuel ih =>
    intro s bb c hfuel
    rcases Decidable.em (max ≤ c + 1) with hle | hle
    · have hred : limitedImpl max (fuel + 1) s bb c = ((none, c + 1), s) := by
        simp [limitedImpl, hle]
      rw [hred]
      refine ⟨?_, ?_, ?_⟩
      · show c < c + 1
        omega
      · intro _
        show max ≤ c + 1
        omega
      · intro h
        exact absurd rfl h
    · rcases hp : s.pop_best_vacant_square bb with _ | ⟨sq, bb'⟩
      · have hred : limitedImpl max (fuel + 1) s bb c = ((some true, c + 1), s) := by
          simp [limitedImpl, hle, hp]
        rw [hred]
        refine ⟨?_, ?_, ?_⟩
        · show c < c + 1
          omega
        · intro h
          exact absurd h (by simp)
        · intro _
          show c + 1 < max
          omega
      · have hred : limitedImpl max (fuel + 1) s bb c =
            limitedLoop (fun s1 c1 => limitedImpl max fuel s1 bb' c1) sq
              (s.used_masks.candidates sq) s (c + 1) := by
          simp [limitedImpl, hle, hp]
        rw [hred]
        obtain ⟨hsqmem, hbb', _, _⟩ := pop_best_some_spec s bb sq bb' hp
        have hlen : bb'.iter.length < fuel := by
          have := bb.iter_remove_length sq hsqmem
          rw [hbb']
          omega
        obtain ⟨h1, h2, h3⟩ := limitedLoop_count max
          (fun s1 c1 => limitedImpl max fuel s1 bb' c1) sq
          (fun s1 c1 => ih s1 bb' c1 hlen) (s.used_masks.candidates sq) s (c + 1)
          (by omega)
        exact ⟨by omega, h2, h3⟩

/-! ## Fuel irrelevance: the recursion depth is bounded by the vacant count -/

theorem solveLoop_congr (f g : Sudoku → Bool × Sudoku) (hfg : ∀ s, f s = g s) (sq : Nat) :
    ∀ (nums : List Nat) (s : Sudoku), solveLoop f sq nums s = solveLoop g sq nums s := by
  intro nums
  induction nums with
  | nil =>
    intro s
    rfl
  | cons num rest ih =>
    intro s
    show (let r := f (s.put_number sq num)
          if r.1 then (true, r.2) else solveLoop f sq rest (r.2.remove_number sq num)) =
      (let r := g (s.put_number sq num)
       if r.1 then (true, r.2) else solveLoop g sq rest (r.2.remove_number sq num))
    rw [hfg (s.put_number sq num)]
    rcases hb : (g (s.put_number sq num)).1 with _ | _
    · simp only [hb, if_false, Bool.false_eq_true]
      exact ih _
    · simp only [hb, if_true]

theorem solvableLoop_congr (f g : Sudoku → Bool × Sudoku) (hfg : ∀ s, f s = g s) (sq : Nat) :
    ∀ (nums : List Nat) (s : Sudoku), solvableLoop f sq nums s = solvableLoop g sq nums s := by
  intro nums
  induction nums with
  | nil =>
    intro s
    rfl
  | cons num rest ih =>
    intro s
    show (let r := f (s.put_number sq num)
          let s2 := r.2.remove_number sq num
          if r.1 then (true, s2) else solvableLoop f sq rest s2) =
      (let r := g (s.put_number sq num)
       let s2 := r.2.remove_number sq num
       if r.1 then (true, s2) else solvableLoop g sq rest s2)
    rw [hfg (s.put_number sq num)]
    rcases hb : (g (s.put_number sq num)).1 with _ | _
    · simp only [hb, if_false, Bool.false_eq_true]
      exact ih _
    · simp only [hb, if_true]

theorem countLoop_congr (f g : Sudoku → Nat → Nat × Sudoku) (hfg : ∀ s c, f s c = g s c)
    (sq : Nat) :
    ∀ (nums : List Nat) (s : Sudoku) (c : Nat), countLoop f sq nums s c = countLoop g sq nums s c := by
  intro nums
  induction nums with
  | nil =>
    intro s c
    rfl
  | cons num rest ih =>
    intro s c
    show (let r := f (s.put_number sq num) c
          let s2 := r.2.remove_number sq num
          if 2 ≤ r.1 then (r.1, s2) else countLoop f sq rest s2 r.1) =
      (let r := g (s.put_number sq num) c
       let s2 := r.2.remove_number sq num
       if 2 ≤ r.1 then (r.1, s2) else countLoop g sq rest s2 r.1)
    rw [hfg (s.put_number sq num) c]
    rcases Decidable.em (2 ≤ (g (s.put_number sq num) c).1) with h2 | h2
    · simp only [if_pos h2]
    · simp only [if_neg h2]
      exact ih _ _

theorem limitedLoop_congr (f g : Sudoku → Nat → (Option Bool × Nat) × Sudoku)
    (hfg : ∀ s c, f s c = g s c) (sq : Nat) :
    ∀ (nums : List Nat) (s : Sudoku) (c : Nat),
      limitedLoop f sq nums s c = limitedLoop g sq nums s c := by
  intro nums
  induction nums with
  | nil =>
    intro s c
    rfl
  | cons num rest ih =>
    intro s c
    show (let r := f (s.put_number sq num) c
          let s2 := r.2.remove_number sq num
          if r.1.1 ≠ some false then ((r.1.1, r.1.2), s2) else limitedLoop f sq rest s2 r.1.2) =
      (let r := g (s.put_number sq num) c
       let s2 := r.2.remove_number sq num
       if r.1.1 ≠ some false then ((r.1.1, r.1.2), s2) else limitedLoop g sq rest s2 r.1.2)
    rw [hfg (s.put_number sq num) c]
    rcases Decidable.em ((g (s.put_number sq num) c).1.1 ≠ some false) with hne | hne
    · simp only [if_pos hne]
    · simp only [if_neg hne]
      exact ih _ _

theorem solveImpl_fuel (fuel1 : Nat) : ∀ (fuel2 : Nat) (s : Sudoku) (bb : Bitboard),
    bb.iter.length < fuel1 → bb.iter.length < fuel2 →
    solveImpl fuel1 s bb = solveImpl fuel2 s bb := by
  induction fuel1 with
  | zero =>
    intro fuel2 s bb h1 _
    exact absurd h1 (by omega)
  | succ fuel1 ih =>
    intro fuel2 s bb h1 h2
    cases fuel2 with
    | zero => exact absurd h2 (by omega)
    | succ fuel2 =>
      show (match s.pop_best_vacant_square bb with
        | none => (true, s)
        | some (sq, bb') =>
          solveLoop (fun s1 => solveImpl fuel1 s1 bb') sq (s.used_masks.candidates sq) s) =
        (match s.pop_best_vacant_square bb with
        | none => (true, s)
        | some (sq, bb') =>
          solveLoop (fun s1 => solveImpl fuel2 s1 bb') sq (s.used_masks.candidates sq) s)
      rcases hp : s.pop_best_vacant_square bb with _ | ⟨sq, bb'⟩
      · rfl
      · simp only []
        obtain ⟨hsqmem, hbb', _, _⟩ := pop_best_some_spec s bb sq bb' hp
        have hlen : bb'.iter.length + 1 = bb.iter.length := by
          rw [hbb']
          exact bb.iter_remove_length sq hsqmem
        exact solveLoop_congr _ _
          (fun s1 => ih fuel2 s1 bb' (by omega) (by omega)) sq _ s

theorem solvableImpl_fuel (fuel1 : Nat) : ∀ (fuel2 : Nat) (s : Sudoku) (bb : Bitboard),
    bb.iter.length < fuel1 → bb.iter.length < fuel2 →
    solvableImpl fuel1 s bb = solvableImpl fuel2 s bb := by
  induction fuel1 with
  | zero =>
    intro fuel2 s bb h1 _
    exact absurd h1 (by omega)
  | succ fuel1 ih =>
    intro fuel2 s bb h1 h2
    cases fuel2 with
    | zero => exact absurd h2 (by omega)
    | succ fuel2 =>
      show (match s.pop_best_vacant_square bb with
        | none => (true, s)
        | some (sq, bb') =>
          solvableLoop (fun s1 => solvableImpl fuel1 s1 bb') sq (s.used_masks.candidates sq) s) =
        (match s.pop_best_vacant_square bb with
        | none => (true, s)
        | some (sq, bb') =>
          solvableLoop (fun s1 => solvableImpl fuel2 s1 bb') sq (s.used_masks.candidates sq) s)
      rcases hp : s.pop_best_vacant_square bb with _ | ⟨sq, bb'⟩
      · rfl
      · simp only []
        obtain ⟨hsqmem, hbb', _, _⟩ := pop_best_some_spec s bb sq bb' hp
        have hlen : bb'.iter.length + 1 = bb.iter.length := by
          rw [hbb']
          exact bb.iter_remove_length sq hsqmem
        exact solvableLoop_congr _ _
          (fun s1 => ih fuel2 s1 bb' (by omega) (by omega)) sq _ s

theorem countImpl_fuel (fuel1 : Nat) : ∀ (fuel2 : Nat) (s : Sudoku) (bb : Bitboard) (c : Nat),
    bb.iter.length < fuel1 → bb.iter.length < fuel2 →
    countImpl fuel1 s bb c = countImpl fuel2 s bb c := by
  induction fuel1 with
  | zero =>
    intro fuel2 s bb c h1 _
    exact absurd h1 (by omega)
  | succ fuel1 ih =>
    intro fuel2 s bb c h1 h2
    cases fuel2 with
    | zero => exact absurd h2 (by omega)
    | succ fuel2 =>
      show (match s.pop_best_vacant_square bb with
        | none => (c + 1, s)
        | some (sq, bb') =>
          countLoop (fun s1 c1 => countImpl fuel1 s1 bb' c1) sq (s.used_masks.candidates sq) s c) =
        (match s.pop_best_vacant_square bb with
        | none => (c + 1, s)
        | some (sq, bb') =>
          countLoop (fun s1 c1 => countImpl fuel2 s1 bb' c1) sq (s.used_masks.candidates sq) s c)
      rcases hp : s.pop_best_vacant_square bb with _ | ⟨sq, bb'⟩
      · rfl
      · simp only []
        obtain ⟨hsqmem, hbb', _, _⟩ := pop_best_some_spec s bb sq bb' hp
        have hlen : bb'.iter.length + 1 = bb.iter.length := by
          rw [hbb']
          exact bb.iter_remove_length sq hsqmem
        exact countLoop_congr _ _
          (fun s1 c1 => ih fuel2 s1 bb' c1 (by omega) (by omega)) sq _ s c

theorem limitedImpl_fuel (max fuel1 : Nat) : ∀ (fuel2 : Nat) (s : Sudoku) (bb : Bitboard)
    (c : Nat), bb.iter.length < fuel1 → bb.iter.length < fuel2 →
    limitedImpl max fuel1 s bb c = limitedImpl max fuel2 s bb c := by
  induction fuel1 with
  | zero =>
    intro fuel2 s bb c h1 _
    exact absurd h1 (by omega)
  | succ fuel1 ih =>
    intro fuel2 s bb c h1 h2
    cases fuel2 with
    | zero => exact absurd h2 (by omega)
    | succ fuel2 =>
      show (if max ≤ c + 1 then ((none, c + 1), s)
        else match s.pop_best_vacant_square bb with
          | none => ((some true, c + 1), s)
          | some (sq, bb') =>
            limitedLoop (fun s1 c1 => limitedImpl max fuel1 s1 bb' c1) sq
              (s.used_masks.candidates sq) s (c + 1)) =
        (if max ≤ c + 1 then ((none, c + 1), s)
        else match s.pop_best_vacant_square bb with
          | none => ((some true, c + 1), s)
          | some (sq, bb') =>
            limitedLoop (fun s1 c1 => limitedImpl max fuel2 s1 bb' c1) sq
              (s.used_masks.candidates sq) s (c + 1))
      rcases Decidable.em (max ≤ c + 1) with hle | hle
      · simp only [if_pos hle]
      · simp only [if_neg hle]
        rcases hp : s.pop_best_vacant_square bb with _ | ⟨sq, bb'⟩
        · rfl
        · simp only []
          obtain ⟨hsqmem, hbb', _, _⟩ := pop_best_some_spec s bb sq bb' hp
          have hlen : bb'.iter.length + 1 = bb.iter.length := by
            rw [hbb']
            exact bb.iter_remove_length sq hsqmem
          exact limitedLoop_congr _ _
            (fun s1 c1 => ih fuel2 s1 bb' c1 (by omega) (by omega)) sq _ s (c + 1)

/-! ## Consistency of the tracker under placement and removal -/

theorem exists_update_some_iff (grp : Nat → Nat) (b : Board) (sq num : Nat)
    (hvac : b sq = none) (hsq : sq < 81) (g d : Nat) :
    (∃ t, t < 81 ∧ grp t = g ∧ Function.update b sq (some num) t = some d) ↔
    ((∃ t, t < 81 ∧ grp t = g ∧ b t = some d) ∨ (grp sq = g ∧ d = num)) := by
  constructor
  · rintro ⟨t, ht81, htg, htv⟩
    rcases Decidable.em (t = sq) with rfl | hne
    · rw [Function.update_same] at htv
      right
      exact ⟨htg, ((Option.some.injEq _ _).mp htv).symm⟩
    · rw [Function.update_noteq hne] at htv
      left
      exact ⟨t, ht81, htg, htv⟩
  · rintro (⟨t, ht81, htg, htv⟩ | ⟨hg, rfl⟩)
    · have hne : t ≠ sq := by
        rintro rfl
        rw [hvac] at htv
        exact absurd htv (by simp)
      refine ⟨t, ht81, htg, ?_⟩
      rw [Function.update_noteq hne]
      exact htv
    · refine ⟨sq, hsq, hg, ?_⟩
      rw [Function.update_same]

theorem exists_update_none_iff (grp : Nat → Nat) (b : Board) (sq num : Nat)
    (hfill : b sq = some num) (hsq : sq < 81)
    (hvalid : ∀ t, t < 81 → t ≠ sq → grp t = grp sq → b t ≠ some num)
    (g d : Nat) :
    (∃ t, t < 81 ∧ grp t = g ∧ Function.update b sq none t = some d) ↔
    ((∃ t, t < 81 ∧ grp t = g ∧ b t = some d) ∧ ¬(g = grp sq ∧ d = num)) := by
  constructor
  · rintro ⟨t, ht81, htg, htv⟩
    have hne : t ≠ sq := by
      rintro rfl
      rw [Function.update_same] at htv
      exact absurd htv (by simp)
    rw [Function.update_noteq hne] at htv
    constructor
    · exact ⟨t, ht81, htg, htv⟩
    · rintro ⟨hg, rfl⟩
      subst hg
      exact hvalid t ht81 hne htg (by rw [htv])
  · rintro ⟨⟨t, ht81, htg, htv⟩, hnot⟩
    have hne : t ≠ sq := by
      rintro rfl
      rw [hfill] at htv
      have hd : num = d := (Option.some.injEq _ _).mp htv
      exact hnot ⟨htg.symm ▸ rfl, hd.symm⟩
    refine ⟨t, ht81, htg, ?_⟩
    rw [Function.update_noteq hne]
    exact htv

theorem Consistent.put_number {s : Sudoku} (h : Consistent s) {sq num : Nat} (hsq : sq < 81)
    (hvac : s.board sq = none) (hmem : num ∈ s.used_masks.candidates sq) :
    Consistent (s.put_number sq num) := by
  obtain ⟨hnum1, hnum9, _, _, _⟩ := UsedMasks.mem_candidates_bits hmem
  obtain ⟨hb1, hb2, hb3, hiff⟩ := h
  have hc9 : Square.col sq < 9 := Square.col_lt sq
  have hr9 : Square.row sq < 9 := Square.row_lt sq
  have hk9 : Square.block sq < 9 := Square.block_lt sq
  refine ⟨?_, ?_, ?_, ?_⟩
  · show s.used_masks.col_mask.val &&& _ < 2 ^ 81
    exact Nat.lt_of_le_of_lt Nat.and_le_left hb1
  · show s.used_masks.row_mask.val &&& _ < 2 ^ 81
    exact Nat.lt_of_le_of_lt Nat.and_le_left hb2
  · show s.used_masks.block_mask.val &&& _ < 2 ^ 81
    exact Nat.lt_of_le_of_lt Nat.and_le_left hb3
  · intro g hg d hd
    obtain ⟨hic, hir, hik⟩ := hiff g hg d hd
    refine ⟨?_, ?_, ?_⟩
    · show (s.used_masks.col_mask.use_number (Square.col sq) num).val.testBit (9 * g + d)
        = false ↔ ColHas (Function.update s.board sq (some num)) g (d + 1)
      rw [UsedMask.use_number_testBit _ _ _ _ (by omega)]
      have hrhs : ColHas (Function.update s.board sq (some num)) g (d + 1) ↔
          (ColHas s.board g (d + 1) ∨ (Square.col sq = g ∧ d + 1 = num)) := by
        show (∃ t, t < 81 ∧ Square.col t = g ∧ Function.update s.board sq (some num) t
          = some (d + 1)) ↔ _
        rw [exists_update_some_iff Square.col s.board sq num hvac hsq g (d + 1)]
        constructor
        · rintro (hold | ⟨hgq, hdq⟩)
          · exact Or.inl hold
          · exact Or.inr ⟨hgq, hdq⟩
        · rintro (hold | ⟨hgq, hdq⟩)
          · exact Or.inl hold
          · exact Or.inr ⟨hgq, hdq⟩
      rw [hrhs]
      rcases Decidable.em (Square.col sq = g ∧ d + 1 = num) with hcase | hcase
      · have hkey : decide (9 * g + d = 9 * Square.col sq + num - 1) = true := by
          simp only [decide_eq_true_eq]
          omega
        rw [hkey]
        simp only [Bool.not_true, Bool.and_false]
        constructor
        · intro _
          exact Or.inr hcase
        · intro _
          trivial
      · have hkey : decide (9 * g + d = 9 * Square.col sq + num - 1) = false := by
          simp only [decide_eq_false_iff_not]
          omega
        rw [hkey]
        simp only [Bool.not_false, Bool.and_true]
        rw [hic]
        constructor
        · intro hh
          exact Or.inl hh
        · rintro (hh | hh)
          · exact hh
          · exact absurd hh hcase
    · show (s.used_masks.row_mask.use_number (Square.row sq) num).val.testBit (9 * g + d)
        = false ↔ RowHas (Function.update s.board sq (some num)) g (d + 1)
      rw [UsedMask.use_number_testBit _ _ _ _ (by omega)]
      have hrhs : RowHas (Function.update s.board sq (some num)) g (d + 1) ↔
          (RowHas s.board g (d + 1) ∨ (Square.row sq = g ∧ d + 1 = num)) := by
        show (∃ t, t < 81 ∧ Square.row t = g ∧ Function.update s.board sq (some num) t
          = some (d + 1)) ↔ _
        rw [exists_update_some_iff Square.row s.board sq num hvac hsq g (d + 1)]
        constructor
        · rintro (hold | ⟨hgq, hdq⟩)
          · exact Or.inl hold
          · exact Or.inr ⟨hgq, hdq⟩
        · rintro (hold | ⟨hgq, hdq⟩)
          · exact Or.inl hold
          · exact Or.inr ⟨hgq, hdq⟩
      rw [hrhs]
      rcases Decidable.em (Square.row sq = g ∧ d + 1 = num) with hcase | hcase
      · have hkey : decide (9 * g + d = 9 * Square.row sq + num - 1) = true := by
          simp only [decide_eq_true_eq]
          omega
        rw [hkey]
        simp only [Bool.not_true, Bool.and_false]
        constructor
        · intro _
          exact Or.inr hcase
        · intro _
          trivial
      · have hkey : decide (9 * g + d = 9 * Square.row sq + num - 1) = false := by
          simp only [decide_eq_false_iff_not]
          omega
        rw [hkey]
        simp only [Bool.not_false, Bool.and_true]
        rw [hir]
        constructor
        · intro hh
          exact Or.inl hh
        · rintro (hh | hh)
          · exact hh
          · exact absurd hh hcase
    · show (s.used_masks.block_mask.use_number (Square.block sq) num).val.testBit (9 * g + d)
        = false ↔ BlockHas (Function.update s.board sq (some num)) g (d + 1)
      rw [UsedMask.use_number_testBit _ _ _ _ (by omega)]
      have hrhs : BlockHas (Function.update s.board sq (some num)) g (d + 1) ↔
          (BlockHas s.board g (d + 1) ∨ (Square.block sq = g ∧ d + 1 = num)) := by
        show (∃ t, t < 81 ∧ Square.block t = g ∧ Function.update s.board sq (some num) t
          = some (d + 1)) ↔ _
        rw [exists_update_some_iff Square.block s.board sq num hvac hsq g (d + 1)]
        constructor
        · rintro (hold | ⟨hgq, hdq⟩)
          · exact Or.inl hold
          · exact Or.inr ⟨hgq, hdq⟩
        · rintro (hold | ⟨hgq, hdq⟩)
          · exact Or.inl hold
          · exact Or.inr ⟨hgq, hdq⟩
      rw [hrhs]
      rcases Decidable.em (Square.block sq = g ∧ d + 1 = num) with hcase | hcase
      · have hkey : decide (9 * g + d = 9 * Square.block sq + num - 1) = true := by
          simp only [decide_eq_true_eq]
          omega
        rw [hkey]
        simp only [Bool.not_true, Bool.and_false]
        constructor
        · intro _
          exact Or.inr hcase
        · intro _
          trivial
      · have hkey : decide (9 * g + d = 9 * Square.block sq + num - 1) = false := by
          simp only [decide_eq_false_iff_not]
          omega
        rw [hkey]
        simp only [Bool.not_false, Bool.and_true]
        rw [hik]
        constructor
        · intro hh
          exact Or.inl hh
        · rintro (hh | hh)
          · exact hh
          · exact absurd hh hcase

theorem Consistent.remove_number {s : Sudoku} (h : Consistent s) {sq num : Nat} (hsq : sq < 81)
    (hfill : s.board sq = some num) (hnum1 : 1 ≤ num) (hnum9 : num ≤ 9)
    (hvalid : ValidB s.board) :
    Consistent (s.remove_number sq num) := by
  obtain ⟨hb1, hb2, hb3, hiff⟩ := h
  have hc9 : Square.col sq < 9 := Square.col_lt sq
  have hr9 : Square.row sq < 9 := Square.row_lt sq
  have hk9 : Square.block sq < 9 := Square.block_lt sq
  refine ⟨?_, ?_, ?_, ?_⟩
  · show s.used_masks.col_mask.val ||| (1 <<< (9 * Square.col sq + num - 1)) < 2 ^ 81
    rw [Nat.one_shiftLeft]
    exact Nat.or_lt_two_pow hb1 (Nat.pow_lt_pow_right (by norm_num) (by omega))
  · show s.used_masks.row_mask.val ||| (1 <<< (9 * Square.row sq + num - 1)) < 2 ^ 81
    rw [Nat.one_shiftLeft]
    exact Nat.or_lt_two_pow hb2 (Nat.pow_lt_pow_right (by norm_num) (by omega))
  · show s.used_masks.block_mask.val ||| (1 <<< (9 * Square.block sq + num - 1)) < 2 ^ 81
    rw [Nat.one_shiftLeft]
    exact Nat.or_lt_two_pow hb3 (Nat.pow_lt_pow_right (by norm_num) (by omega))
  · intro g hg d hd
    obtain ⟨hic, hir, hik⟩ := hiff g hg d hd
    refine ⟨?_, ?_, ?_⟩
    · show (s.used_masks.col_mask.unuse_number (Square.col sq) num).val.testBit (9 * g + d)
        = false ↔ ColHas (Function.update s.board sq none) g (d + 1)
      rw [UsedMask.unuse_number_testBit]
      have hv : ∀ t, t < 81 → t ≠ sq → Square.col t = Square.col sq → s.board t ≠ some num := by
        intro t ht81 htne htc
        intro hcontra
        exact hvalid sq hsq t ht81 (fun hh => htne hh.symm) (Or.inl htc.symm) num hfill hcontra
      have hrhs : ColHas (Function.update s.board sq none) g (d + 1) ↔
          (ColHas s.board g (d + 1) ∧ ¬(g = Square.col sq ∧ d + 1 = num)) := by
        show (∃ t, t < 81 ∧ Square.col t = g ∧ Function.update s.board sq none t
          = some (d + 1)) ↔ _
        rw [exists_update_none_iff Square.col s.board sq num hfill hsq hv g (d + 1)]
        rfl
      rw [hrhs]
      rcases Decidable.em (g = Square.col sq ∧ d + 1 = num) with hcase | hcase
      · have hkey : decide (9 * g + d = 9 * Square.col sq + num - 1) = true := by
          simp only [decide_eq_true_eq]
          omega
        rw [hkey]
        simp only [Bool.or_true]
        constructor
        · intro hh
          exact absurd hh (by simp)
        · rintro ⟨_, hnot⟩
          exact absurd hcase hnot
      · have hkey : decide (9 * g + d = 9 * Square.col sq + num - 1) = false := by
          simp only [decide_eq_false_iff_not]
          omega
        rw [hkey]
        simp only [Bool.or_false]
        rw [hic]
        constructor
        · intro hh
          exact ⟨hh, hcase⟩
        · rintro ⟨hh, _⟩
          exact hh
    · show (s.used_masks.row_mask.unuse_number (Square.row sq) num).val.testBit (9 * g + d)
        = false ↔ RowHas (Function.update s.board sq none) g (d + 1)
      rw [UsedMask.unuse_number_testBit]
      have hv : ∀ t, t < 81 → t ≠ sq → Square.row t = Square.row sq → s.board t ≠ some num := by
        intro t ht81 htne htc
        intro hcontra
        exact hvalid sq hsq t ht81 (fun hh => htne hh.symm) (Or.inr (Or.inl htc.symm)) num
          hfill hcontra
      have hrhs : RowHas (Function.update s.board sq none) g (d + 1) ↔
          (RowHas s.board g (d + 1) ∧ ¬(g = Square.row sq ∧ d + 1 = num)) := by
        show (∃ t, t < 81 ∧ Square.row t = g ∧ Function.update s.board sq none t
          = some (d + 1)) ↔ _
        rw [exists_update_none_iff Square.row s.board sq num hfill hsq hv g (d + 1)]
        rfl
      rw [hrhs]
      rcases Decidable.em (g = Square.row sq ∧ d + 1 = num) with hcase | hcase
      · have hkey : decide (9 * g + d = 9 * Square.row sq + num - 1) = true := by
          simp only [decide_eq_true_eq]
          omega
        rw [hkey]
        simp only [Bool.or_true]
        constructor
        · intro hh
          exact absurd hh (by simp)
        · rintro ⟨_, hnot⟩
          exact absurd hcase hnot
      · have hkey : decide (9 * g + d = 9 * Square.row sq + num - 1) = false := by
          simp only [decide_eq_false_iff_not]
          omega
        rw [hkey]
        simp only [Bool.or_false]
        rw [hir]
        constructor
        · intro hh
          exact ⟨hh, hcase⟩
        · rintro ⟨hh, _⟩
          exact hh
    · show (s.used_masks.block_mask.unuse_number (Square.block sq) num).val.testBit (9 * g + d)
        = false ↔ BlockHas (Function.update s.board sq none) g (d + 1)
      rw [UsedMask.unuse_number_testBit]
      have hv : ∀ t, t < 81 → t ≠ sq → Square.block t = Square.block sq →
          s.board t ≠ some num := by
        intro t ht81 htne htc
        intro hcontra
        exact hvalid sq hsq t ht81 (fun hh => htne hh.symm) (Or.inr (Or.inr htc.symm)) num
          hfill hcontra
      have hrhs : BlockHas (Function.update s.board sq none) g (d + 1) ↔
          (BlockHas s.board g (d + 1) ∧ ¬(g = Square.block sq ∧ d + 1 = num)) := by
        show (∃ t, t < 81 ∧ Square.block t = g ∧ Function.update s.board sq none t
          = some (d + 1)) ↔ _
        rw [exists_update_none_iff Square.block s.board sq num hfill hsq hv g (d + 1)]
        rfl
      rw [hrhs]
      rcases Decidable.em (g = Square.block sq ∧ d + 1 = num) with hcase | hcase
      · have hkey : decide (9 * g + d = 9 * Square.block sq + num - 1) = true := by
          simp only [decide_eq_true_eq]
          omega
        rw [hkey]
        simp only [Bool.or_true]
        constructor
        · intro hh
          exact absurd hh (by simp)
        · rintro ⟨_, hnot⟩
          exact absurd hcase hnot
      · have hkey : decide (9 * g + d = 9 * Square.block sq + num - 1) = false := by
          simp only [decide_eq_false_iff_not]
          omega
        rw [hkey]
        simp only [Bool.or_false]
        rw [hik]
        constructor
        · intro hh
          exact ⟨hh, hcase⟩
        · rintro ⟨hh, _⟩
          exact hh

/-! ## Preservation of the board invariants -/

theorem not_has_of_mem_candidates {s : Sudoku} (h : Consistent s) {sq num : Nat}
    (hsq : sq < 81) (hmem : num ∈ s.used_masks.candidates sq) :
    ¬ColHas s.board (Square.col sq) num ∧ ¬RowHas s.board (Square.row sq) num ∧
      ¬BlockHas s.board (Square.block sq) num := by
  obtain ⟨hnum1, hnum9, hc, hr, hk⟩ := UsedMasks.mem_candidates_bits hmem
  obtain ⟨_, _, _, hiff⟩ := h
  obtain ⟨hic, hir, hik⟩ := hiff (Square.col sq) (Square.col_lt sq) (num - 1) (by omega)
  obtain ⟨hic2, hir2, hik2⟩ := hiff (Square.row sq) (Square.row_lt sq) (num - 1) (by omega)
  obtain ⟨hic3, hir3, hik3⟩ := hiff (Square.block sq) (Square.block_lt sq) (num - 1) (by omega)
  have e1 : 9 * Square.col sq + (num - 1) = 9 * Square.col sq + num - 1 := by omega
  have e2 : 9 * Square.row sq + (num - 1) = 9 * Square.row sq + num - 1 := by omega
  have e3 : 9 * Square.block sq + (num - 1) = 9 * Square.block sq + num - 1 := by omega
  have e4 : num - 1 + 1 = num := by omega
  rw [e1, e4] at hic
  rw [e2, e4] at hir2
  rw [e3, e4] at hik3
  refine ⟨?_, ?_, ?_⟩
  · intro hcontra
    have := hic.mpr hcontra
    rw [hc] at this
    exact absurd this (by simp)
  · intro hcontra
    have := hir2.mpr hcontra
    rw [hr] at this
    exact absurd this (by simp)
  · intro hcontra
    have := hik3.mpr hcontra
    rw [hk] at this
    exact absurd this (by simp)

theorem ValidB.put_board {b : Board} (hvalid : ValidB b) {sq num : Nat} (hsq : sq < 81)
    (hnc : ¬ColHas b (Square.col sq) num) (hnr : ¬RowHas b (Square.row sq) num)
    (hnk : ¬BlockHas b (Square.block sq) num) :
    ValidB (Function.update b sq (some num)) := by
  intro a ha c hc hac hsg num' hav
  rcases Decidable.em (a = sq) with rfl | hane
  · rw [Function.update_same] at hav
    have hnum : num' = num := ((Option.some.injEq _ _).mp hav).symm
    subst hnum
    have hcne : c ≠ a := fun hh => hac hh.symm
    rw [Function.update_noteq hcne]
    intro hcv
    rcases hsg with hcg | hrg | hkg
    · exact hnc ⟨c, hc, hcg.symm, hcv⟩
    · exact hnr ⟨c, hc, hrg.symm, hcv⟩
    · exact hnk ⟨c, hc, hkg.symm, hcv⟩
  · rw [Function.update_noteq hane] at hav
    rcases Decidable.em (c = sq) with rfl | hcne
    · rw [Function.update_same]
      intro hcv
      have hnum : num = num' := (Option.some.injEq _ _).mp hcv
      subst hnum
      rcases hsg with hcg | hrg | hkg
      · exact hnc ⟨a, ha, hcg, hav⟩
      · exact hnr ⟨a, ha, hrg, hav⟩
      · exact hnk ⟨a, ha, hkg, hav⟩
    · rw [Function.update_noteq hcne]
      exact hvalid a ha c hc hac hsg num' hav

theorem ValidB.remove_board {b : Board} (hvalid : ValidB b) (sq : Nat) :
    ValidB (Function.update b sq none) := by
  intro a ha c hc hac hsg num' hav
  rcases Decidable.em (a = sq) with rfl | hane
  · rw [Function.update_same] at hav
    exact absurd hav (by simp)
  · rw [Function.update_noteq hane] at hav
    rcases Decidable.em (c = sq) with rfl | hcne
    · rw [Function.update_same]
      simp
    · rw [Function.update_noteq hcne]
      exact hvalid a ha c hc hac hsg num' hav

theorem DigitsOK.put_range {b : Board} (h : DigitsOK b) {sq num : Nat} (hnum1 : 1 ≤ num)
    (hnum9 : num ≤ 9) : DigitsOK (Function.update b sq (some num)) := by
  intro t ht num' htv
  rcases Decidable.em (t = sq) with rfl | hne
  · rw [Function.update_same] at htv
    have : num = num' := (Option.some.injEq _ _).mp htv
    omega
  · rw [Function.update_noteq hne] at htv
    exact h t ht num' htv

theorem DigitsOK.remove_range {b : Board} (h : DigitsOK b) (sq : Nat) :
    DigitsOK (Function.update b sq none) := by
  intro t ht num' htv
  rcases Decidable.em (t = sq) with rfl | hne
  · rw [Function.update_same] at htv
    exact absurd htv (by simp)
  · rw [Function.update_noteq hne] at htv
    exact h t ht num' htv

theorem BoardZero.put_inside {b : Board} (h : BoardZero b) {sq : Nat} (hsq : sq < 81) (v : Option Nat) :
    BoardZero (Function.update b sq v) := by
  intro t ht
  have hne : t ≠ sq := by omega
  rw [Function.update_noteq hne]
  exact h t ht

/-- The bitboard is exactly the vacancy set of the board. -/
def ExactBB (s : Sudoku) (bb : Bitboard) : Prop :=
  bb.val < 2 ^ 81 ∧ ∀ i, i < 81 → (bb.val.testBit i = true ↔ s.board i = none)

theorem ExactBB.calc (s : Sudoku) : ExactBB s (calc_bb_vacant s.board) := by
  refine ⟨calc_bb_vacant_lt s.board, ?_⟩
  intro i hi
  rw [calc_bb_vacant_testBit]
  constructor
  · intro hh
    simp [hi] at hh
    exact hh
  · intro hh
    simp [hi, hh]

theorem ExactBB.vacantBB {s : Sudoku} {bb : Bitboard} (h : ExactBB s bb) : VacantBB s bb := by
  intro i hi
  obtain ⟨h81, hbit⟩ := (bb.mem_iter i).mp hi
  exact (h.2 i h81).mp hbit

theorem ExactBB.step {s : Sudoku} {bb : Bitboard} (h : ExactBB s bb) {sq : Nat}
    (hsqmem : sq ∈ bb.iter) (num : Nat) :
    ExactBB (s.put_number sq num) (bb.remove sq) := by
  obtain ⟨hsq81, _⟩ := (bb.mem_iter sq).mp hsqmem
  constructor
  · exact Nat.lt_of_le_of_lt Nat.and_le_left h.1
  · intro i hi
    rw [Bitboard.remove_testBit bb sq i (by omega)]
    show _ ↔ Function.update s.board sq (some num) i = none
    rcases Decidable.em (i = sq) with rfl | hne
    · rw [Function.update_same]
      simp
    · rw [Function.update_noteq hne]
      have hd : (!decide (i = sq)) = true := by simp [hne]
      rw [hd, Bool.and_true]
      exact h.2 i hi

/-- The full invariant the search maintains at every recursive entry. -/
def SearchInv (s : Sudoku) (bb : Bitboard) : Prop := GoodState s ∧ ExactBB s bb

theorem GoodState.masks128 {s : Sudoku} (h : GoodState s) : Masks128 s.used_masks := by
  obtain ⟨⟨h1, h2, h3, _⟩, _, _, _⟩ := h
  have hlt : (2 : Nat) ^ 81 < 2 ^ 128 := Nat.pow_lt_pow_right (by norm_num) (by norm_num)
  exact ⟨by omega, by omega, by omega⟩

theorem SearchInv.advance {s : Sudoku} {bb : Bitboard} (h : SearchInv s bb) {sq : Nat} {bb' : Bitboard}
    {num : Nat} (hpop : s.pop_best_vacant_square bb = some (sq, bb'))
    (hmem : num ∈ s.used_masks.candidates sq) :
    SearchInv (s.put_number sq num) bb' := by
  obtain ⟨⟨hcons, hvalid, hdig, hzero⟩, hexact⟩ := h
  obtain ⟨hsqmem, hbb', _, _⟩ := pop_best_some_spec s bb sq bb' hpop
  subst hbb'
  obtain ⟨hsq81, hsqbit⟩ := (bb.mem_iter sq).mp hsqmem
  have hvac : s.board sq = none := (hexact.2 sq hsq81).mp hsqbit
  obtain ⟨hnum1, hnum9, _, _, _⟩ := UsedMasks.mem_candidates_bits hmem
  obtain ⟨hnc, hnr, hnk⟩ := not_has_of_mem_candidates hcons hsq81 hmem
  refine ⟨⟨?_, ?_, ?_, ?_⟩, ?_⟩
  · exact hcons.put_number hsq81 hvac hmem
  · exact hvalid.put_board hsq81 hnc hnr hnk
  · exact hdig.put_range hnum1 hnum9
  · exact hzero.put_inside hsq81 (some num)
  · exact hexact.step hsqmem num

/-! ## Completions and the candidate decomposition -/

theorem BoardLe.refl (b : Board) : BoardLe b b := fun _ _ _ h => h

theorem BoardLe.put {b : Board} {sq : Nat} (hvac : b sq = none) (v : Option Nat) :
    BoardLe b (Function.update b sq v) := by
  intro t ht num htv
  have hne : t ≠ sq := by
    rintro rfl
    rw [hvac] at htv
    exact absurd htv (by simp)
  rw [Function.update_noteq hne]
  exact htv

theorem Completion.mono {b b' c : Board} (hle : BoardLe b b') (h : Completion b' c) :
    Completion b c := by
  obtain ⟨hle', hcomp, hval, hdig, hzero⟩ := h
  exact ⟨fun t ht num htv => hle' t ht num (hle t ht num htv), hcomp, hval, hdig, hzero⟩

theorem Completion.extend_put {b : Board} {sq num : Nat} {b' : Board}
    (h : Completion b b') (hb' : b' sq = some num) :
    Completion (Function.update b sq (some num)) b' := by
  obtain ⟨hle, hcomp, hval, hdig, hzero⟩ := h
  refine ⟨?_, hcomp, hval, hdig, hzero⟩
  intro t ht v htv
  rcases Decidable.em (t = sq) with rfl | hne
  · rw [Function.update_same] at htv
    have : num = v := (Option.some.injEq _ _).mp htv
    subst this
    exact hb'
  · rw [Function.update_noteq hne] at htv
    exact hle t ht v htv

theorem Completion.digit_mem_candidates {s : Sudoku} (hcons : Consistent s) {sq : Nat}
    (hsq81 : sq < 81) (hvac : s.board sq = none) {b' : Board}
    (h : Completion s.board b') :
    ∃ num ∈ s.used_masks.candidates sq, b' sq = some num := by
  obtain ⟨hle, hcomp, hval, hdig, hzero⟩ := h
  have hsome := hcomp sq hsq81
  rcases hb : b' sq with _ | num
  · rw [hb] at hsome
    exact absurd hsome (by simp)
  · obtain ⟨hnum1, hnum9⟩ := hdig sq hsq81 num hb
    refine ⟨num, ?_, rfl⟩
    rw [UsedMasks.mem_candidates]
    refine ⟨hnum1, hnum9, ?_⟩
    rw [UsedMasks.candidate_mask_testBit]
    obtain ⟨hbc1, hbc2, hbc3, hbiff⟩ := hcons
    obtain ⟨hic, hir, hik⟩ := hbiff (Square.col sq) (Square.col_lt sq) (num - 1) (by omega)
    obtain ⟨hic2, hir2, hik2⟩ := hbiff (Square.row sq) (Square.row_lt sq) (num - 1) (by omega)
    obtain ⟨hic3, hir3, hik3⟩ := hbiff (Square.block sq) (Square.block_lt sq) (num - 1) (by omega)
    have e4 : num - 1 + 1 = num := by omega
    rw [e4] at hic hir2 hik3
    have hnc : ¬ColHas s.board (Square.col sq) num := by
      rintro ⟨t, ht81, htg, htv⟩
      have htne : t ≠ sq := by
        rintro rfl
        rw [hvac] at htv
        exact absurd htv (by simp)
      have hbt : b' t = some num := hle t ht81 num htv
      exact hval t ht81 sq hsq81 htne (Or.inl htg) num hbt (by rw [hb])
    have hnr : ¬RowHas s.board (Square.row sq) num := by
      rintro ⟨t, ht81, htg, htv⟩
      have htne : t ≠ sq := by
        rintro rfl
        rw [hvac] at htv
        exact absurd htv (by simp)
      have hbt : b' t = some num := hle t ht81 num htv
      exact hval t ht81 sq hsq81 htne (Or.inr (Or.inl htg)) num hbt (by rw [hb])
    have hnk : ¬BlockHas s.board (Square.block sq) num := by
      rintro ⟨t, ht81, htg, htv⟩
      have htne : t ≠ sq := by
        rintro rfl
        rw [hvac] at htv
        exact absurd htv (by simp)
      have hbt : b' t = some num := hle t ht81 num htv
      exact hval t ht81 sq hsq81 htne (Or.inr (Or.inr htg)) num hbt (by rw [hb])
    have hbitc : s.used_masks.col_mask.val.testBit (9 * Square.col sq + (num - 1)) = true := by
      rcases hx : s.used_masks.col_mask.val.testBit (9 * Square.col sq + (num - 1)) with _ | _
      · exact absurd (hic.mp hx) hnc
      · rfl
    have hbitr : s.used_masks.row_mask.val.testBit (9 * Square.row sq + (num - 1)) = true := by
      rcases hx : s.used_masks.row_mask.val.testBit (9 * Square.row sq + (num - 1)) with _ | _
      · exact absurd (hir2.mp hx) hnr
      · rfl
    have hbitk : s.used_masks.block_mask.val.testBit (9 * Square.block sq + (num - 1))
        = true := by
      rcases hx : s.used_masks.block_mask.val.testBit (9 * Square.block sq + (num - 1))
        with _ | _
      · exact absurd (hik3.mp hx) hnk
      · rfl
    rw [hbitc, hbitr, hbitk]
    simp
    omega

theorem solveLoop_spec (f : Sudoku → Bool × Sudoku) (sq : Nat) (s0 : Sudoku)
    (hsq81 : sq < 81) (hvac : s0.board sq = none) (h128 : Masks128 s0.used_masks) :
    ∀ nums, (∀ num ∈ nums, num ∈ s0.used_masks.candidates sq) →
      (∀ num ∈ nums,
        ((f (s0.put_number sq num)).1 = true →
          Completion (s0.put_number sq num).board (f (s0.put_number sq num)).2.board ∧
          GoodState (f (s0.put_number sq num)).2) ∧
        ((f (s0.put_number sq num)).1 = false →
          (f (s0.put_number sq num)).2 = s0.put_number sq num ∧
          ¬Solvable (s0.put_number sq num).board)) →
      ((solveLoop f sq nums s0).1 = true →
        Completion s0.board (solveLoop f sq nums s0).2.board ∧
        GoodState (solveLoop f sq nums s0).2) ∧
      ((solveLoop f sq nums s0).1 = false →
        ∀ b', Completion s0.board b' → ∀ num ∈ nums, b' sq ≠ some num) := by
  intro nums
  induction nums with
  | nil =>
    intro _ _
    constructor
    · intro h
      exact absurd h (by simp [solveLoop])
    · intro _ b' _ num hmem
      exact absurd hmem (List.not_mem_nil num)
  | cons num rest ih =>
    intro hmem hf
    have hhead := List.mem_cons_self num rest
    obtain ⟨hft, hff⟩ := hf num hhead
    have hred : solveLoop f sq (num :: rest) s0 =
        (let r := f (s0.put_number sq num)
         if r.1 then (true, r.2) else solveLoop f sq rest (r.2.remove_number sq num)) := rfl
    rcases hb : (f (s0.put_number sq num)).1 with _ | _
    · obtain ⟨hrestore, hnsolv⟩ := hff hb
      have hcancel : ((f (s0.put_number sq num)).2).remove_number sq num = s0 := by
        rw [hrestore]
        exact s0.put_remove_cancel sq num h128 hvac (hmem num hhead)
      rw [hred]
      simp only [hb, if_false, Bool.false_eq_true]
      rw [hcancel]
      obtain ⟨iht, ihf⟩ := ih (fun n hn => hmem n (List.mem_cons_of_mem num hn))
        (fun n hn => hf n (List.mem_cons_of_mem num hn))
      constructor
      · exact iht
      · intro hfail b' hcompl num' hnum'
        rcases List.mem_cons.mp hnum' with rfl | hrest
        · intro hbsq
          exact hnsolv ⟨b', hcompl.extend_put hbsq⟩
        · exact ihf hfail b' hcompl num' hrest
    · rw [hred]
      simp only [hb, if_true]
      constructor
      · intro _
        obtain ⟨hcompl, hgood⟩ := hft hb
        refine ⟨?_, hgood⟩
        exact Completion.mono (BoardLe.put hvac (some num)) hcompl
      · intro hfail
        exact absurd hfail (by simp)

theorem solveImpl_spec (fuel : Nat) : ∀ (s : Sudoku) (bb : Bitboard),
    SearchInv s bb → bb.iter.length < fuel →
    ((solveImpl fuel s bb).1 = true →
      Completion s.board (solveImpl fuel s bb).2.board ∧ GoodState (solveImpl fuel s bb).2) ∧
    ((solveImpl fuel s bb).1 = false → ¬Solvable s.board) := by
  induction fuel with
  | zero =>
    intro s bb _ hfuel
    exact absurd hfuel (by omega)
  | succ fuel ih =>
    intro s bb hinv hfuel
    obtain ⟨⟨hcons, hvalid, hdig, hzero⟩, hexact⟩ := hinv
    rcases hp : s.pop_best_vacant_square bb with _ | ⟨sq, bb'⟩
    · have hempty : bb.iter = [] := (pop_best_none_iff s bb).mp hp
      have hcompl : CompleteB s.board := by
        intro i hi
        rcases hx : s.board i with _ | v
        · exfalso
          have hbit : bb.val.testBit i = true := (hexact.2 i hi).mpr hx
          have : i ∈ bb.iter := (bb.mem_iter i).mpr ⟨hi, hbit⟩
          rw [hempty] at this
          exact absurd this (List.not_mem_nil i)
        · simp
      have hred : solveImpl (fuel + 1) s bb = (true, s) := by
        simp [solveImpl, hp]
      rw [hred]
      constructor
      · intro _
        exact ⟨⟨BoardLe.refl s.board, hcompl, hvalid, hdig, hzero⟩,
          hcons, hvalid, hdig, hzero⟩
      · intro hfail
        exact absurd hfail (by simp)
    · have hred : solveImpl (fuel + 1) s bb =
          solveLoop (fun s1 => solveImpl fuel s1 bb') sq (s.used_masks.candidates sq) s := by
        simp [solveImpl, hp]
      rw [hred]
      obtain ⟨hsqmem, hbb', _, _⟩ := pop_best_some_spec s bb sq bb' hp
      obtain ⟨hsq81, hsqbit⟩ := (bb.mem_iter sq).mp hsqmem
      have hvac : s.board sq = none := (hexact.2 sq hsq81).mp hsqbit
      have h128 : Masks128 s.used_masks :=
        GoodState.masks128 ⟨hcons, hvalid, hdig, hzero⟩
      have hlen : bb'.iter.length < fuel := by
        have := bb.iter_remove_length sq hsqmem
        rw [hbb']
        omega
      obtain ⟨hlt, hlf⟩ := solveLoop_spec (fun s1 => solveImpl fuel s1 bb') sq s hsq81 hvac h128
        (s.used_masks.candidates sq) (fun n hn => hn)
        (fun n hn => by
          have hinv' : SearchInv (s.put_number sq n) bb' :=
            SearchInv.advance ⟨⟨hcons, hvalid, hdig, hzero⟩, hexact⟩ hp hn
          obtain ⟨iht, ihf⟩ := ih (s.put_number sq n) bb' hinv' hlen
          refine ⟨iht, ?_⟩
          intro hfalse
          refine ⟨?_, ihf hfalse⟩
          exact solveImpl_state_false fuel (s.put_number sq n) bb'
            (h128.put_masks sq n) (by
              rw [hbb']
              exact (ExactBB.vacantBB hexact).put_remove sq n) hfalse)
      refine ⟨hlt, ?_⟩
      intro hfail
      rintro ⟨b', hcompl⟩
      obtain ⟨numb, hnumb, hbsq⟩ := Completion.digit_mem_candidates hcons hsq81 hvac hcompl
      exact hlf hfail b' hcompl numb hnumb hbsq

/-! ## Counting completions: the uniqueness search -/

/-- No board satisfies `P`. -/
def PNone (P : Board → Prop) : Prop := ¬∃ b, P b

/-- Exactly one board satisfies `P`. -/
def POne (P : Board → Prop) : Prop := ∃ b, P b ∧ ∀ b', P b' → b' = b

/-- At least two distinct boards satisfy `P`. -/
def PTwo (P : Board → Prop) : Prop := ∃ b1 b2, P b1 ∧ P b2 ∧ b1 ≠ b2

theorem class_trichotomy (P : Board → Prop) : PNone P ∨ POne P ∨ PTwo P := by
  by_cases h : ∃ b, P b
  · obtain ⟨b, hb⟩ := h
    by_cases h2 : ∃ b2, P b2 ∧ b2 ≠ b
    · obtain ⟨b2, hb2, hne⟩ := h2
      exact Or.inr (Or.inr ⟨b2, b, hb2, hb, hne⟩)
    · refine Or.inr (Or.inl ⟨b, hb, ?_⟩)
      intro b' hb'
      by_contra hne
      exact h2 ⟨b', hb', hne⟩
  · exact Or.inl h

theorem completion_put_iff {b : Board} {sq num : Nat} (hsq81 : sq < 81) (hvac : b sq = none)
    (b' : Board) :
    Completion (Function.update b sq (some num)) b' ↔ Completion b b' ∧ b' sq = some num := by
  constructor
  · intro h
    have hle : BoardLe b (Function.update b sq (some num)) := BoardLe.put hvac (some num)
    refine ⟨Completion.mono hle h, ?_⟩
    exact h.1 sq hsq81 num (Function.update_same sq (some num) b)
  · rintro ⟨h, hb'⟩
    exact h.extend_put hb'

theorem completion_of_complete {b : Board} (hc : CompleteB b) (hz : BoardZero b) {b' : Board}
    (h : Completion b b') : b' = b := by
  funext i
  rcases Nat.lt_or_ge i 81 with hi | hi
  · have := hc i hi
    rcases hx : b i with _ | v
    · rw [hx] at this
      exact absurd this (by simp)
    · exact (h.1 i hi v hx).trans hx.symm |>.trans hx
  · rw [h.2.2.2.2 i hi, hz i hi]

theorem countLoop_spec (f : Sudoku → Nat → Nat × Sudoku) (sq : Nat) (s0 : Sudoku)
    (hsq81 : sq < 81) (hvac : s0.board sq = none) (h128 : Masks128 s0.used_masks) :
    ∀ nums, nums.Nodup → (∀ num ∈ nums, num ∈ s0.used_masks.candidates sq) →
      (∀ num ∈ nums, ∀ c, c ≤ 1 →
        (f (s0.put_number sq num) c).2 = s0.put_number sq num ∧
        (f (s0.put_number sq num) c).1 ≤ 2 ∧ c ≤ (f (s0.put_number sq num) c).1 ∧
        (PNone (Completion (s0.put_number sq num).board) → (f (s0.put_number sq num) c).1 = c) ∧
        (POne (Completion (s0.put_number sq num).board) →
          (f (s0.put_number sq num) c).1 = c + 1) ∧
        (PTwo (Completion (s0.put_number sq num).board) → (f (s0.put_number sq num) c).1 = 2)) →
      ∀ c, c ≤ 1 →
        (countLoop f sq nums s0 c).1 ≤ 2 ∧ c ≤ (countLoop f sq nums s0 c).1 ∧
        (PNone (fun b' => Completion s0.board b' ∧ ∃ n ∈ nums, b' sq = some n) →
          (countLoop f sq nums s0 c).1 = c) ∧
        (POne (fun b' => Completion s0.board b' ∧ ∃ n ∈ nums, b' sq = some n) →
          (countLoop f sq nums s0 c).1 = c + 1) ∧
        (PTwo (fun b' => Completion s0.board b' ∧ ∃ n ∈ nums, b' sq = some n) →
          (countLoop f sq nums s0 c).1 = 2) := by
  intro nums
  induction nums with
  | nil =>
    intro _ _ _ c hc
    refine ⟨?_, Nat.le_refl c, fun _ => rfl, ?_, ?_⟩
    · show c ≤ 2
      omega
    · rintro ⟨b0, ⟨_, n, hn, _⟩, _⟩
      exact absurd hn (List.not_mem_nil n)
    · rintro ⟨b1, b2, ⟨_, n, hn, _⟩, _, _⟩
      exact absurd hn (List.not_mem_nil n)
  | cons num rest ih =>
    intro hnd hmem hf c hc
    have hhead := List.mem_cons_self num rest
    have hnum_cand := hmem num hhead
    obtain ⟨hst, hle2, hmono, hN, hO, hT⟩ := hf num hhead c hc
    have hQiff : ∀ b', Completion (s0.put_number sq num).board b' ↔
        (Completion s0.board b' ∧ b' sq = some num) := fun b' =>
      completion_put_iff hsq81 hvac b'
    have hcancel : ((f (s0.put_number sq num) c).2).remove_number sq num = s0 := by
      rw [hst]
      exact s0.put_remove_cancel sq num h128 hvac hnum_cand
    have hred : countLoop f sq (num :: rest) s0 c =
        (let r := f (s0.put_number sq num) c
         let s2 := r.2.remove_number sq num
         if 2 ≤ r.1 then (r.1, s2) else countLoop f sq rest s2 r.1) := rfl
    have hnumnotin : num ∉ rest := (List.nodup_cons.mp hnd).1
    have hndrest : rest.Nodup := (List.nodup_cons.mp hnd).2
    rcases class_trichotomy (Completion (s0.put_number sq num).board) with hq | hq | hq
    · -- the head digit admits no completion
      have hr1 : (f (s0.put_number sq num) c).1 = c := hN hq
      have hnotwo : ¬ 2 ≤ (f (s0.put_number sq num) c).1 := by omega
      rw [hred]
      simp only [if_neg hnotwo]
      rw [hcancel, hr1]
      obtain ⟨ih1, ih2, ihN, ihO, ihT⟩ := ih hndrest
        (fun n hn => hmem n (List.mem_cons_of_mem num hn))
        (fun n hn => hf n (List.mem_cons_of_mem num hn)) c hc
      have hnohead : ∀ b', Completion s0.board b' → b' sq ≠ some num := by
        intro b' hb hb'
        exact hq ⟨b', (hQiff b').mpr ⟨hb, hb'⟩⟩
      refine ⟨ih1, ih2, ?_, ?_, ?_⟩
      · intro hPN
        apply ihN
        rintro ⟨b', hb', n, hn, hbs⟩
        exact hPN ⟨b', hb', n, List.mem_cons_of_mem num hn, hbs⟩
      · rintro ⟨b0, ⟨hb0, n0, hn0, hb0s⟩, huniq⟩
        apply ihO
        have hn0rest : n0 ∈ rest := by
          rcases List.mem_cons.mp hn0 with rfl | hr
          · exact absurd hb0s (hnohead b0 hb0)
          · exact hr
        refine ⟨b0, ⟨hb0, n0, hn0rest, hb0s⟩, ?_⟩
        rintro b' ⟨hb', n', hn', hbs'⟩
        exact huniq b' ⟨hb', n', List.mem_cons_of_mem num hn', hbs'⟩
      · rintro ⟨b1, b2, ⟨hb1, n1, hn1, hb1s⟩, ⟨hb2, n2, hn2, hb2s⟩, hne⟩
        apply ihT
        have hn1rest : n1 ∈ rest := by
          rcases List.mem_cons.mp hn1 with rfl | hr
          · exact absurd hb1s (hnohead b1 hb1)
          · exact hr
        have hn2rest : n2 ∈ rest := by
          rcases List.mem_cons.mp hn2 with rfl | hr
          · exact absurd hb2s (hnohead b2 hb2)
          · exact hr
        exact ⟨b1, b2, ⟨hb1, n1, hn1rest, hb1s⟩, ⟨hb2, n2, hn2rest, hb2s⟩, hne⟩
    · -- the head digit admits exactly one completion
      obtain ⟨bq, hbq, hbquniq⟩ := hq
      obtain ⟨hbqc, hbqs⟩ := (hQiff bq).mp hbq
      have hr1 : (f (s0.put_number sq num) c).1 = c + 1 :=
        hO ⟨bq, hbq, hbquniq⟩
      have hc01 : c = 0 ∨ c = 1 := by omega
      rcases hc01 with rfl | rfl
      · -- c = 0: the child returns 1 and the loop continues
        have hnotwo : ¬ 2 ≤ (f (s0.put_number sq num) 0).1 := by omega
        rw [hred]
        simp only [if_neg hnotwo]
        rw [hcancel, hr1]
        obtain ⟨ih1, ih2, ihN, ihO, ihT⟩ := ih hndrest
          (fun n hn => hmem n (List.mem_cons_of_mem num hn))
          (fun n hn => hf n (List.mem_cons_of_mem num hn)) 1 (by omega)
        refine ⟨ih1, by omega, ?_, ?_, ?_⟩
        · intro hPN
          exact absurd ⟨bq, hbqc, num, hhead, hbqs⟩ hPN
        · rintro ⟨b0, ⟨hb0, n0, hn0, hb0s⟩, huniq⟩
          have hrestnone : PNone (fun b' => Completion s0.board b' ∧ ∃ n ∈ rest,
              b' sq = some n) := by
            rintro ⟨b', hb', n', hn', hbs'⟩
            have hb'eq : b' = b0 := huniq b' ⟨hb', n', List.mem_cons_of_mem num hn', hbs'⟩
            have hbqeq : bq = b0 := huniq bq ⟨hbqc, num, hhead, hbqs⟩
            have hsame : b' sq = some num := by
              rw [hb'eq, ← hbqeq]
              exact hbqs
            rw [hbs'] at hsame
            have : n' = num := (Option.some.injEq _ _).mp hsame
            subst this
            exact hnumnotin hn'
          rw [ihN hrestnone]
        · rintro ⟨b1, b2, ⟨hb1, n1, hn1, hb1s⟩, ⟨hb2, n2, hn2, hb2s⟩, hne⟩
          rcases Decidable.em (n1 = num) with hn1eq | hn1ne
          · rcases Decidable.em (n2 = num) with hn2eq | hn2ne
            · -- both head: both equal bq, contradiction
              have he1 : b1 = bq := hbquniq b1 ((hQiff b1).mpr ⟨hb1, hn1eq ▸ hb1s⟩)
              have he2 : b2 = bq := hbquniq b2 ((hQiff b2).mpr ⟨hb2, hn2eq ▸ hb2s⟩)
              exact absurd (he1.trans he2.symm) hne
            · -- b2 has a rest digit
              have hn2rest : n2 ∈ rest := by
                rcases List.mem_cons.mp hn2 with h' | hr
                · exact absurd h' hn2ne
                · exact hr
              rcases class_trichotomy (fun b' => Completion s0.board b' ∧ ∃ n ∈ rest,
                  b' sq = some n) with hr2 | hr2 | hr2
              · exact absurd ⟨b2, hb2, n2, hn2rest, hb2s⟩ hr2
              · rw [ihO hr2]
              · rw [ihT hr2]
          · -- b1 has a rest digit
            have hn1rest : n1 ∈ rest := by
              rcases List.mem_cons.mp hn1 with h' | hr
              · exact absurd h' hn1ne
              · exact hr
            rcases class_trichotomy (fun b' => Completion s0.board b' ∧ ∃ n ∈ rest,
                b' sq = some n) with hr2 | hr2 | hr2
            · exact absurd ⟨b1, hb1, n1, hn1rest, hb1s⟩ hr2
            · rw [ihO hr2]
            · rw [ihT hr2]
      · -- c = 1: the child returns 2 and the loop stops
        have htwo : 2 ≤ (f (s0.put_number sq num) 1).1 := by omega
        rw [hred]
        simp only [if_pos htwo]
        rw [hr1]
        refine ⟨by omega, by omega, ?_, fun _ => rfl, fun _ => rfl⟩
        intro hPN
        exact absurd ⟨bq, hbqc, num, hhead, hbqs⟩ hPN
    · -- the head digit admits two or more completions
      obtain ⟨b1, b2, hb1, hb2, hne⟩ := hq
      obtain ⟨hb1c, hb1s⟩ := (hQiff b1).mp hb1
      obtain ⟨hb2c, hb2s⟩ := (hQiff b2).mp hb2
      have hr1 : (f (s0.put_number sq num) c).1 = 2 := hT ⟨b1, b2, hb1, hb2, hne⟩
      have htwo : 2 ≤ (f (s0.put_number sq num) c).1 := by omega
      rw [hred]
      simp only [if_pos htwo]
      rw [hr1]
      refine ⟨by omega, by omega, ?_, ?_, fun _ => rfl⟩
      · intro hPN
        exact absurd ⟨b1, hb1c, num, hhead, hb1s⟩ hPN
      · rintro ⟨b0, _, huniq⟩
        have he1 : b1 = b0 := huniq b1 ⟨hb1c, num, hhead, hb1s⟩
        have he2 : b2 = b0 := huniq b2 ⟨hb2c, num, hhead, hb2s⟩
        exact absurd (he1.trans he2.symm) hne

theorem UsedMasks.candidates_nodup (um : UsedMasks) (sq : Nat) : (um.candidates sq).Nodup := by
  show ((List.range 9).filterMap
    (fun i => if um.candidate_mask sq &&& (1 <<< i) != 0 then some (i + 1) else none)).Nodup
  apply List.Nodup.filterMap _ (List.nodup_range 9)
  intro a a' b hb hb'
  have ha : a + 1 = b := by
    rcases Decidable.em ((um.candidate_mask sq &&& (1 <<< a) != 0) = true) with ht | hf
    · rw [if_pos ht] at hb
      exact (Option.some.injEq _ _).mp hb
    · rw [if_neg hf] at hb
      exact absurd hb (by simp)
  have ha' : a' + 1 = b := by
    rcases Decidable.em ((um.candidate_mask sq &&& (1 <<< a') != 0) = true) with ht | hf
    · rw [if_pos ht] at hb'
      exact (Option.some.injEq _ _).mp hb'
    · rw [if_neg hf] at hb'
      exact absurd hb' (by simp)
  omega

theorem countImpl_spec (fuel : Nat) : ∀ (s : Sudoku) (bb : Bitboard),
    SearchInv s bb → bb.iter.length < fuel → ∀ c, c ≤ 1 →
    (countImpl fuel s bb c).1 ≤ 2 ∧ c ≤ (countImpl fuel s bb c).1 ∧
    (¬Solvable s.board → (countImpl fuel s bb c).1 = c) ∧
    (ExactlyOne s.board → (countImpl fuel s bb c).1 = c + 1) ∧
    (TwoPlus s.board → (countImpl fuel s bb c).1 = 2) := by
  induction fuel with
  | zero =>
    intro s bb _ hfuel
    exact absurd hfuel (by omega)
  | succ fuel ih =>
    intro s bb hinv hfuel c hc
    obtain ⟨⟨hcons, hvalid, hdig, hzero⟩, hexact⟩ := hinv
    rcases hp : s.pop_best_vacant_square bb with _ | ⟨sq, bb'⟩
    · have hempty : bb.iter = [] := (pop_best_none_iff s bb).mp hp
      have hcompl : CompleteB s.board := by
        intro i hi
        rcases hx : s.board i with _ | v
        · exfalso
          have hbit : bb.val.testBit i = true := (hexact.2 i hi).mpr hx
          have : i ∈ bb.iter := (bb.mem_iter i).mpr ⟨hi, hbit⟩
          rw [hempty] at this
          exact absurd this (List.not_mem_nil i)
        · simp
      have hselfc : Completion s.board s.board :=
        ⟨BoardLe.refl s.board, hcompl, hvalid, hdig, hzero⟩
      have hred : countImpl (fuel + 1) s bb c = (c + 1, s) := by
        simp [countImpl, hp]
      rw [hred]
      refine ⟨?_, ?_, ?_, fun _ => rfl, ?_⟩
      · show c + 1 ≤ 2
        omega
      · show c ≤ c + 1
        omega
      · intro hns
        exact absurd ⟨s.board, hselfc⟩ hns
      · rintro ⟨b1, b2, hc1, hc2, hne⟩
        have he1 : b1 = s.board := completion_of_complete hcompl hzero hc1
        have he2 : b2 = s.board := completion_of_complete hcompl hzero hc2
        exact absurd (he1.trans he2.symm) hne
    · have hred : countImpl (fuel + 1) s bb c =
          countLoop (fun s1 c1 => countImpl fuel s1 bb' c1) sq (s.used_masks.candidates sq)
            s c := by
        simp [countImpl, hp]
      rw [hred]
      obtain ⟨hsqmem, hbb', _, _⟩ := pop_best_some_spec s bb sq bb' hp
      obtain ⟨hsq81, hsqbit⟩ := (bb.mem_iter sq).mp hsqmem
      have hvac : s.board sq = none := (hexact.2 sq hsq81).mp hsqbit
      have h128 : Masks128 s.used_masks :=
        GoodState.masks128 ⟨hcons, hvalid, hdig, hzero⟩
      have hlen : bb'.iter.length < fuel := by
        have := bb.iter_remove_length sq hsqmem
        rw [hbb']
        omega
      obtain ⟨hl1, hl2, hlN, hlO, hlT⟩ := countLoop_spec
        (fun s1 c1 => countImpl fuel s1 bb' c1) sq s hsq81 hvac h128
        (s.used_masks.candidates sq) (s.used_masks.candidates_nodup sq) (fun n hn => hn)
        (fun n hn c1 hc1 => by
          have hinv' : SearchInv (s.put_number sq n) bb' :=
            SearchInv.advance ⟨⟨hcons, hvalid, hdig, hzero⟩, hexact⟩ hp hn
          obtain ⟨iha, ihb, ihc, ihd, ihe⟩ := ih (s.put_number sq n) bb' hinv' hlen c1 hc1
          refine ⟨?_, iha, ihb, ihc, ihd, ihe⟩
          exact countImpl_state fuel (s.put_number sq n) bb' (h128.put_masks sq n) (by
            rw [hbb']
            exact (ExactBB.vacantBB hexact).put_remove sq n) c1)
        c hc
      refine ⟨hl1, hl2, ?_, ?_, ?_⟩
      · intro hns
        apply hlN
        rintro ⟨b', hb', _⟩
        exact hns ⟨b', hb'⟩
      · rintro ⟨b0, hb0, huniq⟩
        apply hlO
        obtain ⟨n0, hn0, hb0s⟩ := Completion.digit_mem_candidates hcons hsq81 hvac hb0
        refine ⟨b0, ⟨hb0, n0, hn0, hb0s⟩, ?_⟩
        rintro b' ⟨hb', _⟩
        exact huniq b' hb'
      · rintro ⟨b1, b2, hc1, hc2, hne⟩
        apply hlT
        obtain ⟨n1, hn1, hb1s⟩ := Completion.digit_mem_candidates hcons hsq81 hvac hc1
        obtain ⟨n2, hn2, hb2s⟩ := Completion.digit_mem_candidates hcons hsq81 hvac hc2
        exact ⟨b1, b2, ⟨hc1, n1, hn1, hb1s⟩, ⟨hc2, n2, hn2, hb2s⟩, hne⟩

/-! ## Top-level specifications of the public operations -/

theorem Sudoku.solve_spec (s : Sudoku) (hgood : GoodState s) :
    ((s.solve).1 = true ↔ Solvable s.board) ∧
    ((s.solve).1 = true → Completion s.board (s.solve).2.board ∧ GoodState (s.solve).2) ∧
    ((s.solve).1 = false → (s.solve).2 = s) := by
  have hinv : SearchInv s (calc_bb_vacant s.board) := ⟨hgood, ExactBB.calc s⟩
  have hlen : (calc_bb_vacant s.board).iter.length < 82 :=
    Nat.lt_of_le_of_lt (Bitboard.iter_length_le _) (by norm_num)
  obtain ⟨ht, hf⟩ := solveImpl_spec 82 s (calc_bb_vacant s.board) hinv hlen
  refine ⟨⟨fun h => ⟨_, (ht h).1⟩, ?_⟩, ht, ?_⟩
  · intro hsolv
    rcases hb : (s.solve).1 with _ | _
    · exact absurd hsolv (hf hb)
    · rfl
  · intro hfail
    exact solveImpl_state_false 82 s (calc_bb_vacant s.board) hgood.masks128
      (ExactBB.vacantBB (ExactBB.calc s)) hfail

theorem Sudoku.is_solvable_spec (s : Sudoku) (hgood : GoodState s) :
    ((s.is_solvable).1 = true ↔ Solvable s.board) ∧ (s.is_solvable).2 = s := by
  have hinv : SearchInv s (calc_bb_vacant s.board) := ⟨hgood, ExactBB.calc s⟩
  have hlen : (calc_bb_vacant s.board).iter.length < 82 :=
    Nat.lt_of_le_of_lt (Bitboard.iter_length_le _) (by norm_num)
  have hbool : (s.is_solvable).1 = (s.solve).1 :=
    solvableImpl_eq_solveImpl 82 s (calc_bb_vacant s.board) hgood.masks128
      (ExactBB.vacantBB (ExactBB.calc s))
  obtain ⟨hiff, _, _⟩ := s.solve_spec hgood
  refine ⟨by rw [hbool]; exact hiff, ?_⟩
  exact solvableImpl_state 82 s (calc_bb_vacant s.board) hgood.masks128
    (ExactBB.vacantBB (ExactBB.calc s))

theorem Sudoku.is_unique_solvable_spec (s : Sudoku) (hgood : GoodState s) :
    ((s.is_unique_solvable).1 = true ↔ ExactlyOne s.board) ∧
    (s.is_unique_solvable).2 = s := by
  have hinv : SearchInv s (calc_bb_vacant s.board) := ⟨hgood, ExactBB.calc s⟩
  have hlen : (calc_bb_vacant s.board).iter.length < 82 :=
    Nat.lt_of_le_of_lt (Bitboard.iter_length_le _) (by norm_num)
  obtain ⟨h2, h0, hN, hO, hT⟩ := countImpl_spec 82 s (calc_bb_vacant s.board) hinv hlen 0
    (by omega)
  have hstate : (countImpl 82 s (calc_bb_vacant s.board) 0).2 = s :=
    countImpl_state 82 s (calc_bb_vacant s.board) hgood.masks128
      (ExactBB.vacantBB (ExactBB.calc s)) 0
  constructor
  · show ((countImpl 82 s (calc_bb_vacant s.board) 0).1 == 1) = true ↔ ExactlyOne s.board
    have hbeq : (((countImpl 82 s (calc_bb_vacant s.board) 0).1 == 1) = true) ↔
        (countImpl 82 s (calc_bb_vacant s.board) 0).1 = 1 :=
      ⟨fun hh => by simpa using hh, fun h => by simp [h]⟩
    rw [hbeq]
    constructor
    · intro hcount
      rcases class_trichotomy (Completion s.board) with hclass | hclass | hclass
      · rw [hN hclass] at hcount
        exact absurd hcount (by norm_num)
      · exact hclass
      · rw [hT hclass] at hcount
        exact absurd hcount (by norm_num)
    · intro hone
      exact hO hone
  · exact hstate

/-! ## Correctness of the tracker built by `Sudoku::new` -/

theorem new_fold_le (b : Board) :
    ∀ (l : List Nat) (um : UsedMasks),
      ((l.foldl (fun um sq => match b sq with
          | some num => um.use_number sq num
          | none => um) um).col_mask.val ≤ um.col_mask.val) ∧
      ((l.foldl (fun um sq => match b sq with
          | some num => um.use_number sq num
          | none => um) um).row_mask.val ≤ um.row_mask.val) ∧
      ((l.foldl (fun um sq => match b sq with
          | some num => um.use_number sq num
          | none => um) um).block_mask.val ≤ um.block_mask.val) := by
  intro l
  induction l with
  | nil =>
    intro um
    exact ⟨Nat.le_refl _, Nat.le_refl _, Nat.le_refl _⟩
  | cons t l ih =>
    intro um
    simp only [List.foldl_cons]
    rcases hbt : b t with _ | num
    · simp only [hbt]
      exact ih um
    · simp only [hbt]
      obtain ⟨h1, h2, h3⟩ := ih (um.use_number t num)
      refine ⟨Nat.le_trans h1 ?_, Nat.le_trans h2 ?_, Nat.le_trans h3 ?_⟩
      · exact Nat.and_le_left
      · exact Nat.and_le_left
      · exact Nat.and_le_left

theorem new_fold_bits (b : Board) :
    ∀ (l : List Nat) (um : UsedMasks) (j : Nat), j < 128 →
      (((l.foldl (fun um sq => match b sq with
          | some num => um.use_number sq num
          | none => um) um).col_mask.val.testBit j = false) ↔
        (um.col_mask.val.testBit j = false ∨
          ∃ t ∈ l, ∃ num, b t = some num ∧ j = 9 * Square.col t + num - 1)) ∧
      (((l.foldl (fun um sq => match b sq with
          | some num => um.use_number sq num
          | none => um) um).row_mask.val.testBit j = false) ↔
        (um.row_mask.val.testBit j = false ∨
          ∃ t ∈ l, ∃ num, b t = some num ∧ j = 9 * Square.row t + num - 1)) ∧
      (((l.foldl (fun um sq => match b sq with
          | some num => um.use_number sq num
          | none => um) um).block_mask.val.testBit j = false) ↔
        (um.block_mask.val.testBit j = false ∨
          ∃ t ∈ l, ∃ num, b t = some num ∧ j = 9 * Square.block t + num - 1)) := by
  intro l
  induction l with
  | nil =>
    intro um j hj
    refine ⟨?_, ?_, ?_⟩ <;>
      exact ⟨fun h => Or.inl h, fun h => by
        rcases h with h | ⟨t, ht, _⟩
        · exact h
        · exact absurd ht (List.not_mem_nil t)⟩
  | cons t l ih =>
    intro um j hj
    simp only [List.foldl_cons]
    rcases hbt : b t with _ | num
    · simp only [hbt]
      obtain ⟨ih1, ih2, ih3⟩ := ih um j hj
      have hsplit : ∀ grp : Nat → Nat,
          ((∃ t', t' ∈ t :: l ∧ ∃ num, b t' = some num ∧ j = 9 * grp t' + num - 1) ↔
            (∃ t', t' ∈ l ∧ ∃ num, b t' = some num ∧ j = 9 * grp t' + num - 1)) := by
        intro grp
        constructor
        · rintro ⟨t', ht', num', hb', hj'⟩
          rcases List.mem_cons.mp ht' with rfl | hmem
          · rw [hbt] at hb'
            exact absurd hb' (by simp)
          · exact ⟨t', hmem, num', hb', hj'⟩
        · rintro ⟨t', hmem, num', hb', hj'⟩
          exact ⟨t', List.mem_cons_of_mem t hmem, num', hb', hj'⟩
      refine ⟨?_, ?_, ?_⟩
      · rw [ih1]
        constructor
        · rintro (h | h)
          · exact Or.inl h
          · exact Or.inr ((hsplit Square.col).mpr h)
        · rintro (h | h)
          · exact Or.inl h
          · exact Or.inr ((hsplit Square.col).mp h)
      · rw [ih2]
        constructor
        · rintro (h | h)
          · exact Or.inl h
          · exact Or.inr ((hsplit Square.row).mpr h)
        · rintro (h | h)
          · exact Or.inl h
          · exact Or.inr ((hsplit Square.row).mp h)
      · rw [ih3]
        constructor
        · rintro (h | h)
          · exact Or.inl h
          · exact Or.inr ((hsplit Square.block).mpr h)
        · rintro (h | h)
          · exact Or.inl h
          · exact Or.inr ((hsplit Square.block).mp h)
    · simp only [hbt]
      obtain ⟨ih1, ih2, ih3⟩ := ih (um.use_number t num) j hj
      have huse : ∀ grp : Nat → Nat, ∀ m : UsedMask,
          ((m.use_number (grp t) num).val.testBit j = false ↔
            (m.val.testBit j = false ∨ j = 9 * grp t + num - 1)) := by
        intro grp m
        rw [UsedMask.use_number_testBit _ _ _ _ hj]
        rcases Decidable.em (j = 9 * grp t + num - 1) with heq | hne
        · simp [heq]
        · simp [hne]
      have hsplit : ∀ grp : Nat → Nat,
          ((∃ t', t' ∈ t :: l ∧ ∃ num', b t' = some num' ∧ j = 9 * grp t' + num' - 1) ↔
            ((∃ t', t' ∈ l ∧ ∃ num', b t' = some num' ∧ j = 9 * grp t' + num' - 1) ∨
              j = 9 * grp t + num - 1)) := by
        intro grp
        constructor
        · rintro ⟨t', ht', num', hb', hj'⟩
          rcases List.mem_cons.mp ht' with rfl | hmem
          · rw [hbt] at hb'
            have : num = num' := (Option.some.injEq _ _).mp hb'
            subst this
            exact Or.inr hj'
          · exact Or.inl ⟨t', hmem, num', hb', hj'⟩
        · rintro (⟨t', hmem, num', hb', hj'⟩ | hj')
          · exact ⟨t', List.mem_cons_of_mem t hmem, num', hb', hj'⟩
          · exact ⟨t, List.mem_cons_self t l, num, hbt, hj'⟩
      have hp1 : (UsedMasks.use_number um t num).col_mask =
          UsedMask.use_number um.col_mask (Square.col t) num := rfl
      have hp2 : (UsedMasks.use_number um t num).row_mask =
          UsedMask.use_number um.row_mask (Square.row t) num := rfl
      have hp3 : (UsedMasks.use_number um t num).block_mask =
          UsedMask.use_number um.block_mask (Square.block t) num := rfl
      refine ⟨?_, ?_, ?_⟩
      · rw [ih1, hp1, huse Square.col um.col_mask, hsplit Square.col]
        constructor
        · rintro ((h | h) | h)
          · exact Or.inl h
          · exact Or.inr (Or.inr h)
          · exact Or.inr (Or.inl h)
        · rintro (h | (h | h))
          · exact Or.inl (Or.inl h)
          · exact Or.inr h
          · exact Or.inl (Or.inr h)
      · rw [ih2, hp2, huse Square.row um.row_mask, hsplit Square.row]
        constructor
        · rintro ((h | h) | h)
          · exact Or.inl h
          · exact Or.inr (Or.inr h)
          · exact Or.inr (Or.inl h)
        · rintro (h | (h | h))
          · exact Or.inl (Or.inl h)
          · exact Or.inr h
          · exact Or.inl (Or.inr h)
      · rw [ih3, hp3, huse Square.block um.block_mask, hsplit Square.block]
        constructor
        · rintro ((h | h) | h)
          · exact Or.inl h
          · exact Or.inr (Or.inr h)
          · exact Or.inr (Or.inl h)
        · rintro (h | (h | h))
          · exact Or.inl (Or.inl h)
          · exact Or.inr h
          · exact Or.inl (Or.inr h)

theorem Sudoku.new_consistent (b : Board) (hdig : DigitsOK b) : Consistent (Sudoku.new b) := by
  have hlt : (2 : Nat) ^ 81 - 1 < 2 ^ 81 := by
    have : (0 : Nat) < 2 ^ 81 := Nat.pos_pow_of_pos 81 (by norm_num)
    omega
  have hstart : UsedMask.all_unused.val = 2 ^ 81 - 1 := by
    show (1 <<< 81) - 1 = 2 ^ 81 - 1
    rw [Nat.one_shiftLeft]
  obtain ⟨hle1, hle2, hle3⟩ := new_fold_le b Square.all UsedMasks.all_unused
  have hub1 : UsedMasks.all_unused.col_mask.val = 2 ^ 81 - 1 := hstart
  have hub2 : UsedMasks.all_unused.row_mask.val = 2 ^ 81 - 1 := hstart
  have hub3 : UsedMasks.all_unused.block_mask.val = 2 ^ 81 - 1 := hstart
  refine ⟨?_, ?_, ?_, ?_⟩
  · refine Nat.lt_of_le_of_lt hle1 ?_
    rw [hub1]
    exact hlt
  · refine Nat.lt_of_le_of_lt hle2 ?_
    rw [hub2]
    exact hlt
  · refine Nat.lt_of_le_of_lt hle3 ?_
    rw [hub3]
    exact hlt
  · intro g hg d hd
    have hj : 9 * g + d < 128 := by omega
    obtain ⟨hb1, hb2, hb3⟩ := new_fold_bits b Square.all UsedMasks.all_unused (9 * g + d) hj
    have hun : (Sudoku.new b).used_masks =
        Square.all.foldl (fun um sq => match b sq with
          | some num => um.use_number sq num
          | none => um) UsedMasks.all_unused := rfl
    have hbo : (Sudoku.new b).board = b := rfl
    rw [hun, hbo]
    have hinit : ∀ m : UsedMask, m = UsedMask.all_unused → m.val.testBit (9 * g + d) = true := by
      rintro m rfl
      rw [hstart, Nat.testBit_two_pow_sub_one]
      simp
      omega
    have hinitc := hinit UsedMasks.all_unused.col_mask rfl
    refine ⟨?_, ?_, ?_⟩
    · rw [hb1]
      constructor
      · rintro (h | ⟨t, ht, num, hbt, hjj⟩)
        · rw [hinitc] at h
          exact absurd h (by simp)
        · have ht81 : t < 81 := by
            have : t ∈ List.range 81 := ht
            rw [List.mem_range] at this
            exact this
          obtain ⟨h1, h9⟩ := hdig t ht81 num hbt
          have hct : Square.col t < 9 := Square.col_lt t
          have hgd : Square.col t = g ∧ num = d + 1 := by omega
          refine ⟨t, ht81, hgd.1, ?_⟩
          rw [hbt, hgd.2]
      · rintro ⟨t, ht81, htg, htv⟩
        refine Or.inr ⟨t, ?_, d + 1, htv, ?_⟩
        · show t ∈ List.range 81
          rw [List.mem_range]
          exact ht81
        · rw [htg]
          omega
    · rw [hb2]
      constructor
      · rintro (h | ⟨t, ht, num, hbt, hjj⟩)
        · rw [hinit UsedMasks.all_unused.row_mask rfl] at h
          exact absurd h (by simp)
        · have ht81 : t < 81 := by
            have : t ∈ List.range 81 := ht
            rw [List.mem_range] at this
            exact this
          obtain ⟨h1, h9⟩ := hdig t ht81 num hbt
          have hct : Square.row t < 9 := Square.row_lt t
          have hgd : Square.row t = g ∧ num = d + 1 := by omega
          refine ⟨t, ht81, hgd.1, ?_⟩
          rw [hbt, hgd.2]
      · rintro ⟨t, ht81, htg, htv⟩
        refine Or.inr ⟨t, ?_, d + 1, htv, ?_⟩
        · show t ∈ List.range 81
          rw [List.mem_range]
          exact ht81
        · rw [htg]
          omega
    · rw [hb3]
      constructor
      · rintro (h | ⟨t, ht, num, hbt, hjj⟩)
        · rw [hinit UsedMasks.all_unused.block_mask rfl] at h
          exact absurd h (by simp)
        · have ht81 : t < 81 := by
            have : t ∈ List.range 81 := ht
            rw [List.mem_range] at this
            exact this
          obtain ⟨h1, h9⟩ := hdig t ht81 num hbt
          have hct : Square.block t < 9 := Square.block_lt t
          have hgd : Square.block t = g ∧ num = d + 1 := by omega
          refine ⟨t, ht81, hgd.1, ?_⟩
          rw [hbt, hgd.2]
      · rintro ⟨t, ht81, htg, htv⟩
        refine Or.inr ⟨t, ?_, d + 1, htv, ?_⟩
        · show t ∈ List.range 81
          rw [List.mem_range]
          exact ht81
        · rw [htg]
          omega

theorem Sudoku.new_good (b : Board) (hvalid : ValidB b) (hdig : DigitsOK b)
    (hzero : BoardZero b) : GoodState (Sudoku.new b) :=
  ⟨Sudoku.new_consistent b hdig, hvalid, hdig, hzero⟩

/-! ## Legality and candidates against the board -/

theorem is_legal_iff_mem (um : UsedMasks) (sq num : Nat) (h1 : 1 ≤ num) (h9 : num ≤ 9) :
    um.is_legal sq num = true ↔ num ∈ um.candidates sq := by
  show (um.candidate_mask sq &&& (1 <<< (num - 1)) != 0) = true ↔ _
  rw [and_one_shiftLeft_ne_zero, UsedMasks.mem_candidates]
  constructor
  · intro h
    exact ⟨h1, h9, h⟩
  · rintro ⟨_, _, h⟩
    exact h

theorem mem_candidates_iff {s : Sudoku} (hcons : Consistent s) {sq num : Nat} (hsq : sq < 81)
    (h1 : 1 ≤ num) (h9 : num ≤ 9) :
    num ∈ s.used_masks.candidates sq ↔
      ¬ColHas s.board (Square.col sq) num ∧ ¬RowHas s.board (Square.row sq) num ∧
        ¬BlockHas s.board (Square.block sq) num := by
  constructor
  · exact fun h => not_has_of_mem_candidates hcons hsq h
  · rintro ⟨hnc, hnr, hnk⟩
    rw [UsedMasks.mem_candidates]
    refine ⟨h1, h9, ?_⟩
    rw [UsedMasks.candidate_mask_testBit]
    obtain ⟨_, _, _, hiff⟩ := hcons
    obtain ⟨hic, _, _⟩ := hiff (Square.col sq) (Square.col_lt sq) (num - 1) (by omega)
    obtain ⟨_, hir, _⟩ := hiff (Square.row sq) (Square.row_lt sq) (num - 1) (by omega)
    obtain ⟨_, _, hik⟩ := hiff (Square.block sq) (Square.block_lt sq) (num - 1) (by omega)
    have e4 : num - 1 + 1 = num := by omega
    rw [e4] at hic hir hik
    have hbitc : s.used_masks.col_mask.val.testBit (9 * Square.col sq + (num - 1)) = true := by
      rcases hx : s.used_masks.col_mask.val.testBit (9 * Square.col sq + (num - 1)) with _ | _
      · exact absurd (hic.mp hx) hnc
      · rfl
    have hbitr : s.used_masks.row_mask.val.testBit (9 * Square.row sq + (num - 1)) = true := by
      rcases hx : s.used_masks.row_mask.val.testBit (9 * Square.row sq + (num - 1)) with _ | _
      · exact absurd (hir.mp hx) hnr
      · rfl
    have hbitk : s.used_masks.block_mask.val.testBit (9 * Square.block sq + (num - 1))
        = true := by
      rcases hx : s.used_masks.block_mask.val.testBit (9 * Square.block sq + (num - 1))
        with _ | _
      · exact absurd (hik.mp hx) hnk
      · rfl
    rw [hbitc, hbitr, hbitk]
    simp
    omega

theorem Sudoku.put_good {s : Sudoku} (hgood : GoodState s) {sq num : Nat} (hsq : sq < 81)
    (h1 : 1 ≤ num) (h9 : num ≤ 9) (hvac : s.board sq = none) :
    GoodState (s.put sq num).2 := by
  obtain ⟨hcons, hvalid, hdig, hzero⟩ := hgood
  rcases hleg : s.used_masks.is_legal sq num with _ | _
  · have : s.put sq num = (false, s) := by
      show (if s.used_masks.is_legal sq num then (true, s.put_number sq num)
        else (false, s)) = (false, s)
      rw [hleg]
      simp
    rw [this]
    exact ⟨hcons, hvalid, hdig, hzero⟩
  · have hmem : num ∈ s.used_masks.candidates sq := (is_legal_iff_mem _ sq num h1 h9).mp hleg
    have : s.put sq num = (true, s.put_number sq num) := by
      show (if s.used_masks.is_legal sq num then (true, s.put_number sq num)
        else (false, s)) = (true, s.put_number sq num)
      rw [hleg]
      simp
    rw [this]
    obtain ⟨hnc, hnr, hnk⟩ := not_has_of_mem_candidates hcons hsq hmem
    exact ⟨hcons.put_number hsq hvac hmem, hvalid.put_board hsq hnc hnr hnk,
      hdig.put_range h1 h9, hzero.put_inside hsq (some num)⟩

theorem validB_empty : ValidB Board.empty := by
  intro a _ c _ _ _ num hav
  exact absurd hav (by simp [Board.empty])

theorem digitsOK_empty : DigitsOK Board.empty := by
  intro sq _ num hv
  exact absurd hv (by simp [Board.empty])

theorem boardZero_empty : BoardZero Board.empty := fun _ _ => rfl

theorem goodstate_new_empty : GoodState (Sudoku.new Board.empty) :=
  Sudoku.new_good Board.empty validB_empty digitsOK_empty boardZero_empty

/-! ## Claim theorems -/

/-- C2: for every well-formed state, `solve()` returns true exactly when the grid
has a full completion; on success the resulting grid is a completion of the
starting grid (fully filled, digits 1..=9, all row/column/block distinctness
constraints satisfied, extending the initial clues) — and being a deterministic
function of the state, it is the completion found first in the fixed search
order (most-constrained vacant cell first, candidate digits ascending), which is
the order `solveImpl` itself performs; on failure the grid (and tracker) after
the call equals the grid before the call. -/
theorem claim_c2_solve (s : Sudoku) (hgood : GoodState s) :
    ((s.solve).1 = true ↔ Solvable s.board) ∧
    ((s.solve).1 = true → Completion s.board (s.solve).2.board) ∧
    ((s.solve).1 = false → (s.solve).2 = s) := by
  obtain ⟨hiff, ht, hf⟩ := s.solve_spec hgood
  exact ⟨hiff, fun h => (ht h).1, hf⟩

/-- Witness for C2 at the empty board. -/
theorem claim_c2_solve_witness :
    (((Sudoku.new Board.empty).solve).1 = true ↔ Solvable (Sudoku.new Board.empty).board) ∧
    (((Sudoku.new Board.empty).solve).1 = true →
      Completion (Sudoku.new Board.empty).board ((Sudoku.new Board.empty).solve).2.board) ∧
    (((Sudoku.new Board.empty).solve).1 = false →
      ((Sudoku.new Board.empty).solve).2 = Sudoku.new Board.empty) :=
  claim_c2_solve (Sudoku.new Board.empty) goodstate_new_empty

/-- C3: `is_unique_solvable()` returns true exactly when the grid has exactly
one full completion; the returned boolean is literally `count == 1` for the
internal solution counter, whose final value is 0 when no completion exists, 1
when exactly one exists and 2 when at least two exist (the cap produced by the
early cutoff); and as soon as a recursive call pushes the counter to 2 the
candidate loop returns immediately without trying further candidates. -/
theorem claim_c3_unique_solvable (s : Sudoku) (hgood : GoodState s) :
    ((s.is_unique_solvable).1 = true ↔ ExactlyOne s.board) ∧
    ((s.is_unique_solvable).1 = ((countImpl 82 s (calc_bb_vacant s.board) 0).1 == 1)) ∧
    (¬Solvable s.board → (countImpl 82 s (calc_bb_vacant s.board) 0).1 = 0) ∧
    (ExactlyOne s.board → (countImpl 82 s (calc_bb_vacant s.board) 0).1 = 1) ∧
    (TwoPlus s.board → (countImpl 82 s (calc_bb_vacant s.board) 0).1 = 2) ∧
    (∀ (f : Sudoku → Nat → Nat × Sudoku) (sq num : Nat) (rest : List Nat) (s0 : Sudoku)
      (c : Nat), 2 ≤ (f (s0.put_number sq num) c).1 →
      countLoop f sq (num :: rest) s0 c =
        ((f (s0.put_number sq num) c).1,
          ((f (s0.put_number sq num) c).2).remove_number sq num)) := by
  have hlen : (calc_bb_vacant s.board).iter.length < 82 :=
    Nat.lt_of_le_of_lt (Bitboard.iter_length_le _) (by norm_num)
  obtain ⟨_, _, hN, hO, hT⟩ := countImpl_spec 82 s (calc_bb_vacant s.board)
    ⟨hgood, ExactBB.calc s⟩ hlen 0 (by omega)
  obtain ⟨hiff, _⟩ := s.is_unique_solvable_spec hgood
  refine ⟨hiff, rfl, hN, hO, hT, ?_⟩
  intro f sq num rest s0 c h2
  show (let r := f (s0.put_number sq num) c
        let s2 := r.2.remove_number sq num
        if 2 ≤ r.1 then (r.1, s2) else countLoop f sq rest s2 r.1) = _
  simp only [if_pos h2]

/-- Witness for C3 at the empty board. -/
theorem claim_c3_unique_solvable_witness :
    (((Sudoku.new Board.empty).is_unique_solvable).1 = true ↔
      ExactlyOne (Sudoku.new Board.empty).board) ∧
    (((Sudoku.new Board.empty).is_unique_solvable).1 =
      ((countImpl 82 (Sudoku.new Board.empty)
        (calc_bb_vacant (Sudoku.new Board.empty).board) 0).1 == 1)) ∧
    (¬Solvable (Sudoku.new Board.empty).board →
      (countImpl 82 (Sudoku.new Board.empty)
        (calc_bb_vacant (Sudoku.new Board.empty).board) 0).1 = 0) ∧
    (ExactlyOne (Sudoku.new Board.empty).board →
      (countImpl 82 (Sudoku.new Board.empty)
        (calc_bb_vacant (Sudoku.new Board.empty).board) 0).1 = 1) ∧
    (TwoPlus (Sudoku.new Board.empty).board →
      (countImpl 82 (Sudoku.new Board.empty)
        (calc_bb_vacant (Sudoku.new Board.empty).board) 0).1 = 2) ∧
    (∀ (f : Sudoku → Nat → Nat × Sudoku) (sq num : Nat) (rest : List Nat) (s0 : Sudoku)
      (c : Nat), 2 ≤ (f (s0.put_number sq num) c).1 →
      countLoop f sq (num :: rest) s0 c =
        ((f (s0.put_number sq num) c).1,
          ((f (s0.put_number sq num) c).2).remove_number sq num)) :=
  claim_c3_unique_solvable (Sudoku.new Board.empty) goodstate_new_empty

/-- C4: for every state whose masks fit in a `u128` (automatic in Rust),
`is_solvable()` and `is_unique_solvable()` return the entire state — grid and
constraint tracker — exactly equal to what it was before the call. -/
theorem claim_c4_queries_frame (s : Sudoku) (h128 : Masks128 s.used_masks) :
    (s.is_solvable).2 = s ∧ (s.is_unique_solvable).2 = s := by
  constructor
  · exact solvableImpl_state 82 s (calc_bb_vacant s.board) h128
      (ExactBB.vacantBB (ExactBB.calc s))
  · exact countImpl_state 82 s (calc_bb_vacant s.board) h128
      (ExactBB.vacantBB (ExactBB.calc s)) 0

/-- Witness for C4 at the empty board. -/
theorem claim_c4_queries_frame_witness :
    ((Sudoku.new Board.empty).is_solvable).2 = Sudoku.new Board.empty ∧
    ((Sudoku.new Board.empty).is_unique_solvable).2 = Sudoku.new Board.empty :=
  claim_c4_queries_frame (Sudoku.new Board.empty)
    (GoodState.masks128 goodstate_new_empty)

/-- C5: `is_solvable_limited` counts one node per recursive entry (so the final
node count is positive), aborts with `None` exactly when the counter reached the
budget, restores the entire state under every outcome, and with budget 0 always
returns `None` (on any grid, in particular any non-trivial one). -/
theorem claim_c5_limited (s : Sudoku) (max : Nat) (h128 : Masks128 s.used_masks) :
    (s.is_solvable_limited max).2 = s ∧
    0 < (s.is_solvable_limited max).1.2 ∧
    ((s.is_solvable_limited max).1.1 = none ↔ max ≤ (s.is_solvable_limited max).1.2) ∧
    (s.is_solvable_limited 0).1.1 = none := by
  have hlen : (calc_bb_vacant s.board).iter.length < 82 :=
    Nat.lt_of_le_of_lt (Bitboard.iter_length_le _) (by norm_num)
  obtain ⟨hm, hnone, hsome⟩ := limitedImpl_count max 82 s (calc_bb_vacant s.board) 0 hlen
  obtain ⟨hm0, hnone0, hsome0⟩ := limitedImpl_count 0 82 s (calc_bb_vacant s.board) 0 hlen
  refine ⟨?_, hm, ⟨hnone, ?_⟩, ?_⟩
  · exact limitedImpl_state max 82 s (calc_bb_vacant s.board) h128
      (ExactBB.vacantBB (ExactBB.calc s)) 0
  · intro hle
    rcases hr : (s.is_solvable_limited max).1.1 with _ | b
    · rfl
    · have hne : (s.is_solvable_limited max).1.1 ≠ none := by rw [hr]; simp
      have : (s.is_solvable_limited max).1.2 < max := hsome hne
      omega
  · rcases hr : (s.is_solvable_limited 0).1.1 with _ | b
    · rfl
    · have hne : (s.is_solvable_limited 0).1.1 ≠ none := by rw [hr]; simp
      have : (s.is_solvable_limited 0).1.2 < 0 := hsome0 hne
      omega

/-- Witness for C5 at the empty board with budget 3. -/
theorem claim_c5_limited_witness :
    ((Sudoku.new Board.empty).is_solvable_limited 3).2 = Sudoku.new Board.empty ∧
    0 < ((Sudoku.new Board.empty).is_solvable_limited 3).1.2 ∧
    (((Sudoku.new Board.empty).is_solvable_limited 3).1.1 = none ↔
      3 ≤ ((Sudoku.new Board.empty).is_solvable_limited 3).1.2) ∧
    ((Sudoku.new Board.empty).is_solvable_limited 0).1.1 = none :=
  claim_c5_limited (Sudoku.new Board.empty) 3 (GoodState.masks128 goodstate_new_empty)

/-- C7: for every state whose tracker is consistent with its board (as holds
for all states reachable from validated construction through the engine's
operations), `is_legal(cell, digit)` holds exactly when the digit does not
already appear among the filled cells of the cell's row, column, or block; the
candidate mask being the AND of the three 9-bit unused windows is the
definition of `candidate_mask` in the embedding. -/
theorem claim_c7_is_legal (s : Sudoku) (hcons : Consistent s) (sq num : Nat) (hsq : sq < 81)
    (h1 : 1 ≤ num) (h9 : num ≤ 9) :
    s.used_masks.is_legal sq num = true ↔
      ¬(ColHas s.board (Square.col sq) num ∨ RowHas s.board (Square.row sq) num ∨
        BlockHas s.board (Square.block sq) num) := by
  rw [is_legal_iff_mem _ sq num h1 h9, mem_candidates_iff hcons hsq h1 h9]
  constructor
  · rintro ⟨hnc, hnr, hnk⟩
    rintro (h | h | h)
    · exact hnc h
    · exact hnr h
    · exact hnk h
  · intro h
    exact ⟨fun hh => h (Or.inl hh), fun hh => h (Or.inr (Or.inl hh)),
      fun hh => h (Or.inr (Or.inr hh))⟩

/-- Witness for C7 at the empty board, cell 0, digit 1. -/
theorem claim_c7_is_legal_witness :
    (Sudoku.new Board.empty).used_masks.is_legal 0 1 = true ↔
      ¬(ColHas (Sudoku.new Board.empty).board (Square.col 0) 1 ∨
        RowHas (Sudoku.new Board.empty).board (Square.row 0) 1 ∨
        BlockHas (Sudoku.new Board.empty).board (Square.block 0) 1) :=
  claim_c7_is_legal (Sudoku.new Board.empty) goodstate_new_empty.1 0 1 (by decide)
    (by decide) (by decide)

/-- C8: `pop_best_vacant_square` returns `none` exactly on the empty vacant
set; on a non-empty set it returns a member of the set attaining the minimal
candidate count, with ties broken by the smallest cell index (the first in the
ascending scan), and the returned bitboard is the input with exactly that cell
removed. -/
theorem claim_c8_pop_best (s : Sudoku) (bb : Bitboard) :
    (s.pop_best_vacant_square bb = none ↔ bb.iter = []) ∧
    (∀ sq bb', s.pop_best_vacant_square bb = some (sq, bb') →
      sq ∈ bb.iter ∧
      (∀ w ∈ bb.iter, s.used_masks.candidate_count sq ≤ s.used_masks.candidate_count w) ∧
      (∀ w ∈ bb.iter, s.used_masks.candidate_count w = s.used_masks.candidate_count sq →
        sq ≤ w) ∧
      bb'.iter = bb.iter.erase sq) := by
  refine ⟨pop_best_none_iff s bb, ?_⟩
  intro sq bb' hpop
  obtain ⟨hmem, hbb', hmin, htie⟩ := pop_best_some_spec s bb sq bb' hpop
  refine ⟨hmem, hmin, ?_, ?_⟩
  · intro w hw heq
    exact htie w hw (Nat.le_of_eq heq)
  · rw [hbb', Bitboard.iter_remove, (bb.iter_nodup).erase_eq_filter sq]

/-- Witness for C8 on the singleton vacant set containing cell 0. -/
theorem claim_c8_pop_best_witness :
    ((Sudoku.new Board.empty).pop_best_vacant_square (Bitboard.mk 1) = none ↔
      (Bitboard.mk 1).iter = []) ∧
    (0 ∈ (Bitboard.mk 1).iter ∧
      (∀ w ∈ (Bitboard.mk 1).iter,
        (Sudoku.new Board.empty).used_masks.candidate_count 0 ≤
          (Sudoku.new Board.empty).used_masks.candidate_count w) ∧
      (∀ w ∈ (Bitboard.mk 1).iter,
        (Sudoku.new Board.empty).used_masks.candidate_count w =
          (Sudoku.new Board.empty).used_masks.candidate_count 0 → 0 ≤ w) ∧
      ((Bitboard.mk 1).remove 0).iter = (Bitboard.mk 1).iter.erase 0) :=
  ⟨(claim_c8_pop_best (Sudoku.new Board.empty) (Bitboard.mk 1)).1,
    (claim_c8_pop_best (Sudoku.new Board.empty) (Bitboard.mk 1)).2 0
      ((Bitboard.mk 1).remove 0) rfl⟩

/-- C9: every search terminates on every input: each successful pop removes
exactly one cell from the vacant bitboard (so its population, at most 81,
strictly decreases), the candidate loop tries at most 9 digits, and every
recursion is insensitive to its fuel as soon as the fuel exceeds 81, so the
wrappers' fixed fuel of 82 computes the full (finite) search for all inputs. -/
theorem claim_c9_termination (s : Sudoku) (bb : Bitboard) :
    bb.iter.length ≤ 81 ∧
    (∀ sq bb', s.pop_best_vacant_square bb = some (sq, bb') →
      bb'.iter.length + 1 = bb.iter.length) ∧
    (∀ sq, (s.used_masks.candidates sq).length ≤ 9) ∧
    (∀ fuel, 81 < fuel →
      solveImpl fuel s (calc_bb_vacant s.board) = s.solve ∧
      solvableImpl fuel s (calc_bb_vacant s.board) = s.is_solvable ∧
      (∀ c, countImpl fuel s (calc_bb_vacant s.board) c =
        countImpl 82 s (calc_bb_vacant s.board) c) ∧
      (∀ max c, limitedImpl max fuel s (calc_bb_vacant s.board) c =
        limitedImpl max 82 s (calc_bb_vacant s.board) c)) := by
  have hlen : (calc_bb_vacant s.board).iter.length ≤ 81 := Bitboard.iter_length_le _
  refine ⟨Bitboard.iter_length_le bb, ?_, ?_, ?_⟩
  · intro sq bb' hpop
    obtain ⟨hmem, hbb', _, _⟩ := pop_best_some_spec s bb sq bb' hpop
    rw [hbb']
    exact bb.iter_remove_length sq hmem
  · intro sq
    have hle9 : (s.used_masks.candidates sq).length ≤ (List.range 9).length :=
      List.length_filterMap_le _ _
    have h9 : (List.range 9).length = 9 := List.length_range 9
    omega
  · intro fuel hfuel
    refine ⟨?_, ?_, ?_, ?_⟩
    · exact solveImpl_fuel fuel 82 s (calc_bb_vacant s.board) (by omega) (by omega)
    · exact solvableImpl_fuel fuel 82 s (calc_bb_vacant s.board) (by omega) (by omega)
    · intro c
      exact countImpl_fuel fuel 82 s (calc_bb_vacant s.board) c (by omega) (by omega)
    · intro max c
      exact limitedImpl_fuel max fuel 82 s (calc_bb_vacant s.board) c (by omega) (by omega)

/-- Witness for C9 at the empty board and the singleton vacant set. -/
theorem claim_c9_termination_witness :
    ((Bitboard.mk 1).remove 0).iter.length + 1 = (Bitboard.mk 1).iter.length ∧
    ((Sudoku.new Board.empty).used_masks.candidates 0).length ≤ 9 ∧
    solveImpl 83 (Sudoku.new Board.empty) (calc_bb_vacant (Sudoku.new Board.empty).board) =
      (Sudoku.new Board.empty).solve :=
  ⟨(claim_c9_termination (Sudoku.new Board.empty) (Bitboard.mk 1)).2.1 0
      ((Bitboard.mk 1).remove 0) rfl,
    (claim_c9_termination (Sudoku.new Board.empty) (Bitboard.mk 1)).2.2.1 0,
    ((claim_c9_termination (Sudoku.new Board.empty) (Bitboard.mk 1)).2.2.2 83
      (by decide)).1⟩

/-- Counterexample to C1 as stated: starting from the validated empty board,
`put(0, 1)` yields a consistent state, and `put(0, 2)` on the now-occupied cell
0 succeeds (digit 2 is still unused in cell 0's groups) — but it overwrites the
stored 1 without clearing its used-marks, so afterwards the tracker no longer
exactly reflects the grid: digit 1 is marked used in column 0 while it appears
nowhere. -/
theorem claim_c1_counterexample :
    Consistent ((Sudoku.new Board.empty).put 0 1).2 ∧
    (((Sudoku.new Board.empty).put 0 1).2.put 0 2).1 = true ∧
    ¬ Consistent ((((Sudoku.new Board.empty).put 0 1).2).put 0 2).2 := by
  refine ⟨?_, ?_, ?_⟩
  · exact (Sudoku.put_good goodstate_new_empty (by decide) (by decide) (by decide) rfl).1
  · decide
  · intro hcons
    have hic := (hcons.2.2.2 0 (by norm_num) 0 (by norm_num)).1
    have hbit : ((((Sudoku.new Board.empty).put 0 1).2.put 0 2).2).used_masks.col_mask.val.testBit
        (9 * 0 + 0) = false := by decide
    have hcol := hic.mp hbit
    revert hcol
    unfold ColHas
    decide

/-! ## Generator: auxiliary facts -/

/-- A concrete fully solved board, witnessing that the empty board is solvable. -/
def solvedBoard : Board := fun i =>
  if i < 81 then some ((3 * (i / 9 % 3) + i / 9 / 3 + i % 9) % 9 + 1) else none

theorem validB_of_pairs {b : Board}
    (h : ∀ a, a < 81 → ∀ c, c < 81 → (a = c ∨ ¬SameGroup a c ∨ b a = none ∨ b a ≠ b c)) :
    ValidB b := by
  intro a ha c hc hac hsg num hav hcv
  rcases h a ha c hc with h0 | h0 | h0 | h0
  · exact hac h0
  · exact h0 hsg
  · rw [hav] at h0
    exact absurd h0 (by simp)
  · rw [hav, hcv] at h0
    exact h0 rfl

theorem validB_solvedBoard : ValidB solvedBoard := by
  apply validB_of_pairs
  unfold SameGroup solvedBoard
  decide

theorem digitsOK_solvedBoard : DigitsOK solvedBoard := by
  intro sq hsq num hv
  unfold solvedBoard at hv
  rw [if_pos hsq] at hv
  have h := (Option.some.injEq _ _).mp hv
  omega

theorem completeB_solvedBoard : CompleteB solvedBoard := by
  intro sq hsq
  unfold solvedBoard
  rw [if_pos hsq]
  simp

theorem boardZero_solvedBoard : BoardZero solvedBoard := by
  intro sq hsq
  unfold solvedBoard
  rw [if_neg (by omega)]

theorem solvable_empty : Solvable Board.empty := by
  refine ⟨solvedBoard, ?_, completeB_solvedBoard, validB_solvedBoard, digitsOK_solvedBoard,
    boardZero_solvedBoard⟩
  intro t _ num htv
  exact absurd htv (by simp [Board.empty])

theorem Bitboard.add_remove (bb : Bitboard) (sq : Nat) (hsq : sq < 81)
    (hlt : bb.val < 2 ^ 81) (hbit : bb.val.testBit sq = true) :
    (bb.remove sq).add sq = bb := by
  cases bb with
  | mk v =>
    show Bitboard.mk ((v &&& (((1 <<< 128) - 1) ^^^ (1 <<< sq))) ||| (1 <<< sq)) = Bitboard.mk v
    congr 1
    apply Nat.eq_of_testBit_eq
    intro j
    simp only [Nat.testBit_or, Nat.testBit_and, Nat.testBit_xor, Nat.one_shiftLeft,
      Nat.testBit_two_pow, Nat.testBit_two_pow_sub_one]
    rcases Decidable.em (sq = j) with rfl | hne
    · simp [hbit]
    · rcases Nat.lt_or_ge j 128 with hj | hj
      · simp [hne, hj]
      · have hvj : v.testBit j = false := testBit_false_of_lt_two_pow hlt (by omega)
        simp [hne, hvj, Nat.not_lt.mpr hj]

theorem UsedMask.use_unuse (m : UsedMask) (i num : Nat) (hm : m.val < 2 ^ 128)
    (hk : 9 * i + num - 1 < 128) (hbit : m.val.testBit (9 * i + num - 1) = false) :
    (m.unuse_number i num).use_number i num = m := by
  cases m with
  | mk v =>
    show UsedMask.mk ((v ||| (1 <<< (9 * i + num - 1))) &&&
      (((1 <<< 128) - 1) ^^^ (1 <<< (9 * i + num - 1)))) = UsedMask.mk v
    congr 1
    apply Nat.eq_of_testBit_eq
    intro j
    simp only [Nat.testBit_and, Nat.testBit_or, Nat.testBit_xor, Nat.one_shiftLeft,
      Nat.testBit_two_pow, Nat.testBit_two_pow_sub_one]
    rcases Decidable.em (9 * i + num - 1 = j) with heq | hne
    · rw [← heq]
      simp [hk, hbit]
    · rcases Nat.lt_or_ge j 128 with hj | hj
      · simp [hne, hj]
      · have hvj : v.testBit j = false := testBit_false_of_lt_two_pow hm hj
        simp [hne, hvj, Nat.not_lt.mpr hj]

theorem Sudoku.remove_put_cancel (s : Sudoku) (sq num : Nat) (hcons : Consistent s)
    (hsq : sq < 81) (h1 : 1 ≤ num) (h9 : num ≤ 9) (hfill : s.board sq = some num) :
    (s.remove_number sq num).put_number sq num = s := by
  obtain ⟨hb1, hb2, hb3, hiff⟩ := hcons
  have hc9 := Square.col_lt sq
  have hr9 := Square.row_lt sq
  have hk9 := Square.block_lt sq
  have h2c : (2 : Nat) ^ 81 < 2 ^ 128 := Nat.pow_lt_pow_right (by norm_num) (by norm_num)
  obtain ⟨hic, hir, hik⟩ := hiff (Square.col sq) hc9 (num - 1) (by omega)
  obtain ⟨hic2, hir2, hik2⟩ := hiff (Square.row sq) hr9 (num - 1) (by omega)
  obtain ⟨hic3, hir3, hik3⟩ := hiff (Square.block sq) hk9 (num - 1) (by omega)
  have e1 : 9 * Square.col sq + (num - 1) = 9 * Square.col sq + num - 1 := by omega
  have e2 : 9 * Square.row sq + (num - 1) = 9 * Square.row sq + num - 1 := by omega
  have e3 : 9 * Square.block sq + (num - 1) = 9 * Square.block sq + num - 1 := by omega
  have e4 : num - 1 + 1 = num := by omega
  rw [e1, e4] at hic
  rw [e2, e4] at hir2
  rw [e3, e4] at hik3
  have hbitc : s.used_masks.col_mask.val.testBit (9 * Square.col sq + num - 1) = false :=
    hic.mpr ⟨sq, hsq, rfl, hfill⟩
  have hbitr : s.used_masks.row_mask.val.testBit (9 * Square.row sq + num - 1) = false :=
    hir2.mpr ⟨sq, hsq, rfl, hfill⟩
  have hbitk : s.used_masks.block_mask.val.testBit (9 * Square.block sq + num - 1) = false :=
    hik3.mpr ⟨sq, hsq, rfl, hfill⟩
  cases s with
  | mk b um =>
    show Sudoku.mk (Function.update (Function.update b sq none) sq (some num))
      ((um.unuse_number sq num).use_number sq num) = Sudoku.mk b um
    congr 1
    · rw [Function.update_idem]
      have : (some num : Option Nat) = b sq := hfill.symm
      rw [this, Function.update_eq_self]
    · cases um with
      | mk mc mr mb =>
        show UsedMasks.mk ((mc.unuse_number (Square.col sq) num).use_number (Square.col sq) num)
          ((mr.unuse_number (Square.row sq) num).use_number (Square.row sq) num)
          ((mb.unuse_number (Square.block sq) num).use_number (Square.block sq) num) =
          UsedMasks.mk mc mr mb
        congr 1
        · exact UsedMask.use_unuse mc _ num (by exact Nat.lt_trans hb1 h2c) (by omega) hbitc
        · exact UsedMask.use_unuse mr _ num (by exact Nat.lt_trans hb2 h2c) (by omega) hbitr
        · exact UsedMask.use_unuse mb _ num (by exact Nat.lt_trans hb3 h2c) (by omega) hbitk

theorem GoodState.put_keeps {s : Sudoku} (hgood : GoodState s) {sq num : Nat} (hsq : sq < 81)
    (hvac : s.board sq = none) (hmem : num ∈ s.used_masks.candidates sq) :
    GoodState (s.put_number sq num) := by
  obtain ⟨hcons, hvalid, hdig, hzero⟩ := hgood
  obtain ⟨h1, h9, _, _, _⟩ := UsedMasks.mem_candidates_bits hmem
  obtain ⟨hnc, hnr, hnk⟩ := not_has_of_mem_candidates hcons hsq hmem
  exact ⟨hcons.put_number hsq hvac hmem, hvalid.put_board hsq hnc hnr hnk, hdig.put_range h1 h9,
    hzero.put_inside hsq (some num)⟩

theorem GoodState.remove_keeps {s : Sudoku} (hgood : GoodState s) {sq num : Nat}
    (hsq : sq < 81) (h1 : 1 ≤ num) (h9 : num ≤ 9) (hfill : s.board sq = some num) :
    GoodState (s.remove_number sq num) := by
  obtain ⟨hcons, hvalid, hdig, hzero⟩ := hgood
  exact ⟨hcons.remove_number hsq hfill h1 h9 hvalid, hvalid.remove_board sq, hdig.remove_range sq,
    hzero.put_inside hsq none⟩

theorem state_eq_of_consistent {s t : Sudoku} (hs : Consistent s) (ht : Consistent t)
    (hb : s.board = t.board) : s = t := by
  obtain ⟨hsb1, hsb2, hsb3, hsiff⟩ := hs
  obtain ⟨htb1, htb2, htb3, htiff⟩ := ht
  have hmask : ∀ (ms mt : UsedMask), ms.val < 2 ^ 81 → mt.val < 2 ^ 81 →
      (∀ g, g < 9 → ∀ d, d < 9 → (ms.val.testBit (9 * g + d) = (mt.val.testBit (9 * g + d)))) →
      ms = mt := by
    intro ms mt h1 h2 hbits
    cases ms with
    | mk vs =>
      cases mt with
      | mk vt =>
        congr 1
        apply Nat.eq_of_testBit_eq
        intro j
        rcases Nat.lt_or_ge j 81 with hj | hj
        · have := hbits (j / 9) (by omega) (j % 9) (by omega)
          have hjj : 9 * (j / 9) + j % 9 = j := by omega
          rw [hjj] at this
          exact this
        · rw [testBit_false_of_lt_two_pow h1 hj, testBit_false_of_lt_two_pow h2 hj]
  cases s with
  | mk bs ums =>
    cases t with
    | mk bt umt =>
      have hbb : bs = bt := hb
      subst hbb
      congr 1
      cases ums with
      | mk msc msr msb =>
        cases umt with
        | mk mtc mtr mtb =>
          congr 1
          · apply hmask msc mtc hsb1 htb1
            intro g hg d hd
            obtain ⟨hi1, _, _⟩ := hsiff g hg d hd
            obtain ⟨hi2, _, _⟩ := htiff g hg d hd
            rcases hx : mtc.val.testBit (9 * g + d) with _ | _
            · exact hi1.mpr (hi2.mp hx)
            · rcases hy : msc.val.testBit (9 * g + d) with _ | _
              · exact absurd (hi2.mpr (hi1.mp hy)) (by rw [hx]; simp)
              · rfl
          · apply hmask msr mtr hsb2 htb2
            intro g hg d hd
            obtain ⟨_, hi1, _⟩ := hsiff g hg d hd
            obtain ⟨_, hi2, _⟩ := htiff g hg d hd
            rcases hx : mtr.val.testBit (9 * g + d) with _ | _
            · exact hi1.mpr (hi2.mp hx)
            · rcases hy : msr.val.testBit (9 * g + d) with _ | _
              · exact absurd (hi2.mpr (hi1.mp hy)) (by rw [hx]; simp)
              · rfl
          · apply hmask msb mtb hsb3 htb3
            intro g hg d hd
            obtain ⟨_, _, hi1⟩ := hsiff g hg d hd
            obtain ⟨_, _, hi2⟩ := htiff g hg d hd
            rcases hx : mtb.val.testBit (9 * g + d) with _ | _
            · exact hi1.mpr (hi2.mp hx)
            · rcases hy : msb.val.testBit (9 * g + d) with _ | _
              · exact absurd (hi2.mpr (hi1.mp hy)) (by rw [hx]; simp)
              · rfl

theorem exactBB_new_empty : ExactBB (Sudoku.new Board.empty) Bitboard.full := by
  constructor
  · show (1 <<< 81) - 1 < 2 ^ 81
    rw [Nat.one_shiftLeft]
    have : (0 : Nat) < 2 ^ 81 := Nat.pos_pow_of_pos 81 (by norm_num)
    omega
  · intro i hi
    show Nat.testBit ((1 <<< 81) - 1) i = true ↔ (Sudoku.new Board.empty).board i = none
    rw [Nat.one_shiftLeft, Nat.testBit_two_pow_sub_one]
    have : (Sudoku.new Board.empty).board i = none := rfl
    rw [this]
    simp [hi]

theorem is_solved_of_complete {b : Board} (h : CompleteB b) : b.is_solved = true := by
  show ((List.range 81).all fun sq => (b sq).isSome) = true
  rw [List.all_eq_true]
  intro sq hsq
  rw [List.mem_range] at hsq
  exact h sq hsq

theorem is_solvable_limited_some {s : Sudoku} (hgood : GoodState s) {max : Nat} {b : Bool}
    (h : (s.is_solvable_limited max).1.1 = some b) : b = true ↔ Solvable s.board := by
  have hb : b = (solveImpl 82 s (calc_bb_vacant s.board)).1 :=
    limitedImpl_eq_solveImpl max 82 s (calc_bb_vacant s.board) 0 b hgood.masks128
      (ExactBB.vacantBB (ExactBB.calc s)) h
  rw [hb]
  exact (s.solve_spec hgood).1

theorem chooseList_some {l : List Nat} (hl : l ≠ []) (rv : Nat) :
    ∃ x, chooseList l rv = some x ∧ x ∈ l := by
  have hlen : 0 < l.length := List.length_pos.mpr hl
  have hidx : rv % l.length < l.length := Nat.mod_lt _ hlen
  refine ⟨l.get ⟨rv % l.length, hidx⟩, ?_, List.get_mem l _ _⟩
  show l.get? (rv % l.length) = _
  exact List.get?_eq_get hidx

theorem get_cons_eraseIdx_perm :
    ∀ (l : List Nat) (i : Nat) (x : Nat), l.get? i = some x → l.Perm (x :: l.eraseIdx i)
  | [], i, x, h => absurd h (by simp)
  | a :: l, 0, x, h => by
    have ha : a = x := by simpa using h
    subst ha
    show (a :: l).Perm (a :: l)
    exact List.Perm.refl _
  | a :: l, i + 1, x, h => by
    have hh : l.get? i = some x := by simpa using h
    have ih := get_cons_eraseIdx_perm l i x hh
    show (a :: l).Perm (x :: a :: l.eraseIdx i)
    exact List.Perm.trans (List.Perm.cons a ih) (List.Perm.swap x a _)

theorem shuffleGo_perm (r : RandStream) :
    ∀ (fuel : Nat) (l : List Nat) (k : Nat), l.length ≤ fuel →
      (shuffleGo r fuel l k).1.Perm l := by
  intro fuel
  induction fuel with
  | zero =>
    intro l k hlen
    have : l = [] := List.length_eq_zero.mp (by omega)
    subst this
    exact List.Perm.refl _
  | succ fuel ih =>
    intro l k hlen
    show (match l.get? (r k % l.length) with
      | none => ([], k)
      | some x =>
        let p := shuffleGo r fuel (l.eraseIdx (r k % l.length)) (k + 1)
        (x :: p.1, p.2)).1.Perm l
    rcases hg : l.get? (r k % l.length) with _ | x
    · cases l with
      | nil => exact List.Perm.refl _
      | cons a l =>
        exfalso
        have hlen0 : 0 < (a :: l).length := by simp
        have hidx : r k % (a :: l).length < (a :: l).length := Nat.mod_lt _ hlen0
        rw [List.get?_eq_get hidx] at hg
        exact absurd hg (by simp)
    · simp only []
      have hperm := get_cons_eraseIdx_perm l (r k % l.length) x hg
      have hlenerase : (l.eraseIdx (r k % l.length)).length ≤ fuel := by
        have h1 : (l.eraseIdx (r k % l.length)).length ≤ l.length := by
          have := List.length_eraseIdx_le l (r k % l.length)
          omega
        have hne : l ≠ [] := by
          rintro rfl
          exact absurd hg (by simp)
        have hlen0 : 0 < l.length := List.length_pos.mpr hne
        have hidx : r k % l.length < l.length := Nat.mod_lt _ hlen0
        have h2 : (l.eraseIdx (r k % l.length)).length = l.length - 1 :=
          List.length_eraseIdx_of_lt hidx
        omega
      have ihp := ih (l.eraseIdx (r k % l.length)) (k + 1) hlenerase
      exact List.Perm.trans (List.Perm.cons x ihp) hperm.symm

theorem tryGenerateSolvedGo_spec (r : RandStream) :
    ∀ (fuel : Nat) (s : Sudoku) (bb : Bitboard) (k : Nat),
      GoodState s → ExactBB s bb → Solvable s.board →
      (tryGenerateSolvedGo r fuel s bb k).1 ≠ GenResult.panicked ∧
      ∀ t, (tryGenerateSolvedGo r fuel s bb k).1 = GenResult.built t →
        GoodState t ∧ CompleteB t.board := by
  intro fuel
  induction fuel with
  | zero =>
    intro s bb k _ _ _
    exact ⟨by simp [tryGenerateSolvedGo], fun t ht => absurd ht (by simp [tryGenerateSolvedGo])⟩
  | succ fuel ih =>
    intro s bb k hgood hexact hsolv
    rcases hz : bb.is_zero with _ | _
    · have hlt : bb.val < 2 ^ 81 := hexact.1
      have hne0 : bb.val ≠ 0 := by simpa [Bitboard.is_zero] using hz
      have hiter_ne : bb.iter ≠ [] := fun hh => hne0 ((bb.iter_nil_iff hlt).mp hh)
      obtain ⟨sq, hcsq, hsqmem⟩ := chooseList_some hiter_ne (r k)
      obtain ⟨hsq81, hsqbit⟩ := (bb.mem_iter sq).mp hsqmem
      have hvac : s.board sq = none := (hexact.2 sq hsq81).mp hsqbit
      obtain ⟨b', hb'⟩ := hsolv
      obtain ⟨num0, hnum0mem, _⟩ := Completion.digit_mem_candidates hgood.1 hsq81 hvac hb'
      have hcand_ne : s.used_masks.candidates sq ≠ [] := by
        intro hh
        rw [hh] at hnum0mem
        exact absurd hnum0mem (List.not_mem_nil num0)
      obtain ⟨num, hcnum, hnummem⟩ := chooseList_some hcand_ne (r (k + 1))
      have hgood1 : GoodState (s.put_number sq num) := hgood.put_keeps hsq81 hvac hnummem
      have hexact1 : ExactBB (s.put_number sq num) (bb.remove sq) := hexact.step hsqmem num
      rcases hlim : ((s.put_number sq num).is_solvable_limited 1000000).1.1 with _ | ok
      · have hred : tryGenerateSolvedGo r (fuel + 1) s bb k = (GenResult.limit, k + 2) := by
          simp [tryGenerateSolvedGo, hz, hcsq, hcnum, hlim]
        rw [hred]
        exact ⟨by simp, fun t ht => absurd ht (by simp)⟩
      · rcases ok with _ | _
        · have hs2 : ((s.put_number sq num).remove_number sq num) = s :=
            s.put_remove_cancel sq num hgood.masks128 hvac hnummem
          have hbb2 : (bb.remove sq).add sq = bb := Bitboard.add_remove bb sq hsq81 hlt hsqbit
          have hred : tryGenerateSolvedGo r (fuel + 1) s bb k =
              tryGenerateSolvedGo r fuel ((s.put_number sq num).remove_number sq num)
                ((bb.remove sq).add sq) (k + 2) := by
            simp [tryGenerateSolvedGo, hz, hcsq, hcnum, hlim]
          rw [hred, hs2, hbb2]
          exact ih s bb (k + 2) hgood hexact ⟨b', hb'⟩
        · have hsolv1 : Solvable (s.put_number sq num).board :=
            (is_solvable_limited_some hgood1 hlim).mp rfl
          have hred : tryGenerateSolvedGo r (fuel + 1) s bb k =
              tryGenerateSolvedGo r fuel (s.put_number sq num) (bb.remove sq) (k + 2) := by
            simp [tryGenerateSolvedGo, hz, hcsq, hcnum, hlim]
          rw [hred]
          exact ih (s.put_number sq num) (bb.remove sq) (k + 2) hgood1 hexact1 hsolv1
    · have hred : tryGenerateSolvedGo r (fuel + 1) s bb k = (GenResult.built s, k) := by
        simp [tryGenerateSolvedGo, hz]
      rw [hred]
      refine ⟨by simp, ?_⟩
      intro t ht
      have hts : s = t := by simpa using ht
      subst hts
      have hval0 : bb.val = 0 := by simpa [Bitboard.is_zero] using hz
      refine ⟨hgood, ?_⟩
      intro i hi
      have hbit : bb.val.testBit i = false := by rw [hval0]; exact Nat.zero_testBit i
      rcases hbrd : s.board i with _ | v
      · have : bb.val.testBit i = true := (hexact.2 i hi).mpr hbrd
        rw [hbit] at this
        exact absurd this (by simp)
      · rfl

theorem solvable_new_empty : Solvable (Sudoku.new Board.empty).board := by
  have hb : (Sudoku.new Board.empty).board = Board.empty := rfl
  rw [hb]
  exact solvable_empty

theorem Sudoku.try_generate_solved_spec (r : RandStream) (fuel k : Nat) :
    (Sudoku.try_generate_solved r fuel k).1 ≠ GenResult.panicked ∧
    ∀ t, (Sudoku.try_generate_solved r fuel k).1 = GenResult.built t →
      GoodState t ∧ CompleteB t.board :=
  tryGenerateSolvedGo_spec r fuel (Sudoku.new Board.empty) Bitboard.full k
    goodstate_new_empty exactBB_new_empty solvable_new_empty

theorem generateSolvedGo_spec (r : RandStream) :
    ∀ (fuel tryFuel k : Nat),
      (generateSolvedGo r fuel tryFuel k).1 ≠ GenResult.panicked ∧
      ∀ t, (generateSolvedGo r fuel tryFuel k).1 = GenResult.built t →
        GoodState t ∧ CompleteB t.board := by
  intro fuel
  induction fuel with
  | zero =>
    intro tryFuel k
    exact ⟨by simp [generateSolvedGo], fun t ht => absurd ht (by simp [generateSolvedGo])⟩
  | succ fuel ih =>
    intro tryFuel k
    obtain ⟨hnp, hbuilt⟩ := Sudoku.try_generate_solved_spec r tryFuel k
    rcases hres : Sudoku.try_generate_solved r tryFuel k with ⟨res, k'⟩
    cases res with
    | panicked => exact absurd (by rw [hres]) hnp
    | limit =>
      have hred : generateSolvedGo r (fuel + 1) tryFuel k =
          generateSolvedGo r fuel tryFuel k' := by
        simp [generateSolvedGo, hres]
      rw [hred]
      exact ih tryFuel k'
    | built t0 =>
      have hred : generateSolvedGo r (fuel + 1) tryFuel k = (GenResult.built t0, k') := by
        simp [generateSolvedGo, hres]
      rw [hred]
      refine ⟨by simp, ?_⟩
      intro t ht
      have htt : t0 = t := by simpa using ht
      subst htt
      exact hbuilt t0 (by rw [hres])
    | fuel_out =>
      have hred : generateSolvedGo r (fuel + 1) tryFuel k = (GenResult.fuel_out, k') := by
        simp [generateSolvedGo, hres]
      rw [hred]
      exact ⟨by simp, fun t ht => absurd ht (by simp)⟩

theorem altLoop_spec (sq : Nat) (hsq : sq < 81) :
    ∀ (nums : List Nat) (s : Sudoku), GoodState s → s.board sq = none →
      (∀ num ∈ nums, num ∈ s.used_masks.candidates sq) →
      (altLoop sq nums s).2 = s ∧
      ((altLoop sq nums s).1 = true ↔
        ∃ num ∈ nums, Solvable (Function.update s.board sq (some num))) := by
  intro nums
  induction nums with
  | nil =>
    intro s _ _ _
    exact ⟨rfl, by simp [altLoop]⟩
  | cons num rest ih =>
    intro s hgood hvac hmem
    have hmem0 : num ∈ s.used_masks.candidates sq := hmem num (List.mem_cons_self num rest)
    have hgood1 : GoodState (s.put_number sq num) := hgood.put_keeps hsq hvac hmem0
    obtain ⟨hiff, hstate⟩ := (s.put_number sq num).is_solvable_spec hgood1
    have hcanc : ((s.put_number sq num).remove_number sq num) = s :=
      s.put_remove_cancel sq num hgood.masks128 hvac hmem0
    have hs2 : ((s.put_number sq num).is_solvable).2.remove_number sq num = s := by
      rw [hstate]
      exact hcanc
    rcases hslv : ((s.put_number sq num).is_solvable).1 with _ | _
    · have hred : altLoop sq (num :: rest) s =
          altLoop sq rest (((s.put_number sq num).is_solvable).2.remove_number sq num) := by
        simp [altLoop, hslv]
      rw [hred, hs2]
      have hmemrest : ∀ n ∈ rest, n ∈ s.used_masks.candidates sq := fun n hn =>
        hmem n (List.mem_cons_of_mem num hn)
      obtain ⟨hr2, hriff⟩ := ih s hgood hvac hmemrest
      refine ⟨hr2, ?_⟩
      rw [hriff]
      constructor
      · rintro ⟨n, hn, hsol⟩
        exact ⟨n, List.mem_cons_of_mem num hn, hsol⟩
      · rintro ⟨n, hn, hsol⟩
        rcases List.mem_cons.mp hn with rfl | hn'
        · exfalso
          have : ((s.put_number sq n).is_solvable).1 = true := hiff.mpr hsol
          rw [hslv] at this
          exact absurd this (by simp)
        · exact ⟨n, hn', hsol⟩
    · have hred : altLoop sq (num :: rest) s =
          (true, ((s.put_number sq num).is_solvable).2.remove_number sq num) := by
        simp [altLoop, hslv]
      rw [hred, hs2]
      refine ⟨rfl, ?_⟩
      constructor
      · intro _
        exact ⟨num, List.mem_cons_self num rest, hiff.mp hslv⟩
      · intro _
        rfl

theorem genUniqueLoop_stop (hint_min : Nat) (sqs : List Nat) (hint : Nat) (s : Sudoku)
    (h : hint ≤ hint_min) : genUniqueLoop hint_min sqs hint s = some s := by
  cases sqs with
  | nil => rfl
  | cons sq rest => simp [genUniqueLoop, h]

theorem genUniqueLoop_spec (hint_min : Nat) (sol : Board) :
    ∀ (sqs : List Nat), sqs.Nodup →
    ∀ (hint : Nat) (s : Sudoku),
      (∀ sq ∈ sqs, sq < 81 ∧ (s.board sq).isSome = true) →
      GoodState s → Completion s.board sol →
      (∀ b', Completion s.board b' → b' = sol) →
      ∃ t, genUniqueLoop hint_min sqs hint s = some t ∧
        GoodState t ∧ Completion t.board sol ∧
        ∀ b', Completion t.board b' → b' = sol := by
  intro sqs
  induction sqs with
  | nil =>
    intro _ hint s _ hgood hcompl huniq
    exact ⟨s, rfl, hgood, hcompl, huniq⟩
  | cons sq rest ih =>
    intro hnodup hint s hsqs hgood hcompl huniq
    obtain ⟨hsq81, hfill⟩ := hsqs sq (List.mem_cons_self sq rest)
    rcases Decidable.em (hint ≤ hint_min) with hle | hgt
    · refine ⟨s, ?_, hgood, hcompl, huniq⟩
      simp [genUniqueLoop, hle]
    · rcases hb : s.board sq with _ | num
      · rw [hb] at hfill
        exact absurd hfill (by simp)
      · obtain ⟨h1, h9⟩ := hgood.2.2.1 sq hsq81 num hb
        have hgood1 : GoodState (s.remove_number sq num) :=
          hgood.remove_keeps hsq81 h1 h9 hb
        have hvac1 : (s.remove_number sq num).board sq = none := by
          show Function.update s.board sq none sq = none
          exact Function.update_same sq none s.board
        have hle1 : BoardLe (s.remove_number sq num).board s.board := by
          intro t ht n htv
          have htv2 : Function.update s.board sq none t = some n := htv
          rcases Decidable.em (t = sq) with rfl | hne
          · rw [Function.update_same] at htv2
            exact absurd htv2 (by simp)
          · rw [Function.update_noteq hne] at htv2
            exact htv2
        have hcompl1 : Completion (s.remove_number sq num).board sol :=
          Completion.mono hle1 hcompl
        have hmemf : ∀ n ∈ ((s.remove_number sq num).used_masks.candidates sq).filter
            (fun e => e != num), n ∈ (s.remove_number sq num).used_masks.candidates sq :=
          fun n hn => (List.mem_filter.mp hn).1
        obtain ⟨hr2, hriff⟩ := altLoop_spec sq hsq81
          (((s.remove_number sq num).used_masks.candidates sq).filter (fun e => e != num))
          (s.remove_number sq num) hgood1 hvac1 hmemf
        have hsqs1 : ∀ q ∈ rest, q < 81 ∧ ((s.remove_number sq num).board q).isSome = true := by
          intro q hq
          obtain ⟨hq81, hqsome⟩ := hsqs q (List.mem_cons_of_mem sq hq)
          have hqne : q ≠ sq := fun hh => (List.nodup_cons.mp hnodup).1 (hh ▸ hq)
          refine ⟨hq81, ?_⟩
          have heq : (s.remove_number sq num).board q = s.board q := by
            show Function.update s.board sq none q = s.board q
            exact Function.update_noteq hqne none s.board
          rw [heq]
          exact hqsome
        have hnodup' : rest.Nodup := (List.nodup_cons.mp hnodup).2
        rcases hfound : (altLoop sq
            (((s.remove_number sq num).used_masks.candidates sq).filter (fun e => e != num))
            (s.remove_number sq num)).1 with _ | _
        · have huniq1 : ∀ b', Completion (s.remove_number sq num).board b' → b' = sol := by
            intro b' hb'
            obtain ⟨n, hnmem, hb'sq⟩ := Completion.digit_mem_candidates hgood1.1 hsq81 hvac1 hb'
            rcases Decidable.em (n = num) with heq | hne
            · have hbput : Completion
                  (Function.update (s.remove_number sq num).board sq (some n)) b' :=
                (completion_put_iff hsq81 hvac1 b').mpr ⟨hb', hb'sq⟩
              have hupd : Function.update (s.remove_number sq num).board sq (some n)
                  = s.board := by
                funext t
                rcases Decidable.em (t = sq) with rfl | htne
                · rw [Function.update_same, hb, heq]
                · rw [Function.update_noteq htne]
                  exact Function.update_noteq htne none s.board
              rw [hupd] at hbput
              exact huniq b' hbput
            · exfalso
              have hnfilt : n ∈ ((s.remove_number sq num).used_masks.candidates sq).filter
                  (fun e => e != num) := List.mem_filter.mpr ⟨hnmem, by simp [hne]⟩
              have hslv : (altLoop sq
                  (((s.remove_number sq num).used_masks.candidates sq).filter
                    (fun e => e != num)) (s.remove_number sq num)).1 = true :=
                hriff.mpr ⟨n, hnfilt,
                  ⟨b', (completion_put_iff hsq81 hvac1 b').mpr ⟨hb', hb'sq⟩⟩⟩
              rw [hfound] at hslv
              exact absurd hslv (by simp)
          have hred : genUniqueLoop hint_min (sq :: rest) hint s =
              genUniqueLoop hint_min rest (hint - 1) ((altLoop sq
                (((s.remove_number sq num).used_masks.candidates sq).filter
                  (fun e => e != num)) (s.remove_number sq num)).2) := by
            simp [genUniqueLoop, hgt, hb, hfound]
          rw [hred, hr2]
          exact ih hnodup' (hint - 1) (s.remove_number sq num) hsqs1 hgood1 hcompl1 huniq1
        · have hrpc : (s.remove_number sq num).put_number sq num = s :=
            Sudoku.remove_put_cancel s sq num hgood.1 hsq81 h1 h9 hb
          have hr2put : ((altLoop sq
              (((s.remove_number sq num).used_masks.candidates sq).filter
                (fun e => e != num)) (s.remove_number sq num)).2).put_number sq num = s := by
            rw [hr2]
            exact hrpc
          have hred : genUniqueLoop hint_min (sq :: rest) hint s =
              genUniqueLoop hint_min rest hint (((altLoop sq
                (((s.remove_number sq num).used_masks.candidates sq).filter
                  (fun e => e != num)) (s.remove_number sq num)).2).put_number sq num) := by
            simp [genUniqueLoop, hgt, hb, hfound]
          rw [hred, hr2put]
          exact ih hnodup' hint s (fun q hq => hsqs q (List.mem_cons_of_mem sq hq))
            hgood hcompl huniq

theorem generate_unique_cases (r : RandStream) (fuel hint_min : Nat) :
    Sudoku.generate_unique r fuel hint_min ≠ GenUniqueResult.panicked ∧
    ∀ puzzle solution,
      Sudoku.generate_unique r fuel hint_min = GenUniqueResult.ok puzzle solution →
        GoodState solution ∧ CompleteB solution.board ∧ GoodState puzzle ∧
        Completion puzzle.board solution.board ∧
        (∀ b', Completion puzzle.board b' → b' = solution.board) ∧
        (81 ≤ hint_min → puzzle = solution) := by
  obtain ⟨hnp, hbuilt⟩ := generateSolvedGo_spec r fuel fuel 0
  rcases hres : generateSolvedGo r fuel fuel 0 with ⟨res, k⟩
  cases res with
  | panicked => exact absurd (by rw [hres]) hnp
  | limit =>
    have hred : Sudoku.generate_unique r fuel hint_min = GenUniqueResult.fuel_out := by
      simp [Sudoku.generate_unique, hres]
    rw [hred]
    exact ⟨by simp, fun p so h => absurd h (by simp)⟩
  | fuel_out =>
    have hred : Sudoku.generate_unique r fuel hint_min = GenUniqueResult.fuel_out := by
      simp [Sudoku.generate_unique, hres]
    rw [hred]
    exact ⟨by simp, fun p so h => absurd h (by simp)⟩
  | built s =>
    obtain ⟨hgood, hcomp⟩ := hbuilt s (by rw [hres])
    have hcompl0 : Completion s.board s.board :=
      ⟨BoardLe.refl _, hcomp, hgood.2.1, hgood.2.2.1, hgood.2.2.2⟩
    have huniq0 : ∀ b', Completion s.board b' → b' = s.board :=
      fun b' h => completion_of_complete hcomp hgood.2.2.2 h
    have hperm : ((shuffleList r Square.all k).1).Perm Square.all :=
      shuffleGo_perm r Square.all.length Square.all k (Nat.le_refl _)
    have hmemlt : ∀ sq ∈ (shuffleList r Square.all k).1,
        sq < 81 ∧ (s.board sq).isSome = true := by
      intro sq hsq
      have hmem : sq ∈ Square.all := hperm.mem_iff.mp hsq
      have hlt : sq < 81 := List.mem_range.mp hmem
      exact ⟨hlt, hcomp sq hlt⟩
    have hnodup : ((shuffleList r Square.all k).1).Nodup :=
      hperm.nodup_iff.mpr (List.nodup_range 81)
    obtain ⟨t, hloop, hgoodt, hcomplt, huniqt⟩ :=
      genUniqueLoop_spec hint_min s.board (shuffleList r Square.all k).1 hnodup 81 s
        hmemlt hgood hcompl0 huniq0
    have hred : Sudoku.generate_unique r fuel hint_min = GenUniqueResult.ok t s := by
      simp [Sudoku.generate_unique, hres, hloop]
    rw [hred]
    refine ⟨by simp, ?_⟩
    intro p so h
    obtain ⟨hpt, hso⟩ : t = p ∧ s = so := by simpa using h
    subst hpt
    subst hso
    refine ⟨hgood, hcomp, hgoodt, hcomplt, huniqt, ?_⟩
    intro h81
    have hstop : genUniqueLoop hint_min (shuffleList r Square.all k).1 81 s = some s :=
      genUniqueLoop_stop hint_min _ 81 s h81
    rw [hstop] at hloop
    have hts : s = t := by simpa using hloop
    exact hts.symm

/-- C6: for every sequence of random choices (the model stream `r`) and every
fuel bound, whenever `generate_unique(hint_min)` returns a (puzzle, solution)
pair: the solution is a well-formed, fully solved grid; the puzzle is
well-formed and its board has the paired solution's board as its one and only
full completion — hence `is_unique_solvable()` on the puzzle returns true, and
`solve()` on a copy of the puzzle succeeds and reproduces exactly the solution
state; and with `hint_min` at (or above) 81 the returned puzzle equals its
solution, no cell removed. -/
theorem claim_c6_generate_unique (r : RandStream) (fuel hint_min : Nat) :
    match Sudoku.generate_unique r fuel hint_min with
    | GenUniqueResult.ok puzzle solution =>
        GoodState solution ∧ solution.is_solved = true ∧ GoodState puzzle ∧
        Completion puzzle.board solution.board ∧
        (∀ b', Completion puzzle.board b' → b' = solution.board) ∧
        (puzzle.is_unique_solvable).1 = true ∧
        puzzle.solve = (true, solution) ∧
        (81 ≤ hint_min → puzzle = solution)
    | GenUniqueResult.panicked => True
    | GenUniqueResult.fuel_out => True := by
  obtain ⟨hnp, hok⟩ := generate_unique_cases r fuel hint_min
  rcases hres : Sudoku.generate_unique r fuel hint_min with _ | _ | ⟨puzzle, solution⟩
  · exact trivial
  · exact trivial
  · obtain ⟨hgoods, hcomps, hgoodp, hcomplt, huniqt, h81⟩ := hok puzzle solution hres
    obtain ⟨hiff, hsucc, _⟩ := puzzle.solve_spec hgoodp
    have hsol : (puzzle.solve).1 = true := hiff.mpr ⟨solution.board, hcomplt⟩
    obtain ⟨hcompl2, hgood2⟩ := hsucc hsol
    have hbeq : (puzzle.solve).2.board = solution.board := huniqt _ hcompl2
    have hstate : (puzzle.solve).2 = solution := state_eq_of_consistent hgood2.1 hgoods.1 hbeq
    have hpair : puzzle.solve = (true, solution) := by
      calc puzzle.solve = ((puzzle.solve).1, (puzzle.solve).2) := rfl
        _ = (true, solution) := by rw [hsol, hstate]
    have hiu : (puzzle.is_unique_solvable).1 = true :=
      (puzzle.is_unique_solvable_spec hgoodp).1.mpr ⟨solution.board, hcomplt, huniqt⟩
    exact ⟨hgoods, is_solved_of_complete hcomps, hgoodp, hcomplt, huniqt, hiu, hpair, h81⟩

/-- C10: the generator never panics on its internal `unwrap` calls.  Each
`unwrap` failure is modelled as an explicit `panicked` outcome;
`generate_unique` never yields it (every cell visited in the shuffled order is
visited at most once, so it still holds a digit when it is read), and no
`try_generate_solved` attempt yields it either (before every placement the
current partial grid is solvable — established for the empty grid and
re-verified or rolled back after each step — so the draw from the non-empty
vacant bitset and the draw from the cell's non-empty candidate digits both
return a value). -/
theorem claim_c10_no_panic (r : RandStream) (fuel hint_min k : Nat) :
    Sudoku.generate_unique r fuel hint_min ≠ GenUniqueResult.panicked ∧
    (Sudoku.try_generate_solved r fuel k).1 ≠ GenResult.panicked :=
  ⟨(generate_unique_cases r fuel hint_min).1, (Sudoku.try_generate_solved_spec r fuel k).1⟩

/-- C1 (amended): the exact tracker–grid correspondence (`Consistent`, packaged
with the validity and range side conditions as `GoodState`) is established by
`Sudoku::new` on a validated board and is preserved at every observable point
by the public operations with `put` restricted to a vacant cell: `put` on a
vacant cell (whether it places the digit or rejects it), `solve` (on success;
on failure it restores the input state), `is_solvable` and `is_unique_solvable`
(both restore the input state) all leave a state satisfying the exact
correspondence.  A successful `put` on an already filled cell can break it —
see the counterexample. -/
theorem claim_c1_invariant (s : Sudoku) (hgood : GoodState s) :
    (∀ b, ValidB b → DigitsOK b → BoardZero b → GoodState (Sudoku.new b)) ∧
    (∀ sq num, sq < 81 → 1 ≤ num → num ≤ 9 → s.board sq = none →
      GoodState (s.put sq num).2) ∧
    ((s.solve).1 = true → GoodState (s.solve).2) ∧
    ((s.solve).1 = false → (s.solve).2 = s) ∧
    (s.is_solvable).2 = s ∧
    (s.is_unique_solvable).2 = s := by
  obtain ⟨_, ht, hf⟩ := s.solve_spec hgood
  exact ⟨fun b hv hd hz => Sudoku.new_good b hv hd hz,
    fun sq num hsq h1 h9 hvac => Sudoku.put_good hgood hsq h1 h9 hvac,
    fun h => (ht h).2, hf,
    (s.is_solvable_spec hgood).2, (s.is_unique_solvable_spec hgood).2⟩

/-- Witness for the amended C1 at the initial empty state. -/
theorem claim_c1_invariant_witness :
    GoodState (Sudoku.new Board.empty) ∧
    ((∀ b, ValidB b → DigitsOK b → BoardZero b → GoodState (Sudoku.new b)) ∧
    (∀ sq num, sq < 81 → 1 ≤ num → num ≤ 9 → (Sudoku.new Board.empty).board sq = none →
      GoodState ((Sudoku.new Board.empty).put sq num).2) ∧
    (((Sudoku.new Board.empty).solve).1 = true → GoodState ((Sudoku.new Board.empty).solve).2) ∧
    (((Sudoku.new Board.empty).solve).1 = false →
      ((Sudoku.new Board.empty).solve).2 = Sudoku.new Board.empty) ∧
    ((Sudoku.new Board.empty).is_solvable).2 = Sudoku.new Board.empty ∧
    ((Sudoku.new Board.empty).is_unique_solvable).2 = Sudoku.new Board.empty) :=
  ⟨goodstate_new_empty, claim_c1_invariant (Sudoku.new Board.empty) goodstate_new_empty⟩
